import Mathlib

/-!
Shallow embedding of the market-microstructure simulator's core
(order book and matching engine) from `src/cpp`, together with proofs
about its behaviour.

Machine integers: `Price`, `Qty`, `Timestamp` are C++ `int64_t`; they are
modelled as `Int` (no operation here relies on wraparound, and signed
overflow is undefined behaviour in the source, so the defined executions
are exactly the `Int` ones).  `OrderId` is `uint64_t`, modelled as `Nat`
(ids are only compared for equality).  `order_count_` is `size_t`,
modelled as `Nat` with truncated subtraction: in the source every
decrement follows the removal of a resting order, so the counter never
underflows on any execution examined here.
-/

namespace MMS

inductive Side where
  | BUY
  | SELL
deriving DecidableEq, Repr

inductive EventType where
  | LIMIT
  | MARKET
  | CANCEL
  | UNKNOWN
deriving DecidableEq, Repr

structure Order where
  id : Nat
  side : Side
  price : Int
  quantity : Int
  timestamp : Int
deriving DecidableEq, Repr

structure Trade where
  maker_id : Nat
  taker_id : Nat
  price : Int
  quantity : Int
  timestamp : Int
deriving DecidableEq, Repr

structure Event where
  type : EventType
  order_id : Nat
  side : Side
  price : Int
  quantity : Int
  timestamp : Int
  agent_id : Nat
deriving DecidableEq, Repr

def is_valid_price (price : Int) : Bool :=
  decide (0 < price)

def is_valid_quantity (quantity : Int) : Bool :=
  decide (0 < quantity)

/-- One price level: FIFO queue of resting orders plus the maintained
quantity sum (`OrderBookPriceLevel` in `order_book.hpp`). -/
structure OrderBookPriceLevel where
  orders : List Order
  total_quantity : Int
deriving DecidableEq, Repr

def OrderBookPriceLevel.init : OrderBookPriceLevel :=
  { orders := [], total_quantity := 0 }

def OrderBookPriceLevel.add_order (l : OrderBookPriceLevel) (o : Order) :
    OrderBookPriceLevel :=
  { orders := l.orders ++ [o], total_quantity := l.total_quantity + o.quantity }

/-- Remove the first order with the given id from the queue
(`OrderBookPriceLevel::remove_order`): returns the removed order and the
remaining queue, or `none` when absent. -/
def removeFirstById (order_id : Nat) : List Order → Option (Order × List Order)
  | [] => none
  | o :: rest =>
    if o.id = order_id then some (o, rest)
    else
      match removeFirstById order_id rest with
      | none => none
      | some (r, rest2) => some (r, o :: rest2)

def OrderBookPriceLevel.remove_order (l : OrderBookPriceLevel) (order_id : Nat) :
    Option Order × OrderBookPriceLevel :=
  match removeFirstById order_id l.orders with
  | none => (none, l)
  | some (o, rest) => (some o, { orders := rest, total_quantity := l.total_quantity - o.quantity })

/-- `OrderBookPriceLevel::consume_order`: consume up to `quantity` from the
head of the queue.  Returns `(fully_consumed, consumed_order, new level)`,
or `none` on an empty queue (the C++ returns `false` leaving the output
unset; the matching loop only calls it on non-empty queues). -/
def OrderBookPriceLevel.consume_order (l : OrderBookPriceLevel) (quantity : Int) :
    Option (Bool × Order × OrderBookPriceLevel) :=
  match l.orders with
  | [] => none
  | front :: rest =>
    if front.quantity ≤ quantity then
      some (true, front,
        { orders := rest, total_quantity := l.total_quantity - front.quantity })
    else
      some (false, { front with quantity := quantity },
        { orders := { front with quantity := front.quantity - quantity } :: rest,
          total_quantity := l.total_quantity - quantity })

/-- `std::map<Price, OrderBookPriceLevel, cmp>` is modelled as an
association list sorted by the strict order `lt` (for `buy_levels_`,
`lt p q` means `p > q`; for `sell_levels_`, `p < q`).
`mapAddOrder` is `levels[price].add_order(order)`: default-construct the
level when absent, then append. -/
def mapAddOrder (lt : Int → Int → Bool) (p : Int) (o : Order) :
    List (Int × OrderBookPriceLevel) → List (Int × OrderBookPriceLevel)
  | [] => [(p, OrderBookPriceLevel.init.add_order o)]
  | (q, l) :: rest =>
    if p = q then (q, l.add_order o) :: rest
    else if lt p q then (p, OrderBookPriceLevel.init.add_order o) :: (q, l) :: rest
    else (q, l) :: mapAddOrder lt p o rest

def mapFind (p : Int) : List (Int × OrderBookPriceLevel) → Option OrderBookPriceLevel
  | [] => none
  | (q, l) :: rest => if q = p then some l else mapFind p rest

def mapUpdate (p : Int) (l : OrderBookPriceLevel) :
    List (Int × OrderBookPriceLevel) → List (Int × OrderBookPriceLevel)
  | [] => []
  | (q, m) :: rest => if q = p then (q, l) :: rest else (q, m) :: mapUpdate p l rest

def mapErase (p : Int) : List (Int × OrderBookPriceLevel) → List (Int × OrderBookPriceLevel)
  | [] => []
  | (q, m) :: rest => if q = p then rest else (q, m) :: mapErase p rest

/-- The id → (price, side) index `order_lookup_`
(`std::unordered_map<OrderId, std::pair<Price, Side>>`), modelled as an
association list with insert-or-assign semantics. -/
def lookupFind (id : Nat) : List (Nat × Int × Side) → Option (Int × Side)
  | [] => none
  | (k, v) :: rest => if k = id then some v else lookupFind id rest

def lookupInsert (id : Nat) (v : Int × Side) :
    List (Nat × Int × Side) → List (Nat × Int × Side)
  | [] => [(id, v)]
  | (k, w) :: rest => if k = id then (k, v) :: rest else (k, w) :: lookupInsert id v rest

def lookupErase (id : Nat) : List (Nat × Int × Side) → List (Nat × Int × Side)
  | [] => []
  | (k, w) :: rest => if k = id then rest else (k, w) :: lookupErase id rest

/-- `OrderBook` (order_book.hpp): two sorted by-price maps, the id index,
and the running counters. -/
structure OrderBook where
  buy_levels : List (Int × OrderBookPriceLevel)
  sell_levels : List (Int × OrderBookPriceLevel)
  order_lookup : List (Nat × Int × Side)
  order_count : Nat
  last_trade_price : Int
  total_volume : Int
  trade_count : Nat
deriving DecidableEq, Repr

def OrderBook.emptyBook : OrderBook :=
  { buy_levels := [], sell_levels := [], order_lookup := [],
    order_count := 0, last_trade_price := 0, total_volume := 0, trade_count := 0 }

/-- Comparator of `buy_levels_` (`std::greater<Price>`: descending). -/
def buyLt (p q : Int) : Bool := decide (q < p)

/-- Comparator of `sell_levels_` (`std::less<Price>`: ascending). -/
def sellLt (p q : Int) : Bool := decide (p < q)

/-- `OrderBook::add_limit_order_to_side`. -/
def OrderBook.add_limit_order_to_side (b : OrderBook) (o : Order) : Bool × OrderBook :=
  let b1 :=
    match o.side with
    | Side.BUY => { b with buy_levels := mapAddOrder buyLt o.price o b.buy_levels }
    | Side.SELL => { b with sell_levels := mapAddOrder sellLt o.price o b.sell_levels }
  (true,
    { b1 with
      order_lookup := lookupInsert o.id (o.price, o.side) b1.order_lookup
      order_count := b1.order_count + 1 })

/-- `OrderBook::add_limit_order`: reject on non-positive price or quantity
(the source performs no duplicate-id check). -/
def OrderBook.add_limit_order (b : OrderBook) (o : Order) : Bool × OrderBook :=
  if !is_valid_price o.price || !is_valid_quantity o.quantity then (false, b)
  else b.add_limit_order_to_side o

/-- The mutable state threaded through `match_market_order_buy/sell`:
the trade list, the aggressor's remaining quantity, and the book fields
those loops update. -/
structure MatchAcc where
  trades : List Trade
  remaining_qty : Int
  order_lookup : List (Nat × Int × Side)
  order_count : Nat
  last_trade_price : Int
  total_volume : Int
  trade_count : Nat
deriving DecidableEq, Repr

/-- The inner `while (!level.empty() && remaining_qty > 0)` loop of
`match_market_order_buy/sell`, with `consume_order` inlined.  Returns the
updated accumulator, the level's remaining queue and its `total_quantity`.
In the partially-filled branch the source assigns `remaining_qty = 0` and
only then does `total_volume_ += remaining_qty`, so the volume counter
gains `0` there. -/
def matchLevelLoop (price : Int) (taker_id : Nat) (timestamp : Int)
    (acc : MatchAcc) (orders : List Order) (total : Int) :
    MatchAcc × List Order × Int :=
  match orders with
  | [] => (acc, [], total)
  | front :: rest =>
    if acc.remaining_qty ≤ 0 then (acc, front :: rest, total)
    else if front.quantity ≤ acc.remaining_qty then
      let acc1 : MatchAcc :=
        { trades := acc.trades ++
            [{ maker_id := front.id, taker_id := taker_id, price := price,
               quantity := front.quantity, timestamp := timestamp }]
          remaining_qty := acc.remaining_qty - front.quantity
          order_lookup := lookupErase front.id acc.order_lookup
          order_count := acc.order_count - 1
          last_trade_price := price
          total_volume := acc.total_volume + front.quantity
          trade_count := acc.trade_count + 1 }
      matchLevelLoop price taker_id timestamp acc1 rest (total - front.quantity)
    else
      let acc1 : MatchAcc :=
        { trades := acc.trades ++
            [{ maker_id := front.id, taker_id := taker_id, price := price,
               quantity := acc.remaining_qty, timestamp := timestamp }]
          remaining_qty := 0
          order_lookup := acc.order_lookup
          order_count := acc.order_count
          last_trade_price := price
          total_volume := acc.total_volume + 0
          trade_count := acc.trade_count + 1 }
      (acc1, { front with quantity := front.quantity - acc.remaining_qty } :: rest,
        total - acc.remaining_qty)

/-- The outer `for` loop of `match_market_order_buy/sell`: walk the levels
best-price first while quantity remains, erasing emptied levels. -/
def matchLevels (taker_id : Nat) (timestamp : Int) (acc : MatchAcc) :
    List (Int × OrderBookPriceLevel) →
    MatchAcc × List (Int × OrderBookPriceLevel)
  | [] => (acc, [])
  | (price, level) :: rest =>
    if acc.remaining_qty ≤ 0 then (acc, (price, level) :: rest)
    else
      let r := matchLevelLoop price taker_id timestamp acc level.orders level.total_quantity
      if r.2.1.isEmpty then
        matchLevels taker_id timestamp r.1 rest
      else
        let r2 := matchLevels taker_id timestamp r.1 rest
        (r2.1, (price, { orders := r.2.1, total_quantity := r.2.2 }) :: r2.2)

def MatchAcc.ofBook (b : OrderBook) (quantity : Int) : MatchAcc :=
  { trades := [], remaining_qty := quantity, order_lookup := b.order_lookup,
    order_count := b.order_count, last_trade_price := b.last_trade_price,
    total_volume := b.total_volume, trade_count := b.trade_count }

def OrderBook.applyAcc (b : OrderBook) (acc : MatchAcc) : OrderBook :=
  { b with
    order_lookup := acc.order_lookup
    order_count := acc.order_count
    last_trade_price := acc.last_trade_price
    total_volume := acc.total_volume
    trade_count := acc.trade_count }

/-- `OrderBook::match_market_order_buy`: match against the sell levels. -/
def OrderBook.match_market_order_buy (b : OrderBook) (quantity : Int)
    (taker_id : Nat) (timestamp : Int) : List Trade × OrderBook :=
  let r := matchLevels taker_id timestamp (MatchAcc.ofBook b quantity) b.sell_levels
  (r.1.trades, { b.applyAcc r.1 with sell_levels := r.2 })

/-- `OrderBook::match_market_order_sell`: match against the buy levels. -/
def OrderBook.match_market_order_sell (b : OrderBook) (quantity : Int)
    (taker_id : Nat) (timestamp : Int) : List Trade × OrderBook :=
  let r := matchLevels taker_id timestamp (MatchAcc.ofBook b quantity) b.buy_levels
  (r.1.trades, { b.applyAcc r.1 with buy_levels := r.2 })

/-- `OrderBook::add_market_order`. -/
def OrderBook.add_market_order (b : OrderBook) (side : Side) (quantity : Int)
    (taker_id : Nat) (timestamp : Int) : List Trade × OrderBook :=
  match side with
  | Side.BUY => b.match_market_order_buy quantity taker_id timestamp
  | Side.SELL => b.match_market_order_sell quantity taker_id timestamp

/-- `OrderBook::remove_order_from_side` restricted to one side's map:
find the level, remove the first order with the id, then on success erase
the level if it emptied. -/
def removeFromLevels (order_id : Nat) (price : Int)
    (levels : List (Int × OrderBookPriceLevel)) :
    Bool × List (Int × OrderBookPriceLevel) :=
  match mapFind price levels with
  | none => (false, levels)
  | some level =>
    match level.remove_order order_id with
    | (none, _) => (false, levels)
    | (some _, level1) =>
      if level1.orders.isEmpty then (true, mapErase price levels)
      else (true, mapUpdate price level1 levels)

/-- `OrderBook::remove_order_from_side`: on successful removal also erase
the lookup entry and decrement the counter. -/
def OrderBook.remove_order_from_side (b : OrderBook) (order_id : Nat)
    (price : Int) (side : Side) : OrderBook :=
  match side with
  | Side.BUY =>
    let r := removeFromLevels order_id price b.buy_levels
    if r.1 then
      { b with buy_levels := r.2,
               order_lookup := lookupErase order_id b.order_lookup,
               order_count := b.order_count - 1 }
    else b
  | Side.SELL =>
    let r := removeFromLevels order_id price b.sell_levels
    if r.1 then
      { b with sell_levels := r.2,
               order_lookup := lookupErase order_id b.order_lookup,
               order_count := b.order_count - 1 }
    else b

/-- `OrderBook::cancel_order`. -/
def OrderBook.cancel_order (b : OrderBook) (order_id : Nat) : Bool × OrderBook :=
  match lookupFind order_id b.order_lookup with
  | none => (false, b)
  | some (price, side) => (true, b.remove_order_from_side order_id price side)

def OrderBook.best_bid_price (b : OrderBook) : Option Int :=
  match b.buy_levels with
  | [] => none
  | (p, _) :: _ => some p

def OrderBook.best_bid_quantity (b : OrderBook) : Option Int :=
  match b.buy_levels with
  | [] => none
  | (_, l) :: _ => some l.total_quantity

def OrderBook.best_ask_price (b : OrderBook) : Option Int :=
  match b.sell_levels with
  | [] => none
  | (p, _) :: _ => some p

def OrderBook.best_ask_quantity (b : OrderBook) : Option Int :=
  match b.sell_levels with
  | [] => none
  | (_, l) :: _ => some l.total_quantity

/-- `OrderBook::clear`. -/
def OrderBook.clearBook (_ : OrderBook) : OrderBook :=
  OrderBook.emptyBook

/-- `MatchingEngine::process_limit_order`: admit, then on marketability
invoke the market matcher.  Note the source passes the OPPOSITE side enum
to `add_market_order` ("Market order against sell side" passes
`Side::SELL`), so the matcher walks the same side the new order was just
admitted to. -/
def processLimitOrder (b : OrderBook) (e : Event) : List Trade × OrderBook :=
  let o : Order :=
    { id := e.order_id, side := e.side, price := e.price,
      quantity := e.quantity, timestamp := e.timestamp }
  let r := b.add_limit_order o
  if r.1 then
    match e.side with
    | Side.BUY =>
      match r.2.best_ask_price with
      | none => ([], r.2)
      | some best_ask =>
        if best_ask ≤ e.price then
          r.2.add_market_order Side.SELL e.quantity e.order_id e.timestamp
        else ([], r.2)
    | Side.SELL =>
      match r.2.best_bid_price with
      | none => ([], r.2)
      | some best_bid =>
        if e.price ≤ best_bid then
          r.2.add_market_order Side.BUY e.quantity e.order_id e.timestamp
        else ([], r.2)
  else ([], b)

/-- `MatchingEngine::process_event` (observer callbacks do not alter the
book state and are not modelled). -/
def processEvent (b : OrderBook) (e : Event) : List Trade × OrderBook :=
  match e.type with
  | EventType.LIMIT => processLimitOrder b e
  | EventType.MARKET => b.add_market_order e.side e.quantity e.order_id e.timestamp
  | EventType.CANCEL => ([], (b.cancel_order e.order_id).2)
  | EventType.UNKNOWN => ([], b)

/-- `MatchingEngine::process_events`. -/
def processEvents (b : OrderBook) : List Event → List Trade × OrderBook
  | [] => ([], b)
  | e :: rest =>
    let r := processEvent b e
    let r2 := processEvents r.2 rest
    (r.1 ++ r2.1, r2.2)

/-- The level map the aggressor side of `add_market_order` matches
against. -/
def oppositeLevels (b : OrderBook) : Side → List (Int × OrderBookPriceLevel)
  | Side.BUY => b.sell_levels
  | Side.SELL => b.buy_levels

/-- Book states reachable from the empty book by the public `OrderBook`
operations. -/
inductive Reachable : OrderBook → Prop where
  | emptyR : Reachable OrderBook.emptyBook
  | limit (b : OrderBook) (o : Order) : Reachable b →
      Reachable (b.add_limit_order o).2
  | market (b : OrderBook) (s : Side) (q : Int) (id : Nat) (ts : Int) :
      Reachable b → Reachable (b.add_market_order s q id ts).2
  | cancel (b : OrderBook) (id : Nat) : Reachable b →
      Reachable (b.cancel_order id).2
  | clearR (b : OrderBook) : Reachable b → Reachable b.clearBook

/-- Book states reachable when, in addition, every admitted limit order
carries an id that is not currently in the `by_id` index. -/
inductive ReachableFresh : OrderBook → Prop where
  | emptyR : ReachableFresh OrderBook.emptyBook
  | limit (b : OrderBook) (o : Order) : ReachableFresh b →
      lookupFind o.id b.order_lookup = none →
      ReachableFresh (b.add_limit_order o).2
  | market (b : OrderBook) (s : Side) (q : Int) (id : Nat) (ts : Int) :
      ReachableFresh b → ReachableFresh (b.add_market_order s q id ts).2
  | cancel (b : OrderBook) (id : Nat) : ReachableFresh b →
      ReachableFresh (b.cancel_order id).2
  | clearR (b : OrderBook) : ReachableFresh b → ReachableFresh b.clearBook

/-- The book's top of book is not crossed: a side is empty or
best bid < best ask. -/
def NoCross (b : OrderBook) : Prop :=
  b.buy_levels = [] ∨ b.sell_levels = [] ∨
    ∃ pb pa, b.best_bid_price = some pb ∧ b.best_ask_price = some pa ∧ pb < pa

def sumQ : List Order → Int
  | [] => 0
  | o :: rest => o.quantity + sumQ rest

def flatOrders : List (Int × OrderBookPriceLevel) → List Order
  | [] => []
  | pl :: rest => pl.2.orders ++ flatOrders rest

/-- The queue resting at price `p` ( `[]` when the level is absent). -/
def ordersAtLevel (levels : List (Int × OrderBookPriceLevel)) (p : Int) : List Order :=
  match mapFind p levels with
  | none => []
  | some l => l.orders

def sideLevels (b : OrderBook) : Side → List (Int × OrderBookPriceLevel)
  | Side.BUY => b.buy_levels
  | Side.SELL => b.sell_levels

/-- All orders resting in the book (bid side then ask side). -/
def restingOrders (b : OrderBook) : List Order :=
  flatOrders b.buy_levels ++ flatOrders b.sell_levels

def eraseIds (ids : List Nat) (l : List (Nat × Int × Side)) : List (Nat × Int × Side) :=
  ids.foldl (fun acc id => lookupErase id acc) l

/-- A strict total order given as a boolean comparator (satisfied by both
`buyLt` and `sellLt`). -/
def LtOk (lt : Int → Int → Bool) : Prop :=
  (∀ a, lt a a = false) ∧
  (∀ a b c, lt a b = true → lt b c = true → lt a c = true) ∧
  (∀ a b, a ≠ b → lt a b = true ∨ lt b a = true)

/-- Both side maps are sorted by their comparator: bids strictly
descending, asks strictly ascending. -/
def BookSorted (b : OrderBook) : Prop :=
  List.Pairwise (fun x y => buyLt x y = true) (b.buy_levels.map Prod.fst) ∧
  List.Pairwise (fun x y => sellLt x y = true) (b.sell_levels.map Prod.fst)

/-- Every order rests in the level keyed by its own price. -/
def PricesMatch (b : OrderBook) : Prop :=
  ∀ pl ∈ b.buy_levels ++ b.sell_levels, ∀ o ∈ pl.2.orders, o.price = pl.1

/-- The id index has no duplicate keys. -/
def KeysNodup (b : OrderBook) : Prop :=
  (b.order_lookup.map Prod.fst).Nodup

/-- Every `by_id` entry points at a level where an order with that id
actually rests. -/
def LookupSound (b : OrderBook) : Prop :=
  ∀ id p s, lookupFind id b.order_lookup = some (p, s) →
    ∃ o ∈ ordersAtLevel (sideLevels b s) p, o.id = id

/-- Every resting order has a correctly-pointing `by_id` entry. -/
def LookupComplete (b : OrderBook) : Prop :=
  ∀ s, ∀ pl ∈ sideLevels b s, ∀ o ∈ pl.2.orders,
    lookupFind o.id b.order_lookup = some (pl.1, s)

/-- Resting ids are pairwise distinct. -/
def IdsNodup (b : OrderBook) : Prop :=
  ((restingOrders b).map Order.id).Nodup

/-- Every level's maintained `total_quantity` is the sum of the residual
quantities of its queue. -/
def TotalsOk (b : OrderBook) : Prop :=
  ∀ pl ∈ b.buy_levels ++ b.sell_levels, pl.2.total_quantity = sumQ pl.2.orders

/-- No empty level is kept in either map. -/
def LevelsNonempty (b : OrderBook) : Prop :=
  ∀ pl ∈ b.buy_levels ++ b.sell_levels, pl.2.orders ≠ []

/-- The keys of the id index are exactly the resting ids. -/
def KeysIff (b : OrderBook) : Prop :=
  ∀ id, (∃ v, lookupFind id b.order_lookup = some v) ↔
    id ∈ (restingOrders b).map Order.id

/-- Invariant of all reachable books (duplicate-id admissions allowed). -/
def InvR (b : OrderBook) : Prop :=
  BookSorted b ∧ KeysNodup b ∧ LookupSound b ∧ PricesMatch b

/-- Invariant of books reachable with fresh-id admissions only. -/
def InvF (b : OrderBook) : Prop :=
  InvR b ∧ LookupComplete b ∧ IdsNodup b ∧
  KeysIff b ∧ b.order_count = (restingOrders b).length ∧
  b.order_lookup.length = b.order_count ∧ TotalsOk b

/-- A sample order and the one-order book reached by admitting it with a
fresh id, used to instantiate the fresh-reachability results. -/
def sampleOrder : Order :=
  { id := 1, side := Side.BUY, price := 10000, quantity := 100, timestamp := 1000 }

def sampleFreshBook : OrderBook :=
  (OrderBook.emptyBook.add_limit_order sampleOrder).2

section BasicLemmas

/-- With no quantity left, the level walk is the identity. -/
theorem matchLevels_nonpos (taker_id : Nat) (timestamp : Int) (acc : MatchAcc)
    (levels : List (Int × OrderBookPriceLevel)) (h : acc.remaining_qty ≤ 0) :
    matchLevels taker_id timestamp acc levels = (acc, levels) := by
  cases levels with
  | nil => rfl
  | cons hd tl =>
    obtain ⟨p, l⟩ := hd
    simp [matchLevels, h]

theorem applyAcc_ofBook (b : OrderBook) (q : Int) :
    b.applyAcc (MatchAcc.ofBook b q) = b := rfl

end BasicLemmas

section LookupLemmas

theorem lookupFind_insert_self (id : Nat) (v : Int × Side) :
    ∀ l : List (Nat × Int × Side), lookupFind id (lookupInsert id v l) = some v := by
  intro l
  induction l with
  | nil => simp [lookupInsert, lookupFind]
  | cons hd tl ih =>
    obtain ⟨k, w⟩ := hd
    by_cases hk : k = id
    · simp [lookupInsert, lookupFind, hk]
    · simp [lookupInsert, lookupFind, hk, ih]

theorem lookupFind_insert_ne (id k : Nat) (v : Int × Side) (h : id ≠ k) :
    ∀ l : List (Nat × Int × Side), lookupFind id (lookupInsert k v l) = lookupFind id l := by
  intro l
  have hki : ¬ (k = id) := fun hh => h hh.symm
  induction l with
  | nil => simp [lookupInsert, lookupFind, hki]
  | cons hd tl ih =>
    obtain ⟨k2, w⟩ := hd
    by_cases hk : k2 = k
    · have hk2 : ¬ (k2 = id) := fun hh => hki (hk ▸ hh)
      simp [lookupInsert, lookupFind, hk, hk2, hki]
    · by_cases hid : k2 = id
      · simp [lookupInsert, lookupFind, hk, hid, hki, h]
      · simp [lookupInsert, lookupFind, hk, hid, ih, hki]

theorem lookupErase_sublist (k : Nat) :
    ∀ l : List (Nat × Int × Side), List.Sublist (lookupErase k l) l := by
  intro l
  induction l with
  | nil => simp [lookupErase]
  | cons hd tl ih =>
    obtain ⟨k2, w⟩ := hd
    by_cases hk : k2 = k
    · simp only [lookupErase, if_pos hk]
      exact List.Sublist.cons _ (List.Sublist.refl tl)
    · simp only [lookupErase, if_neg hk]
      exact List.Sublist.cons₂ _ ih

theorem lookupFind_erase_ne (id k : Nat) (h : id ≠ k) :
    ∀ l : List (Nat × Int × Side), lookupFind id (lookupErase k l) = lookupFind id l := by
  intro l
  have hki : ¬ (k = id) := fun hh => h hh.symm
  induction l with
  | nil => simp [lookupErase]
  | cons hd tl ih =>
    obtain ⟨k2, w⟩ := hd
    by_cases hk : k2 = k
    · have hk2 : ¬ (k2 = id) := fun hh => hki (hk ▸ hh)
      simp [lookupErase, lookupFind, hk, hk2, hki, ih]
    · by_cases hid : k2 = id
      · simp [lookupErase, lookupFind, hk, hid, hki, h]
      · simp [lookupErase, lookupFind, hk, hid, ih, hki]

theorem lookupFind_eq_none_iff (id : Nat) :
    ∀ l : List (Nat × Int × Side), lookupFind id l = none ↔ id ∉ l.map Prod.fst := by
  intro l
  induction l with
  | nil => simp [lookupFind]
  | cons hd tl ih =>
    obtain ⟨k, w⟩ := hd
    by_cases hk : k = id
    · subst hk
      simp [lookupFind]
    · have hik : ¬ (id = k) := fun hh => hk hh.symm
      simp [lookupFind, hk, ih, hik]

theorem lookupFind_isSome_iff (id : Nat) (l : List (Nat × Int × Side)) :
    (∃ v, lookupFind id l = some v) ↔ id ∈ l.map Prod.fst := by
  constructor
  · rintro ⟨v, hv⟩
    by_contra hmem
    rw [(lookupFind_eq_none_iff id l).mpr hmem] at hv
    exact Option.noConfusion hv
  · intro hmem
    rcases hfind : lookupFind id l with _ | v
    · exact absurd hmem ((lookupFind_eq_none_iff id l).mp hfind)
    · exact ⟨v, rfl⟩

theorem lookupFind_erase_self (k : Nat) :
    ∀ l : List (Nat × Int × Side), (l.map Prod.fst).Nodup →
      lookupFind k (lookupErase k l) = none := by
  intro l
  induction l with
  | nil => simp [lookupErase, lookupFind]
  | cons hd tl ih =>
    intro hnd
    obtain ⟨k2, w⟩ := hd
    simp only [List.map_cons, List.nodup_cons] at hnd
    by_cases hk : k2 = k
    · subst hk
      simp only [lookupErase, if_pos rfl]
      exact (lookupFind_eq_none_iff k2 tl).mpr hnd.1
    · simp only [lookupErase, if_neg hk, lookupFind, if_neg hk]
      exact ih hnd.2

theorem lookupErase_length_of_mem (k : Nat) :
    ∀ l : List (Nat × Int × Side), k ∈ l.map Prod.fst →
      (lookupErase k l).length + 1 = l.length := by
  intro l
  induction l with
  | nil => simp
  | cons hd tl ih =>
    intro hmem
    obtain ⟨k2, w⟩ := hd
    by_cases hk : k2 = k
    · simp [lookupErase, hk]
    · have hm2 : k ∈ tl.map Prod.fst := by
        rcases List.mem_cons.mp hmem with h | h
        · exact absurd h.symm hk
        · exact h
      simp [lookupErase, hk, ih hm2]

theorem lookupInsert_length_of_not_mem (k : Nat) (v : Int × Side) :
    ∀ l : List (Nat × Int × Side), k ∉ l.map Prod.fst →
      (lookupInsert k v l).length = l.length + 1 := by
  intro l
  induction l with
  | nil => simp [lookupInsert]
  | cons hd tl ih =>
    intro hmem
    obtain ⟨k2, w⟩ := hd
    simp only [List.map_cons, List.mem_cons] at hmem
    push_neg at hmem
    have hk2 : ¬ (k2 = k) := fun hh => hmem.1 hh.symm
    simp [lookupInsert, hk2, ih hmem.2]

theorem lookupInsert_keys (k : Nat) (v : Int × Side) :
    ∀ l : List (Nat × Int × Side),
      (lookupInsert k v l).map Prod.fst =
        if k ∈ l.map Prod.fst then l.map Prod.fst else l.map Prod.fst ++ [k] := by
  intro l
  induction l with
  | nil => simp [lookupInsert]
  | cons hd tl ih =>
    obtain ⟨k2, w⟩ := hd
    by_cases hk : k2 = k
    · subst hk
      simp [lookupInsert]
    · have hkk2 : ¬ (k = k2) := fun hh => hk hh.symm
      by_cases hmem : k ∈ tl.map Prod.fst
      · simp [lookupInsert, hk, ih, hmem, hkk2]
      · simp [lookupInsert, hk, ih, hmem, hkk2]

theorem lookupInsert_keys_nodup (k : Nat) (v : Int × Side)
    (l : List (Nat × Int × Side)) (hnd : (l.map Prod.fst).Nodup) :
    ((lookupInsert k v l).map Prod.fst).Nodup := by
  rw [lookupInsert_keys]
  by_cases hmem : k ∈ l.map Prod.fst
  · simpa [hmem] using hnd
  · simp only [if_neg hmem]
    refine List.Nodup.append hnd (by simp) ?_
    intro a ha hb
    simp only [List.mem_singleton] at hb
    exact hmem (hb ▸ ha)

theorem lookupErase_keys_nodup (k : Nat) (l : List (Nat × Int × Side))
    (hnd : (l.map Prod.fst).Nodup) : ((lookupErase k l).map Prod.fst).Nodup :=
  List.Nodup.sublist (List.Sublist.map Prod.fst (lookupErase_sublist k l)) hnd

theorem eraseIds_cons (a : Nat) (ids : List Nat) (l : List (Nat × Int × Side)) :
    eraseIds (a :: ids) l = eraseIds ids (lookupErase a l) := rfl

theorem eraseIds_nil (l : List (Nat × Int × Side)) : eraseIds [] l = l := rfl

theorem lookupFind_eraseIds_not_mem (id : Nat) :
    ∀ (ids : List Nat) (l : List (Nat × Int × Side)), id ∉ ids →
      lookupFind id (eraseIds ids l) = lookupFind id l := by
  intro ids
  induction ids with
  | nil => intro l _; rfl
  | cons a rest ih =>
    intro l hmem
    simp only [List.mem_cons] at hmem
    push_neg at hmem
    rw [eraseIds_cons, ih _ hmem.2, lookupFind_erase_ne _ _ hmem.1]

theorem eraseIds_keys_nodup (ids : List Nat) :
    ∀ l : List (Nat × Int × Side), (l.map Prod.fst).Nodup →
      ((eraseIds ids l).map Prod.fst).Nodup := by
  induction ids with
  | nil => intro l h; exact h
  | cons a rest ih =>
    intro l h
    rw [eraseIds_cons]
    exact ih _ (lookupErase_keys_nodup a l h)

theorem lookupFind_eraseIds_mem (id : Nat) :
    ∀ (ids : List Nat) (l : List (Nat × Int × Side)), (l.map Prod.fst).Nodup →
      id ∈ ids → lookupFind id (eraseIds ids l) = none := by
  intro ids
  induction ids with
  | nil => intro l _ h; cases h
  | cons a rest ih =>
    intro l hnd hmem
    rw [eraseIds_cons]
    by_cases hid : id ∈ rest
    · exact ih _ (lookupErase_keys_nodup a l hnd) hid
    · have ha : id = a := by
        rcases List.mem_cons.mp hmem with h | h
        · exact h
        · exact absurd h hid
      subst ha
      rw [lookupFind_eraseIds_not_mem _ _ _ hid]
      exact lookupFind_erase_self id l hnd

theorem eraseIds_length (ids : List Nat) :
    ∀ l : List (Nat × Int × Side), (l.map Prod.fst).Nodup → ids.Nodup →
      (∀ i ∈ ids, i ∈ l.map Prod.fst) →
      (eraseIds ids l).length + ids.length = l.length := by
  induction ids with
  | nil => intro l _ _ _; simp [eraseIds_nil]
  | cons a rest ih =>
    intro l hnd hids hmem
    simp only [List.nodup_cons] at hids
    rw [eraseIds_cons]
    have hrest : ∀ i ∈ rest, i ∈ (lookupErase a l).map Prod.fst := by
      intro i hi
      have hne : i ≠ a := fun h => hids.1 (h ▸ hi)
      have heq : lookupFind i (lookupErase a l) = lookupFind i l :=
        lookupFind_erase_ne i a hne l
      have hfind : i ∈ l.map Prod.fst := hmem i (List.mem_cons_of_mem a hi)
      rcases (lookupFind_isSome_iff i l).mpr hfind with ⟨v, hv⟩
      exact (lookupFind_isSome_iff i _).mp ⟨v, heq.trans hv⟩
    have h1 := ih (lookupErase a l) (lookupErase_keys_nodup a l hnd) hids.2 hrest
    have h2 := lookupErase_length_of_mem a l (hmem a (List.mem_cons_self a rest))
    simp only [List.length_cons]
    omega

end LookupLemmas

section LevelMapLemmas

theorem buyLt_ok : LtOk buyLt := by
  refine ⟨?_, ?_, ?_⟩
  · intro a; simp [buyLt]
  · intro a b c h1 h2
    simp only [buyLt, decide_eq_true_eq] at *
    omega
  · intro a b h
    simp only [buyLt, decide_eq_true_eq]
    omega

theorem sellLt_ok : LtOk sellLt := by
  refine ⟨?_, ?_, ?_⟩
  · intro a; simp [sellLt]
  · intro a b c h1 h2
    simp only [sellLt, decide_eq_true_eq] at *
    omega
  · intro a b h
    simp only [sellLt, decide_eq_true_eq]
    omega

theorem buyLt_eq_true (p q : Int) : buyLt p q = true ↔ q < p := by
  simp [buyLt]

theorem sellLt_eq_true (p q : Int) : sellLt p q = true ↔ p < q := by
  simp [sellLt]

theorem sumQ_append (l1 l2 : List Order) : sumQ (l1 ++ l2) = sumQ l1 + sumQ l2 := by
  induction l1 with
  | nil => simp [sumQ]
  | cons o rest ih => simp [sumQ, ih]; omega

theorem mapFind_mem (p : Int) :
    ∀ (levels : List (Int × OrderBookPriceLevel)) (l : OrderBookPriceLevel),
      mapFind p levels = some l → (p, l) ∈ levels := by
  intro levels
  induction levels with
  | nil => intro l h; cases h
  | cons hd tl ih =>
    intro l h
    obtain ⟨q, m⟩ := hd
    by_cases hq : q = p
    · subst hq
      simp only [mapFind, if_pos rfl] at h
      cases h
      exact List.mem_cons_self _ _
    · simp only [mapFind, if_neg hq] at h
      exact List.mem_cons_of_mem _ (ih l h)

theorem mapFind_eq_none_iff (p : Int) :
    ∀ levels : List (Int × OrderBookPriceLevel),
      mapFind p levels = none ↔ p ∉ levels.map Prod.fst := by
  intro levels
  induction levels with
  | nil => simp [mapFind]
  | cons hd tl ih =>
    obtain ⟨q, m⟩ := hd
    by_cases hq : q = p
    · subst hq
      simp [mapFind]
    · have hpq : ¬ (p = q) := fun hh => hq hh.symm
      simp [mapFind, hq, ih, hpq]

theorem mapFind_of_mem_nodup (p : Int) (l : OrderBookPriceLevel) :
    ∀ levels : List (Int × OrderBookPriceLevel), (p, l) ∈ levels →
      (levels.map Prod.fst).Nodup → mapFind p levels = some l := by
  intro levels
  induction levels with
  | nil => intro h _; cases h
  | cons hd tl ih =>
    intro hmem hnd
    obtain ⟨q, m⟩ := hd
    simp only [List.map_cons, List.nodup_cons] at hnd
    rcases List.mem_cons.mp hmem with h | h
    · cases h
      simp [mapFind]
    · have hq : ¬ (q = p) := by
        intro hh
        subst hh
        exact hnd.1 (List.mem_map.mpr ⟨(q, l), h, rfl⟩)
      simp only [mapFind, if_neg hq]
      exact ih h hnd.2

theorem mem_of_ordersAtLevel (levels : List (Int × OrderBookPriceLevel)) (p : Int)
    (o : Order) (h : o ∈ ordersAtLevel levels p) :
    ∃ l, (p, l) ∈ levels ∧ o ∈ l.orders := by
  unfold ordersAtLevel at h
  rcases hf : mapFind p levels with _ | l
  · rw [hf] at h; cases h
  · rw [hf] at h
    exact ⟨l, mapFind_mem p levels l hf, h⟩

theorem ordersAtLevel_eq_of_mem_nodup (levels : List (Int × OrderBookPriceLevel))
    (p : Int) (l : OrderBookPriceLevel) (hmem : (p, l) ∈ levels)
    (hnd : (levels.map Prod.fst).Nodup) : ordersAtLevel levels p = l.orders := by
  unfold ordersAtLevel
  rw [mapFind_of_mem_nodup p l levels hmem hnd]

theorem mapAddOrder_keys_subset (lt : Int → Int → Bool) (p : Int) (o : Order) :
    ∀ levels : List (Int × OrderBookPriceLevel),
      ∀ x ∈ (mapAddOrder lt p o levels).map Prod.fst,
        x = p ∨ x ∈ levels.map Prod.fst := by
  intro levels
  induction levels with
  | nil => intro x hx; simp [mapAddOrder] at hx; exact Or.inl hx
  | cons hd tl ih =>
    intro x hx
    obtain ⟨q, l⟩ := hd
    by_cases hpq : p = q
    · simp only [mapAddOrder, if_pos hpq, List.map_cons] at hx
      rcases List.mem_cons.mp hx with h | h
      · exact Or.inr (by simp [h])
      · exact Or.inr (by simp [h])
    · by_cases hlt : lt p q = true
      · simp only [mapAddOrder, if_neg hpq, if_pos hlt, List.map_cons] at hx
        rcases List.mem_cons.mp hx with h | h
        · exact Or.inl h
        · exact Or.inr h
      · simp only [mapAddOrder, if_neg hpq, if_neg hlt, List.map_cons] at hx
        rcases List.mem_cons.mp hx with h | h
        · exact Or.inr (by simp [h])
        · rcases ih x h with h2 | h2
          · exact Or.inl h2
          · exact Or.inr (by simp [h2])

theorem mapAddOrder_sorted (lt : Int → Int → Bool) (hok : LtOk lt) (p : Int) (o : Order) :
    ∀ levels : List (Int × OrderBookPriceLevel),
      List.Pairwise (fun x y => lt x y = true) (levels.map Prod.fst) →
      List.Pairwise (fun x y => lt x y = true) ((mapAddOrder lt p o levels).map Prod.fst) := by
  intro levels
  induction levels with
  | nil => intro _; simp [mapAddOrder]
  | cons hd tl ih =>
    intro hp
    obtain ⟨q, l⟩ := hd
    simp only [List.map_cons, List.pairwise_cons] at hp
    by_cases hpq : p = q
    · simp only [mapAddOrder, if_pos hpq, List.map_cons, List.pairwise_cons]
      exact ⟨hp.1, hp.2⟩
    · by_cases hlt : lt p q = true
      · simp only [mapAddOrder, if_neg hpq, if_pos hlt, List.map_cons, List.pairwise_cons]
        refine ⟨?_, hp.1, hp.2⟩
        intro x hx
        rcases List.mem_cons.mp hx with h | h
        · exact h ▸ hlt
        · exact hok.2.1 p q x hlt (hp.1 x h)
      · simp only [mapAddOrder, if_neg hpq, if_neg hlt, List.map_cons, List.pairwise_cons]
        refine ⟨?_, ih hp.2⟩
        intro x hx
        rcases mapAddOrder_keys_subset lt p o tl x hx with h | h
        · rw [h]
          rcases hok.2.2 p q hpq with h2 | h2
          · exact absurd h2 hlt
          · exact h2
        · exact hp.1 x h

theorem mapAddOrder_head_key (lt : Int → Int → Bool) (p : Int) (o : Order) :
    ∀ (levels : List (Int × OrderBookPriceLevel)) (q : Int)
      (l : OrderBookPriceLevel) (rest : List (Int × OrderBookPriceLevel)),
      mapAddOrder lt p o levels = (q, l) :: rest →
      q = p ∨ (∃ l0 rest0, levels = (q, l0) :: rest0) := by
  intro levels q l rest h
  cases levels with
  | nil =>
    simp only [mapAddOrder] at h
    injection h with h1 h2
    injection h1 with hq hl
    exact Or.inl hq.symm
  | cons hd tl =>
    obtain ⟨q0, l0⟩ := hd
    by_cases hpq : p = q0
    · simp only [mapAddOrder, if_pos hpq] at h
      injection h with h1 h2
      injection h1 with hq hl
      exact Or.inr ⟨l0, tl, by rw [hq]⟩
    · by_cases hlt : lt p q0 = true
      · simp only [mapAddOrder, if_neg hpq, if_pos hlt] at h
        injection h with h1 h2
        injection h1 with hq hl
        exact Or.inl hq.symm
      · simp only [mapAddOrder, if_neg hpq, if_neg hlt] at h
        injection h with h1 h2
        injection h1 with hq hl
        exact Or.inr ⟨l0, tl, by rw [hq]⟩

theorem mapAddOrder_ne_nil (lt : Int → Int → Bool) (p : Int) (o : Order)
    (levels : List (Int × OrderBookPriceLevel)) : mapAddOrder lt p o levels ≠ [] := by
  cases levels with
  | nil => simp [mapAddOrder]
  | cons hd tl =>
    obtain ⟨q, l⟩ := hd
    by_cases hpq : p = q
    · simp [mapAddOrder, hpq]
    · by_cases hlt : lt p q = true
      · simp [mapAddOrder, hpq, hlt]
      · simp [mapAddOrder, hpq, hlt]

theorem mapAddOrder_cons_of_lt (lt : Int → Int → Bool) (hok : LtOk lt) (p : Int)
    (o : Order) (q : Int) (l : OrderBookPriceLevel)
    (rest : List (Int × OrderBookPriceLevel)) (hlt : lt p q = true) :
    mapAddOrder lt p o ((q, l) :: rest) =
      (p, OrderBookPriceLevel.init.add_order o) :: (q, l) :: rest := by
  have hpq : ¬ (p = q) := by
    intro hh
    subst hh
    rw [hok.1 p] at hlt
    exact Bool.noConfusion hlt
  simp [mapAddOrder, hpq, hlt]

theorem ordersAtLevel_mapAddOrder_ne (lt : Int → Int → Bool) (p p2 : Int) (o : Order)
    (hne : p2 ≠ p) :
    ∀ levels : List (Int × OrderBookPriceLevel),
      ordersAtLevel (mapAddOrder lt p o levels) p2 = ordersAtLevel levels p2 := by
  intro levels
  induction levels with
  | nil =>
    have hpn : ¬ (p = p2) := fun hh => hne hh.symm
    simp [mapAddOrder, ordersAtLevel, mapFind, hpn]
  | cons hd tl ih =>
    obtain ⟨q, l⟩ := hd
    by_cases hpq : p = q
    · subst hpq
      have hpn : ¬ (p = p2) := fun hh => hne hh.symm
      simp [mapAddOrder, ordersAtLevel, mapFind, hpn]
    · by_cases hlt : lt p q = true
      · have hpn : ¬ (p = p2) := fun hh => hne hh.symm
        simp [mapAddOrder, ordersAtLevel, mapFind, hpq, hlt, hpn]
      · by_cases hq2 : q = p2
        · subst hq2
          simp [mapAddOrder, ordersAtLevel, mapFind, hpq, hlt]
        · simp only [mapAddOrder, if_neg hpq, if_neg hlt]
          unfold ordersAtLevel at ih ⊢
          simp [mapFind, hq2, ih]

theorem not_mem_keys_of_lt (lt : Int → Int → Bool) (hok : LtOk lt) (p q : Int)
    (keys : List Int) (hlt : lt p q = true)
    (hpair : ∀ x ∈ keys, lt q x = true) : p ∉ keys := by
  intro hmem
  have h1 : lt q p = true := hpair p hmem
  have h2 : lt p p = true := hok.2.1 p q p hlt h1
  rw [hok.1 p] at h2
  exact Bool.noConfusion h2

theorem ordersAtLevel_mapAddOrder_self (lt : Int → Int → Bool) (hok : LtOk lt)
    (p : Int) (o : Order) :
    ∀ levels : List (Int × OrderBookPriceLevel),
      List.Pairwise (fun x y => lt x y = true) (levels.map Prod.fst) →
      ordersAtLevel (mapAddOrder lt p o levels) p = ordersAtLevel levels p ++ [o] := by
  intro levels
  induction levels with
  | nil =>
    intro _
    simp [mapAddOrder, ordersAtLevel, mapFind, OrderBookPriceLevel.add_order,
      OrderBookPriceLevel.init]
  | cons hd tl ih =>
    intro hpair
    obtain ⟨q, l⟩ := hd
    simp only [List.map_cons, List.pairwise_cons] at hpair
    by_cases hpq : p = q
    · subst hpq
      simp [mapAddOrder, ordersAtLevel, mapFind, OrderBookPriceLevel.add_order]
    · by_cases hlt : lt p q = true
      · have hqp : ¬ (q = p) := fun hh => hpq hh.symm
        have hnmem : p ∉ tl.map Prod.fst :=
          not_mem_keys_of_lt lt hok p q (tl.map Prod.fst) hlt hpair.1
        have hfind : mapFind p tl = none := (mapFind_eq_none_iff p tl).mpr hnmem
        simp [mapAddOrder, ordersAtLevel, mapFind, hpq, hlt, hqp, hfind,
          OrderBookPriceLevel.add_order, OrderBookPriceLevel.init]
      · have hqp : ¬ (q = p) := fun hh => hpq hh.symm
        simp only [mapAddOrder, if_neg hpq, if_neg hlt]
        unfold ordersAtLevel at ih ⊢
        simp [mapFind, hqp, ih hpair.2]

theorem mapAddOrder_flat_perm (lt : Int → Int → Bool) (p : Int) (o : Order) :
    ∀ levels : List (Int × OrderBookPriceLevel),
      List.Perm (flatOrders (mapAddOrder lt p o levels)) (o :: flatOrders levels) := by
  intro levels
  induction levels with
  | nil =>
    simp [mapAddOrder, flatOrders, OrderBookPriceLevel.add_order, OrderBookPriceLevel.init]
  | cons hd tl ih =>
    obtain ⟨q, l⟩ := hd
    by_cases hpq : p = q
    · simp only [mapAddOrder, if_pos hpq, flatOrders, OrderBookPriceLevel.add_order]
      have : l.orders ++ [o] ++ flatOrders tl = l.orders ++ o :: flatOrders tl := by
        simp
      rw [this]
      exact List.perm_middle
    · by_cases hlt : lt p q = true
      · simp [mapAddOrder, hpq, hlt, flatOrders, OrderBookPriceLevel.add_order,
          OrderBookPriceLevel.init]
      · simp only [mapAddOrder, if_neg hpq, if_neg hlt, flatOrders]
        exact (List.Perm.append_left _ ih).trans List.perm_middle

theorem mapAddOrder_mem_cases (lt : Int → Int → Bool) (p : Int) (o : Order) :
    ∀ levels : List (Int × OrderBookPriceLevel),
      ∀ pl ∈ mapAddOrder lt p o levels,
        pl ∈ levels ∨
        (∃ l0, (p, l0) ∈ levels ∧ pl = (p, l0.add_order o)) ∨
        pl = (p, OrderBookPriceLevel.init.add_order o) := by
  intro levels
  induction levels with
  | nil =>
    intro pl hpl
    simp only [mapAddOrder, List.mem_singleton] at hpl
    exact Or.inr (Or.inr hpl)
  | cons hd tl ih =>
    intro pl hpl
    obtain ⟨q, l⟩ := hd
    by_cases hpq : p = q
    · subst hpq
      simp only [mapAddOrder, if_pos rfl] at hpl
      rcases List.mem_cons.mp hpl with h | h
      · exact Or.inr (Or.inl ⟨l, List.mem_cons_self _ _, h⟩)
      · exact Or.inl (List.mem_cons_of_mem _ h)
    · by_cases hlt : lt p q = true
      · simp only [mapAddOrder, if_neg hpq, if_pos hlt] at hpl
        rcases List.mem_cons.mp hpl with h | h
        · exact Or.inr (Or.inr h)
        · exact Or.inl h
      · simp only [mapAddOrder, if_neg hpq, if_neg hlt] at hpl
        rcases List.mem_cons.mp hpl with h | h
        · exact Or.inl (by simp [h])
        · rcases ih pl h with h2 | h2 | h2
          · exact Or.inl (List.mem_cons_of_mem _ h2)
          · rcases h2 with ⟨l0, hl0, hpl2⟩
            exact Or.inr (Or.inl ⟨l0, List.mem_cons_of_mem _ hl0, hpl2⟩)
          · exact Or.inr (Or.inr h2)

theorem mapErase_sublist (p : Int) :
    ∀ levels : List (Int × OrderBookPriceLevel),
      List.Sublist (mapErase p levels) levels := by
  intro levels
  induction levels with
  | nil => simp [mapErase]
  | cons hd tl ih =>
    obtain ⟨q, l⟩ := hd
    by_cases hq : q = p
    · simp only [mapErase, if_pos hq]
      exact List.Sublist.cons _ (List.Sublist.refl tl)
    · simp only [mapErase, if_neg hq]
      exact List.Sublist.cons₂ _ ih

theorem mapUpdate_keys (p : Int) (l : OrderBookPriceLevel) :
    ∀ levels : List (Int × OrderBookPriceLevel),
      (mapUpdate p l levels).map Prod.fst = levels.map Prod.fst := by
  intro levels
  induction levels with
  | nil => simp [mapUpdate]
  | cons hd tl ih =>
    obtain ⟨q, m⟩ := hd
    by_cases hq : q = p
    · simp [mapUpdate, hq]
    · simp [mapUpdate, hq, ih]

theorem mapUpdate_mem_cases (p : Int) (l : OrderBookPriceLevel) :
    ∀ levels : List (Int × OrderBookPriceLevel),
      ∀ pl ∈ mapUpdate p l levels, pl ∈ levels ∨ pl = (p, l) := by
  intro levels
  induction levels with
  | nil => intro pl hpl; cases hpl
  | cons hd tl ih =>
    intro pl hpl
    obtain ⟨q, m⟩ := hd
    by_cases hq : q = p
    · subst hq
      simp only [mapUpdate, if_pos rfl] at hpl
      rcases List.mem_cons.mp hpl with h | h
      · exact Or.inr h
      · exact Or.inl (List.mem_cons_of_mem _ h)
    · simp only [mapUpdate, if_neg hq] at hpl
      rcases List.mem_cons.mp hpl with h | h
      · exact Or.inl (by simp [h])
      · rcases ih pl h with h2 | h2
        · exact Or.inl (List.mem_cons_of_mem _ h2)
        · exact Or.inr h2

theorem mapFind_mapErase_ne (p p2 : Int) (hne : p2 ≠ p) :
    ∀ levels : List (Int × OrderBookPriceLevel),
      mapFind p2 (mapErase p levels) = mapFind p2 levels := by
  intro levels
  induction levels with
  | nil => simp [mapErase]
  | cons hd tl ih =>
    obtain ⟨q, m⟩ := hd
    by_cases hq : q = p
    · subst hq
      have hq2 : ¬ (q = p2) := fun hh => hne hh.symm
      simp [mapErase, mapFind, hq2]
    · by_cases hq2 : q = p2
      · subst hq2
        have hqp : ¬ (q = p) := hq
        simp [mapErase, mapFind, hqp]
      · simp [mapErase, mapFind, hq, hq2, ih]

theorem mapFind_mapUpdate_ne (p p2 : Int) (l : OrderBookPriceLevel) (hne : p2 ≠ p) :
    ∀ levels : List (Int × OrderBookPriceLevel),
      mapFind p2 (mapUpdate p l levels) = mapFind p2 levels := by
  intro levels
  induction levels with
  | nil => simp [mapUpdate]
  | cons hd tl ih =>
    obtain ⟨q, m⟩ := hd
    by_cases hq : q = p
    · subst hq
      have hq2 : ¬ (q = p2) := fun hh => hne hh.symm
      simp [mapUpdate, mapFind, hq2]
    · by_cases hq2 : q = p2
      · subst hq2
        have hqp : ¬ (q = p) := hq
        simp [mapUpdate, mapFind, hqp]
      · simp [mapUpdate, mapFind, hq, hq2, ih]

theorem mapFind_mapUpdate_self (p : Int) (l : OrderBookPriceLevel) :
    ∀ levels : List (Int × OrderBookPriceLevel), p ∈ levels.map Prod.fst →
      mapFind p (mapUpdate p l levels) = some l := by
  intro levels
  induction levels with
  | nil => simp
  | cons hd tl ih =>
    intro hmem
    obtain ⟨q, m⟩ := hd
    by_cases hq : q = p
    · simp [mapUpdate, mapFind, hq]
    · have hm2 : p ∈ tl.map Prod.fst := by
        rcases List.mem_cons.mp hmem with h | h
        · exact absurd h.symm hq
        · exact h
      simp [mapUpdate, mapFind, hq, ih hm2]

theorem removeFirstById_none_iff (id : Nat) :
    ∀ orders : List Order,
      removeFirstById id orders = none ↔ ∀ o ∈ orders, o.id ≠ id := by
  intro orders
  induction orders with
  | nil => simp [removeFirstById]
  | cons o rest ih =>
    by_cases ho : o.id = id
    · simp [removeFirstById, ho]
    · rcases hr : removeFirstById id rest with _ | pr
      · simp only [removeFirstById, if_neg ho, hr]
        simp only [true_iff]
        intro x hx
        rcases List.mem_cons.mp hx with h | h
        · exact h ▸ ho
        · exact (ih.mp hr) x h
      · obtain ⟨r, rest2⟩ := pr
        simp only [removeFirstById, if_neg ho, hr]
        constructor
        · intro h; cases h
        · intro hall
          have : removeFirstById id rest = none :=
            ih.mpr (fun x hx => hall x (List.mem_cons_of_mem _ hx))
          rw [this] at hr
          cases hr

theorem removeFirstById_some (id : Nat) :
    ∀ (orders : List Order) (r : Order) (rest : List Order),
      removeFirstById id orders = some (r, rest) →
      r.id = id ∧ List.Perm orders (r :: rest) ∧
        (∀ o ∈ orders, o.id ≠ id → o ∈ rest) ∧
        sumQ orders = r.quantity + sumQ rest ∧
        List.Sublist rest orders := by
  intro orders
  induction orders with
  | nil => intro r rest h; cases h
  | cons o tail ih =>
    intro r rest h
    by_cases ho : o.id = id
    · simp only [removeFirstById, if_pos ho] at h
      cases h
      refine ⟨ho, List.Perm.refl _, ?_, by simp [sumQ],
        List.Sublist.cons _ (List.Sublist.refl _)⟩
      intro x hx hxid
      rcases List.mem_cons.mp hx with h2 | h2
      · exact absurd (h2 ▸ ho) hxid
      · exact h2
    · simp only [removeFirstById, if_neg ho] at h
      rcases hr : removeFirstById id tail with _ | pr
      · rw [hr] at h; cases h
      · obtain ⟨r2, rest2⟩ := pr
        rw [hr] at h
        injection h with h5
        injection h5 with hr1 hr2
        subst hr1
        subst hr2
        obtain ⟨h1, h2, h3, h4, h6⟩ := ih r2 rest2 hr
        refine ⟨h1, ?_, ?_, ?_, List.Sublist.cons₂ _ h6⟩
        · exact (List.Perm.cons o h2).trans (List.Perm.swap r2 o rest2)
        · intro x hx hxid
          rcases List.mem_cons.mp hx with h5 | h5
          · exact h5 ▸ List.mem_cons_self o rest2
          · exact List.mem_cons_of_mem _ (h3 x h5 hxid)
        · simp only [sumQ]
          rw [h4]
          omega

end LevelMapLemmas

section MatchLoopSpec

/-- Characterization of the inner matching loop: some prefix of `k` orders
is fully consumed (their ids erased from the index, the counter
decremented), the surviving queue is the corresponding suffix (its head
possibly reduced in quantity), the appended trades take makers from the
queue front in order at the level's price, and the maintained total stays
the sum of residuals. -/
theorem matchLevelLoop_spec (price : Int) (taker_id : Nat) (ts : Int) :
    ∀ (orders : List Order) (acc : MatchAcc) (total : Int),
      ∃ k newTrades,
        k ≤ orders.length ∧
        (matchLevelLoop price taker_id ts acc orders total).2.1.map Order.id =
          (orders.map Order.id).drop k ∧
        (∀ o ∈ (matchLevelLoop price taker_id ts acc orders total).2.1,
          ∃ o2 ∈ orders, o.id = o2.id ∧ o.price = o2.price ∧ o.side = o2.side) ∧
        (matchLevelLoop price taker_id ts acc orders total).1.order_lookup =
          eraseIds ((orders.map Order.id).take k) acc.order_lookup ∧
        (matchLevelLoop price taker_id ts acc orders total).1.order_count =
          acc.order_count - k ∧
        (matchLevelLoop price taker_id ts acc orders total).1.trades =
          acc.trades ++ newTrades ∧
        newTrades.map Trade.maker_id = (orders.map Order.id).take newTrades.length ∧
        (∀ t ∈ newTrades, t.price = price) ∧
        (newTrades.length = k ∨ newTrades.length = k + 1) ∧
        ((matchLevelLoop price taker_id ts acc orders total).2.1 = [] ∨
          (matchLevelLoop price taker_id ts acc orders total).1.remaining_qty ≤ 0) ∧
        (total = sumQ orders →
          (matchLevelLoop price taker_id ts acc orders total).2.2 =
            sumQ (matchLevelLoop price taker_id ts acc orders total).2.1) := by
  intro orders
  induction orders with
  | nil =>
    intro acc total
    refine ⟨0, [], ?_, ?_, ?_, ?_, ?_, ?_, ?_, ?_, ?_, ?_, ?_⟩ <;>
      simp [matchLevelLoop, eraseIds_nil]
  | cons front rest ih =>
    intro acc total
    by_cases hr0 : acc.remaining_qty ≤ 0
    · have heq : matchLevelLoop price taker_id ts acc (front :: rest) total =
          (acc, front :: rest, total) := by
        simp only [matchLevelLoop, if_pos hr0]
      refine ⟨0, [], ?_, ?_, ?_, ?_, ?_, ?_, ?_, ?_, ?_, ?_, ?_⟩
      · simp
      · simp [heq]
      · rw [heq]
        intro o ho
        exact ⟨o, ho, rfl, rfl, rfl⟩
      · simp [heq, eraseIds_nil]
      · simp [heq]
      · simp [heq]
      · simp
      · simp
      · exact Or.inl rfl
      · rw [heq]
        exact Or.inr hr0
      · rw [heq]
        exact fun h => h
    · by_cases hq : front.quantity ≤ acc.remaining_qty
      · have heq : matchLevelLoop price taker_id ts acc (front :: rest) total =
            matchLevelLoop price taker_id ts
              { trades := acc.trades ++
                  [{ maker_id := front.id, taker_id := taker_id, price := price,
                     quantity := front.quantity, timestamp := ts }]
                remaining_qty := acc.remaining_qty - front.quantity
                order_lookup := lookupErase front.id acc.order_lookup
                order_count := acc.order_count - 1
                last_trade_price := price
                total_volume := acc.total_volume + front.quantity
                trade_count := acc.trade_count + 1 }
              rest (total - front.quantity) := by
          simp only [matchLevelLoop, if_neg hr0, if_pos hq]
        obtain ⟨k, nt, h1, h2, h3, h4, h5, h6, h7, h8, h9, h10, h11⟩ :=
          ih { trades := acc.trades ++
                  [{ maker_id := front.id, taker_id := taker_id, price := price,
                     quantity := front.quantity, timestamp := ts }]
               remaining_qty := acc.remaining_qty - front.quantity
               order_lookup := lookupErase front.id acc.order_lookup
               order_count := acc.order_count - 1
               last_trade_price := price
               total_volume := acc.total_volume + front.quantity
               trade_count := acc.trade_count + 1 }
            (total - front.quantity)
        refine ⟨k + 1,
          { maker_id := front.id, taker_id := taker_id, price := price,
            quantity := front.quantity, timestamp := ts } :: nt,
          ?_, ?_, ?_, ?_, ?_, ?_, ?_, ?_, ?_, ?_, ?_⟩
        · simpa using Nat.succ_le_succ h1
        · rw [heq, h2]
          simp
        · rw [heq]
          intro o ho
          obtain ⟨o2, ho2, he⟩ := h3 o ho
          exact ⟨o2, List.mem_cons_of_mem _ ho2, he⟩
        · rw [heq, h4]
          simp only [List.map_cons, List.take_succ_cons, eraseIds_cons]
        · rw [heq, h5]
          simp only [MatchAcc.mk.injEq]
          omega
        · rw [heq, h6]
          simp
        · simp only [List.map_cons, List.length_cons, List.take_succ_cons, h7]
        · intro t ht
          rcases List.mem_cons.mp ht with h | h
          · rw [h]
          · exact h8 t h
        · simp only [List.length_cons]
          omega
        · rw [heq]
          exact h10
        · rw [heq]
          intro htot
          apply h11
          simp only [sumQ] at htot
          omega
      · have heq : matchLevelLoop price taker_id ts acc (front :: rest) total =
            ({ trades := acc.trades ++
                  [{ maker_id := front.id, taker_id := taker_id, price := price,
                     quantity := acc.remaining_qty, timestamp := ts }]
               remaining_qty := 0
               order_lookup := acc.order_lookup
               order_count := acc.order_count
               last_trade_price := price
               total_volume := acc.total_volume + 0
               trade_count := acc.trade_count + 1 },
             { front with quantity := front.quantity - acc.remaining_qty } :: rest,
             total - acc.remaining_qty) := by
          simp only [matchLevelLoop, if_neg hr0, if_neg hq]
        refine ⟨0,
          [{ maker_id := front.id, taker_id := taker_id, price := price,
             quantity := acc.remaining_qty, timestamp := ts }],
          ?_, ?_, ?_, ?_, ?_, ?_, ?_, ?_, ?_, ?_, ?_⟩
        · simp
        · rw [heq]
          simp
        · rw [heq]
          intro o ho
          rcases List.mem_cons.mp ho with h | h
          · exact ⟨front, List.mem_cons_self _ _, by simp [h]⟩
          · exact ⟨o, List.mem_cons_of_mem _ h, rfl, rfl, rfl⟩
        · rw [heq]
          simp [eraseIds_nil]
        · simp [heq]
        · simp [heq]
        · simp
        · intro t ht
          rcases List.mem_cons.mp ht with h | h
          · rw [h]
          · cases h
        · simp
        · rw [heq]
          exact Or.inr (le_refl 0)
        · rw [heq]
          intro htot
          simp only [sumQ] at htot ⊢
          omega

end MatchLoopSpec

section MatchLevelsSpec

theorem eraseIds_append (a b : List Nat) (l : List (Nat × Int × Side)) :
    eraseIds (a ++ b) l = eraseIds b (eraseIds a l) := by
  unfold eraseIds
  exact List.foldl_append _ _ _ _

theorem mem_flatOrders (o : Order) :
    ∀ levels : List (Int × OrderBookPriceLevel),
      o ∈ flatOrders levels ↔ ∃ pl ∈ levels, o ∈ pl.2.orders := by
  intro levels
  induction levels with
  | nil => simp [flatOrders]
  | cons hd tl ih =>
    simp only [flatOrders, List.mem_append, ih, List.mem_cons]
    constructor
    · rintro (h | ⟨pl, hpl, hm⟩)
      · exact ⟨hd, Or.inl rfl, h⟩
      · exact ⟨pl, Or.inr hpl, hm⟩
    · rintro ⟨pl, hpl | hpl, hm⟩
      · exact Or.inl (hpl ▸ hm)
      · exact Or.inr ⟨pl, hpl, hm⟩

theorem matchLevels_cons_emptied (taker_id : Nat) (ts : Int) (acc : MatchAcc)
    (p : Int) (level : OrderBookPriceLevel)
    (rest : List (Int × OrderBookPriceLevel))
    (h0 : ¬ acc.remaining_qty ≤ 0)
    (hE : (matchLevelLoop p taker_id ts acc level.orders level.total_quantity).2.1 = []) :
    matchLevels taker_id ts acc ((p, level) :: rest) =
      matchLevels taker_id ts
        (matchLevelLoop p taker_id ts acc level.orders level.total_quantity).1 rest := by
  simp only [matchLevels, if_neg h0]
  rw [hE]
  simp

theorem matchLevels_cons_kept (taker_id : Nat) (ts : Int) (acc : MatchAcc)
    (p : Int) (level : OrderBookPriceLevel)
    (rest : List (Int × OrderBookPriceLevel))
    (h0 : ¬ acc.remaining_qty ≤ 0)
    (hE : (matchLevelLoop p taker_id ts acc level.orders level.total_quantity).2.1 ≠ [])
    (hRem : (matchLevelLoop p taker_id ts acc level.orders level.total_quantity).1.remaining_qty ≤ 0) :
    matchLevels taker_id ts acc ((p, level) :: rest) =
      ((matchLevelLoop p taker_id ts acc level.orders level.total_quantity).1,
        (p, { orders :=
                (matchLevelLoop p taker_id ts acc level.orders level.total_quantity).2.1,
              total_quantity :=
                (matchLevelLoop p taker_id ts acc level.orders
                  level.total_quantity).2.2 }) :: rest) := by
  simp only [matchLevels, if_neg h0]
  rw [if_neg (by simpa using hE)]
  rw [matchLevels_nonpos taker_id ts _ rest hRem]

/-- Characterization of the outer matching walk.  `removed` is the list of
ids of fully consumed makers, in consumption order: the flat id sequence of
the matched side splits as `removed ++ survivors`; the id index loses
exactly `removed`; the counter drops by their number; the surviving key
sequence is a suffix of the original; surviving levels keep their key and
map their orders (id, price, side preserved) into the original level, with
the quantity-sum invariant transported; appended trades carry the maker id
of an order of an original level at that level's key; and any order whose
id was not removed still rests at a level with its original key. -/
theorem matchLevels_spec (taker_id : Nat) (ts : Int) :
    ∀ (levels : List (Int × OrderBookPriceLevel)) (acc : MatchAcc),
      ∃ (removed : List Nat) (newTrades : List Trade),
        (flatOrders levels).map Order.id =
          removed ++ (flatOrders (matchLevels taker_id ts acc levels).2).map Order.id ∧
        (matchLevels taker_id ts acc levels).1.order_lookup =
          eraseIds removed acc.order_lookup ∧
        (matchLevels taker_id ts acc levels).1.order_count =
          acc.order_count - removed.length ∧
        (∃ dropped, dropped ++ (matchLevels taker_id ts acc levels).2.map Prod.fst =
          levels.map Prod.fst) ∧
        (∀ pl ∈ (matchLevels taker_id ts acc levels).2,
          ∃ pl0 ∈ levels, pl.1 = pl0.1 ∧
            (∀ o ∈ pl.2.orders, ∃ o2 ∈ pl0.2.orders,
              o.id = o2.id ∧ o.price = o2.price ∧ o.side = o2.side) ∧
            (pl0.2.total_quantity = sumQ pl0.2.orders →
              pl.2.total_quantity = sumQ pl.2.orders)) ∧
        ((matchLevels taker_id ts acc levels).1.trades = acc.trades ++ newTrades ∧
          ∀ t ∈ newTrades, ∃ pl0 ∈ levels, ∃ o ∈ pl0.2.orders,
            t.price = pl0.1 ∧ t.maker_id = o.id) ∧
        (∀ pl0 ∈ levels, ∀ o ∈ pl0.2.orders, o.id ∉ removed →
          ∃ pl ∈ (matchLevels taker_id ts acc levels).2,
            pl.1 = pl0.1 ∧ ∃ o2 ∈ pl.2.orders, o2.id = o.id) := by
  intro levels
  induction levels with
  | nil =>
    intro acc
    refine ⟨[], [], ?_, ?_, ?_, ⟨[], rfl⟩, ?_, ⟨?_, ?_⟩, ?_⟩ <;>
      simp [matchLevels, flatOrders, eraseIds_nil]
  | cons hd rest ih =>
    intro acc
    obtain ⟨p, level⟩ := hd
    by_cases hr0 : acc.remaining_qty ≤ 0
    · have heq : matchLevels taker_id ts acc ((p, level) :: rest) =
          (acc, (p, level) :: rest) := by
        simp only [matchLevels, if_pos hr0]
      refine ⟨[], [], ?_, ?_, ?_, ⟨[], by rw [heq]; simp⟩, ?_, ⟨?_, ?_⟩, ?_⟩
      · simp [heq]
      · rw [heq]; rfl
      · rw [heq]; rfl
      · rw [heq]
        intro pl hpl
        exact ⟨pl, hpl, rfl, fun o ho => ⟨o, ho, rfl, rfl, rfl⟩, fun h => h⟩
      · rw [heq]; simp
      · simp
      · rw [heq]
        intro pl0 hpl0 o ho _
        exact ⟨pl0, hpl0, rfl, o, ho, rfl⟩
    · obtain ⟨k, nt1, il1, il2, il3, il4, il5, il6, il7, il8, il9, il10, il11⟩ :=
        matchLevelLoop_spec p taker_id ts level.orders acc level.total_quantity
      by_cases hE : (matchLevelLoop p taker_id ts acc level.orders
          level.total_quantity).2.1 = []
      · -- the level was emptied and erased; the whole queue was consumed
        have hklen : level.orders.length ≤ k := by
          rw [hE] at il2
          simp only [List.map_nil] at il2
          have hlen := congrArg List.length il2
          simp only [List.length_nil, List.length_drop, List.length_map] at hlen
          omega
        have htake : (level.orders.map Order.id).take k = level.orders.map Order.id :=
          List.take_of_length_le (by simpa using hklen)
        have heq := matchLevels_cons_emptied taker_id ts acc p level rest hr0 hE
        obtain ⟨removed2, nt2, jh1, jh2, jh3, ⟨dropped2, jh4⟩, jh5, ⟨jh6a, jh6b⟩, jh7⟩ :=
          ih (matchLevelLoop p taker_id ts acc level.orders level.total_quantity).1
        refine ⟨level.orders.map Order.id ++ removed2, nt1 ++ nt2,
          ?_, ?_, ?_, ⟨p :: dropped2, ?_⟩, ?_, ⟨?_, ?_⟩, ?_⟩
        · rw [heq]
          simp only [flatOrders, List.map_append, jh1, List.append_assoc]
        · rw [heq, jh2, il4, htake, eraseIds_append]
        · rw [heq, jh3, il5]
          simp only [List.length_append, List.length_map]
          omega
        · rw [heq]
          simpa using jh4
        · rw [heq]
          intro pl hpl
          obtain ⟨pl0, hpl0, hrest⟩ := jh5 pl hpl
          exact ⟨pl0, List.mem_cons_of_mem _ hpl0, hrest⟩
        · rw [heq, jh6a, il6]
          simp
        · intro t ht
          rcases List.mem_append.mp ht with h | h
          · have hmk : t.maker_id ∈ nt1.map Trade.maker_id :=
              List.mem_map.mpr ⟨t, h, rfl⟩
            rw [il7] at hmk
            have hmk2 : t.maker_id ∈ level.orders.map Order.id :=
              List.mem_of_mem_take hmk
            obtain ⟨o, ho, hoid⟩ := List.mem_map.mp hmk2
            exact ⟨(p, level), List.mem_cons_self _ _, o, ho, il8 t h, hoid.symm⟩
          · obtain ⟨pl0, hpl0, rest2⟩ := jh6b t h
            exact ⟨pl0, List.mem_cons_of_mem _ hpl0, rest2⟩
        · rw [heq]
          intro pl0 hpl0 o ho hnr
          rcases List.mem_cons.mp hpl0 with h | h
          · exfalso
            apply hnr
            apply List.mem_append.mpr
            refine Or.inl ?_
            rw [h] at ho
            exact List.mem_map.mpr ⟨o, ho, rfl⟩
          · have hnr2 : o.id ∉ removed2 := fun hh =>
              hnr (List.mem_append.mpr (Or.inr hh))
            exact jh7 pl0 h o ho hnr2
      · -- the level survives: the aggressor's quantity is exhausted there
        have hRem : (matchLevelLoop p taker_id ts acc level.orders
            level.total_quantity).1.remaining_qty ≤ 0 := by
          rcases il10 with h | h
          · exact absurd h hE
          · exact h
        have heq := matchLevels_cons_kept taker_id ts acc p level rest hr0 hE hRem
        refine ⟨(level.orders.map Order.id).take k, nt1,
          ?_, ?_, ?_, ⟨[], ?_⟩, ?_, ⟨?_, ?_⟩, ?_⟩
        · rw [heq]
          simp only [flatOrders, List.map_append]
          rw [il2, ← List.append_assoc, List.take_append_drop]
        · rw [heq]
          exact il4
        · rw [heq, il5]
          have : ((level.orders.map Order.id).take k).length = k := by
            simp only [List.length_take, List.length_map]
            omega
          rw [this]
        · rw [heq]; simp
        · rw [heq]
          intro pl hpl
          rcases List.mem_cons.mp hpl with h | h
          · refine ⟨(p, level), List.mem_cons_self _ _, by rw [h], ?_, ?_⟩
            · rw [h]
              exact il3
            · rw [h]
              exact il11
          · exact ⟨pl, List.mem_cons_of_mem _ h, rfl,
              fun o ho => ⟨o, ho, rfl, rfl, rfl⟩, fun hh => hh⟩
        · rw [heq]
          exact il6
        · intro t ht
          have hmk : t.maker_id ∈ nt1.map Trade.maker_id :=
            List.mem_map.mpr ⟨t, ht, rfl⟩
          rw [il7] at hmk
          have hmk2 : t.maker_id ∈ level.orders.map Order.id :=
            List.mem_of_mem_take hmk
          obtain ⟨o, ho, hoid⟩ := List.mem_map.mp hmk2
          exact ⟨(p, level), List.mem_cons_self _ _, o, ho, il8 t ht, hoid.symm⟩
        · rw [heq]
          intro pl0 hpl0 o ho hnr
          rcases List.mem_cons.mp hpl0 with h | h
          · have hoid : o.id ∈ (level.orders.map Order.id).drop k := by
              have hall : o.id ∈ level.orders.map Order.id := by
                rw [h] at ho
                exact List.mem_map.mpr ⟨o, ho, rfl⟩
              rcases List.mem_append.mp
                  ((List.take_append_drop k (level.orders.map Order.id)) ▸ hall) with
                hh | hh
              · exact absurd hh hnr
              · exact hh
            rw [← il2] at hoid
            obtain ⟨o2, ho2, ho2id⟩ := List.mem_map.mp hoid
            refine ⟨(p, OrderBookPriceLevel.mk
                (matchLevelLoop p taker_id ts acc level.orders level.total_quantity).2.1
                (matchLevelLoop p taker_id ts acc level.orders level.total_quantity).2.2),
              List.mem_cons_self _ _, ?_, o2, ho2, ho2id⟩
            rw [h]
          · exact ⟨pl0, List.mem_cons_of_mem _ h, rfl, o, ho, rfl⟩

end MatchLevelsSpec

section NoCrossDev

theorem sellLt_head_le (a x : Int) (l : List Int)
    (hp : List.Pairwise (fun x y => sellLt x y = true) (a :: l))
    (hx : x ∈ a :: l) : a ≤ x := by
  rcases List.mem_cons.mp hx with h | h
  · exact le_of_eq h.symm
  · have := (List.pairwise_cons.mp hp).1 x h
    rw [sellLt_eq_true] at this
    exact le_of_lt this

theorem buyLt_head_ge (a x : Int) (l : List Int)
    (hp : List.Pairwise (fun x y => buyLt x y = true) (a :: l))
    (hx : x ∈ a :: l) : x ≤ a := by
  rcases List.mem_cons.mp hx with h | h
  · exact le_of_eq h
  · have := (List.pairwise_cons.mp hp).1 x h
    rw [buyLt_eq_true] at this
    exact le_of_lt this

/-- Shrinking both sides' key sequences (as sublists) preserves sortedness
and the uncrossed property. -/
theorem inv5_of_keys_sublist (b b2 : OrderBook)
    (hss : BookSorted b ∧ NoCross b)
    (hb : List.Sublist (b2.buy_levels.map Prod.fst) (b.buy_levels.map Prod.fst))
    (hs : List.Sublist (b2.sell_levels.map Prod.fst) (b.sell_levels.map Prod.fst)) :
    BookSorted b2 ∧ NoCross b2 := by
  obtain ⟨⟨hsb, hsa⟩, hnc⟩ := hss
  refine ⟨⟨List.Pairwise.sublist hb hsb, List.Pairwise.sublist hs hsa⟩, ?_⟩
  rcases hb2 : b2.buy_levels with _ | ⟨⟨pb2, lb2⟩, restb2⟩
  · exact Or.inl hb2
  · rcases hs2 : b2.sell_levels with _ | ⟨⟨pa2, la2⟩, resta2⟩
    · exact Or.inr (Or.inl hs2)
    · refine Or.inr (Or.inr ⟨pb2, pa2, ?_, ?_, ?_⟩)
      · simp [OrderBook.best_bid_price, hb2]
      · simp [OrderBook.best_ask_price, hs2]
      · have hpb2mem : pb2 ∈ b.buy_levels.map Prod.fst := by
          apply List.Sublist.subset hb
          rw [hb2]
          simp
        have hpa2mem : pa2 ∈ b.sell_levels.map Prod.fst := by
          apply List.Sublist.subset hs
          rw [hs2]
          simp
        rcases hbb : b.buy_levels with _ | ⟨⟨pb, lb⟩, restb⟩
        · rw [hbb] at hpb2mem; cases hpb2mem
        · rcases hba : b.sell_levels with _ | ⟨⟨pa, la⟩, resta⟩
          · rw [hba] at hpa2mem; cases hpa2mem
          · rcases hnc with h | h | ⟨pb0, pa0, hp1, hp2, hp3⟩
            · rw [hbb] at h; cases h
            · rw [hba] at h; cases h
            · have hpb0 : pb0 = pb := by
                rw [OrderBook.best_bid_price, hbb] at hp1
                injection hp1 with h2
                exact h2.symm
              have hpa0 : pa0 = pa := by
                rw [OrderBook.best_ask_price, hba] at hp2
                injection hp2 with h2
                exact h2.symm
              have h1 : pb2 ≤ pb := by
                apply buyLt_head_ge pb pb2 (restb.map Prod.fst)
                · rw [hbb] at hsb
                  simpa using hsb
                · rw [hbb] at hpb2mem
                  simpa using hpb2mem
              have h2 : pa ≤ pa2 := by
                apply sellLt_head_le pa pa2 (resta.map Prod.fst)
                · rw [hba] at hsa
                  simpa using hsa
                · rw [hba] at hpa2mem
                  simpa using hpa2mem
              have h3 : pb0 < pa0 := hp3
              rw [hpb0, hpa0] at h3
              omega

theorem sublist_of_drop_append (dropped l2 l : List Int) (h : dropped ++ l2 = l) :
    List.Sublist l2 l := by
  rw [← h]
  exact List.sublist_append_right dropped l2

/-- A market order preserves sortedness and the uncrossed book: it only
removes levels and orders from the matched side. -/
theorem inv5_market (b : OrderBook) (side : Side) (q : Int) (tid : Nat) (ts : Int)
    (hss : BookSorted b ∧ NoCross b) :
    BookSorted (b.add_market_order side q tid ts).2 ∧
      NoCross (b.add_market_order side q tid ts).2 := by
  cases side
  case BUY =>
    obtain ⟨removed, nt, j1, j2, j3, ⟨dropped, j4⟩, j5, j6, j7⟩ :=
      matchLevels_spec tid ts b.sell_levels (MatchAcc.ofBook b q)
    apply inv5_of_keys_sublist b _ hss
    · exact List.Sublist.refl _
    · exact sublist_of_drop_append dropped _ _ j4
  case SELL =>
    obtain ⟨removed, nt, j1, j2, j3, ⟨dropped, j4⟩, j5, j6, j7⟩ :=
      matchLevels_spec tid ts b.buy_levels (MatchAcc.ofBook b q)
    apply inv5_of_keys_sublist b _ hss
    · exact sublist_of_drop_append dropped _ _ j4
    · exact List.Sublist.refl _

theorem removeFromLevels_keys_sublist (id : Nat) (p : Int)
    (levels : List (Int × OrderBookPriceLevel)) :
    List.Sublist ((removeFromLevels id p levels).2.map Prod.fst)
      (levels.map Prod.fst) := by
  unfold removeFromLevels
  rcases hfind : mapFind p levels with _ | lvl
  · simp only [hfind]
    exact List.Sublist.refl _
  · simp only [hfind]
    rcases hro : lvl.remove_order id with ⟨ro, lvl2⟩
    rcases ro with _ | r
    · simp only [hro]
      exact List.Sublist.refl _
    · simp only [hro]
      by_cases hemp : lvl2.orders.isEmpty
      · simp only [if_pos hemp]
        exact List.Sublist.map Prod.fst (mapErase_sublist p levels)
      · simp only [if_neg hemp]
        rw [mapUpdate_keys]

/-- Cancellation preserves sortedness and the uncrossed book. -/
theorem inv5_cancel (b : OrderBook) (id : Nat)
    (hss : BookSorted b ∧ NoCross b) :
    BookSorted (b.cancel_order id).2 ∧ NoCross (b.cancel_order id).2 := by
  unfold OrderBook.cancel_order
  rcases hf : lookupFind id b.order_lookup with _ | v
  · simp only [hf]
    exact hss
  · obtain ⟨p, s⟩ := v
    simp only [hf]
    unfold OrderBook.remove_order_from_side
    cases s
    case BUY =>
      simp only
      by_cases hr : (removeFromLevels id p b.buy_levels).1 = true
      · rw [if_pos hr]
        apply inv5_of_keys_sublist b _ hss
        · exact removeFromLevels_keys_sublist id p b.buy_levels
        · exact List.Sublist.refl _
      · rw [if_neg hr]
        exact hss
    case SELL =>
      simp only
      by_cases hr : (removeFromLevels id p b.sell_levels).1 = true
      · rw [if_pos hr]
        apply inv5_of_keys_sublist b _ hss
        · exact List.Sublist.refl _
        · exact removeFromLevels_keys_sublist id p b.sell_levels
      · rw [if_neg hr]
        exact hss

theorem add_limit_order_fst_true (b : OrderBook) (o : Order)
    (h : (b.add_limit_order o).1 = true) : 0 < o.price ∧ 0 < o.quantity := by
  unfold OrderBook.add_limit_order at h
  by_cases hc : (!is_valid_price o.price || !is_valid_quantity o.quantity) = true
  · rw [if_pos hc] at h
    cases h
  · simp only [is_valid_price, is_valid_quantity, Bool.or_eq_true,
      Bool.not_eq_true', decide_eq_false_iff_not, not_or, not_not] at hc
    exact hc

theorem add_limit_order_invalid_eq (b : OrderBook) (o : Order)
    (h : o.price ≤ 0 ∨ o.quantity ≤ 0) :
    b.add_limit_order o = (false, b) := by
  unfold OrderBook.add_limit_order
  rcases h with h | h
  · have hnp : ¬ (0 < o.price) := not_lt.mpr h
    simp [is_valid_price, is_valid_quantity, hnp]
  · have hnq : ¬ (0 < o.quantity) := not_lt.mpr h
    simp [is_valid_price, is_valid_quantity, hnq]

theorem add_limit_order_valid_eq (b : OrderBook) (o : Order)
    (hp : 0 < o.price) (hq : 0 < o.quantity) :
    b.add_limit_order o = b.add_limit_order_to_side o := by
  unfold OrderBook.add_limit_order
  rw [if_neg]
  simp [is_valid_price, is_valid_quantity, hp, hq]

theorem add_limit_order_to_side_buy (b : OrderBook) (o : Order)
    (h : o.side = Side.BUY) :
    b.add_limit_order_to_side o = (true,
      { b with buy_levels := mapAddOrder buyLt o.price o b.buy_levels,
               order_lookup := lookupInsert o.id (o.price, o.side) b.order_lookup,
               order_count := b.order_count + 1 }) := by
  unfold OrderBook.add_limit_order_to_side
  rw [h]

theorem add_limit_order_to_side_sell (b : OrderBook) (o : Order)
    (h : o.side = Side.SELL) :
    b.add_limit_order_to_side o = (true,
      { b with sell_levels := mapAddOrder sellLt o.price o b.sell_levels,
               order_lookup := lookupInsert o.id (o.price, o.side) b.order_lookup,
               order_count := b.order_count + 1 }) := by
  unfold OrderBook.add_limit_order_to_side
  rw [h]

/-- When the aggressor's whole quantity equals the single order resting at
the best level, the walk consumes exactly that level and leaves the rest
untouched. -/
theorem matchLevels_single (tid : Nat) (ts p : Int) (o : Order)
    (rest : List (Int × OrderBookPriceLevel)) (acc : MatchAcc)
    (h1 : acc.remaining_qty = o.quantity) (h2 : 0 < o.quantity) :
    (matchLevels tid ts acc
      ((p, OrderBookPriceLevel.init.add_order o) :: rest)).2 = rest := by
  have hg : ¬ acc.remaining_qty ≤ 0 := by omega
  have hq : o.quantity ≤ acc.remaining_qty := by omega
  simp only [matchLevels, if_neg hg, OrderBookPriceLevel.init,
    OrderBookPriceLevel.add_order, List.nil_append]
  simp only [matchLevelLoop, if_neg hg, if_pos hq, List.isEmpty_nil, if_true]
  rw [matchLevels_nonpos]
  simp only
  omega

theorem inv5_fields (b b2 : OrderBook) (hb : b2.buy_levels = b.buy_levels)
    (hs : b2.sell_levels = b.sell_levels) (h : BookSorted b ∧ NoCross b) :
    BookSorted b2 ∧ NoCross b2 :=
  inv5_of_keys_sublist b b2 h (by rw [hb]) (by rw [hs])

/-- Processing a limit event preserves sortedness and the uncrossed book.
In the marketable case the cross walks the event's own side and consumes
exactly the just-admitted order, restoring the pre-admission side. -/
theorem inv5_limit (b : OrderBook) (e : Event)
    (hss : BookSorted b ∧ NoCross b) :
    BookSorted (processLimitOrder b e).2 ∧ NoCross (processLimitOrder b e).2 := by
  by_cases hval : 0 < e.price ∧ 0 < e.quantity
  · obtain ⟨hp, hq⟩ := hval
    cases hside : e.side with
    | BUY =>
      have heqadd := (add_limit_order_valid_eq b
        { id := e.order_id, side := e.side, price := e.price,
          quantity := e.quantity, timestamp := e.timestamp } hp hq).trans
        (add_limit_order_to_side_buy b _ hside)
      rw [hside] at heqadd
      have hfst : (b.add_limit_order
          { id := e.order_id, side := Side.BUY, price := e.price,
            quantity := e.quantity, timestamp := e.timestamp }).1 = true := by
        rw [heqadd]
      have hsnd : (b.add_limit_order
          { id := e.order_id, side := Side.BUY, price := e.price,
            quantity := e.quantity, timestamp := e.timestamp }).2 =
          { b with
            buy_levels := mapAddOrder buyLt e.price
              { id := e.order_id, side := Side.BUY, price := e.price,
                quantity := e.quantity, timestamp := e.timestamp } b.buy_levels,
            order_lookup := lookupInsert e.order_id (e.price, Side.BUY) b.order_lookup,
            order_count := b.order_count + 1 } := by
        rw [heqadd]
      simp only [processLimitOrder, hside, hfst, hsnd, eq_self_iff_true, if_true]
      rcases hask : b.sell_levels with _ | ⟨⟨pa, la⟩, restA⟩
      · simp only [OrderBook.best_ask_price]
        refine ⟨⟨?_, ?_⟩, ?_⟩
        · exact mapAddOrder_sorted buyLt buyLt_ok _ _ _ hss.1.1
        · exact List.Pairwise.nil
        · exact Or.inr (Or.inl rfl)
      · simp only [OrderBook.best_ask_price]
        by_cases hm : pa ≤ e.price
        · rw [if_pos hm]
          have hb1buy : mapAddOrder buyLt e.price
              { id := e.order_id, side := Side.BUY, price := e.price,
                quantity := e.quantity, timestamp := e.timestamp } b.buy_levels =
              (e.price, OrderBookPriceLevel.init.add_order
                { id := e.order_id, side := Side.BUY, price := e.price,
                  quantity := e.quantity, timestamp := e.timestamp }) ::
                b.buy_levels := by
            rcases hbb : b.buy_levels with _ | ⟨⟨pb, lb⟩, restB⟩
            · rfl
            · rcases hss.2 with h | h | ⟨pb0, pa0, h1, h2, h3⟩
              · rw [hbb] at h; cases h
              · rw [hask] at h; cases h
              · have hpb0 : pb0 = pb := by
                  rw [OrderBook.best_bid_price, hbb] at h1
                  injection h1 with h4
                  exact h4.symm
                have hpa0 : pa0 = pa := by
                  rw [OrderBook.best_ask_price, hask] at h2
                  injection h2 with h4
                  exact h4.symm
                have hlt : buyLt e.price pb = true := by
                  rw [buyLt_eq_true]
                  omega
                exact mapAddOrder_cons_of_lt buyLt buyLt_ok e.price _ pb lb restB hlt
          unfold OrderBook.add_market_order OrderBook.match_market_order_sell
          simp only
          rw [hb1buy]
          apply inv5_fields b _ _ _ hss
          · show (matchLevels e.order_id e.timestamp _ _).2 = b.buy_levels
            exact matchLevels_single e.order_id e.timestamp e.price _ b.buy_levels _
              rfl hq
          · rw [hask]
            rfl
        · rw [if_neg hm]
          refine ⟨⟨?_, ?_⟩, ?_⟩
          · exact mapAddOrder_sorted buyLt buyLt_ok _ _ _ hss.1.1
          · have hsp := hss.1.2
            rw [hask] at hsp
            exact hsp
          · rcases hb1 : mapAddOrder buyLt e.price
                { id := e.order_id, side := Side.BUY, price := e.price,
                  quantity := e.quantity, timestamp := e.timestamp } b.buy_levels with
              _ | ⟨⟨q0, l0⟩, r0⟩
            · exact absurd hb1 (mapAddOrder_ne_nil _ _ _ _)
            · refine Or.inr (Or.inr ⟨q0, pa, ?_, ?_, ?_⟩)
              · simp [OrderBook.best_bid_price, hb1]
              · simp [OrderBook.best_ask_price]
              · rcases mapAddOrder_head_key buyLt e.price _ b.buy_levels q0 l0 r0 hb1 with
                  h | ⟨l00, rest00, hbb⟩
                · omega
                · rcases hss.2 with h | h | ⟨pb0, pa0, h1, h2, h3⟩
                  · rw [hbb] at h; cases h
                  · rw [hask] at h; cases h
                  · have hpb0 : pb0 = q0 := by
                      rw [OrderBook.best_bid_price, hbb] at h1
                      injection h1 with h4
                      exact h4.symm
                    have hpa0 : pa0 = pa := by
                      rw [OrderBook.best_ask_price, hask] at h2
                      injection h2 with h4
                      exact h4.symm
                    omega
    | SELL =>
      have heqadd := (add_limit_order_valid_eq b
        { id := e.order_id, side := e.side, price := e.price,
          quantity := e.quantity, timestamp := e.timestamp } hp hq).trans
        (add_limit_order_to_side_sell b _ hside)
      rw [hside] at heqadd
      have hfst : (b.add_limit_order
          { id := e.order_id, side := Side.SELL, price := e.price,
            quantity := e.quantity, timestamp := e.timestamp }).1 = true := by
        rw [heqadd]
      have hsnd : (b.add_limit_order
          { id := e.order_id, side := Side.SELL, price := e.price,
            quantity := e.quantity, timestamp := e.timestamp }).2 =
          { b with
            sell_levels := mapAddOrder sellLt e.price
              { id := e.order_id, side := Side.SELL, price := e.price,
                quantity := e.quantity, timestamp := e.timestamp } b.sell_levels,
            order_lookup := lookupInsert e.order_id (e.price, Side.SELL) b.order_lookup,
            order_count := b.order_count + 1 } := by
        rw [heqadd]
      simp only [processLimitOrder, hside, hfst, hsnd, eq_self_iff_true, if_true]
      rcases hbid : b.buy_levels with _ | ⟨⟨pb, lb⟩, restB⟩
      · simp only [OrderBook.best_bid_price]
        refine ⟨⟨?_, ?_⟩, ?_⟩
        · exact List.Pairwise.nil
        · exact mapAddOrder_sorted sellLt sellLt_ok _ _ _ hss.1.2
        · exact Or.inl rfl
      · simp only [OrderBook.best_bid_price]
        by_cases hm : e.price ≤ pb
        · rw [if_pos hm]
          have hb1sell : mapAddOrder sellLt e.price
              { id := e.order_id, side := Side.SELL, price := e.price,
                quantity := e.quantity, timestamp := e.timestamp } b.sell_levels =
              (e.price, OrderBookPriceLevel.init.add_order
                { id := e.order_id, side := Side.SELL, price := e.price,
                  quantity := e.quantity, timestamp := e.timestamp }) ::
                b.sell_levels := by
            rcases haa : b.sell_levels with _ | ⟨⟨pa, la⟩, restA⟩
            · rfl
            · rcases hss.2 with h | h | ⟨pb0, pa0, h1, h2, h3⟩
              · rw [hbid] at h; cases h
              · rw [haa] at h; cases h
              · have hpb0 : pb0 = pb := by
                  rw [OrderBook.best_bid_price, hbid] at h1
                  injection h1 with h4
                  exact h4.symm
                have hpa0 : pa0 = pa := by
                  rw [OrderBook.best_ask_price, haa] at h2
                  injection h2 with h4
                  exact h4.symm
                have hlt : sellLt e.price pa = true := by
                  rw [sellLt_eq_true]
                  omega
                exact mapAddOrder_cons_of_lt sellLt sellLt_ok e.price _ pa la restA hlt
          unfold OrderBook.add_market_order OrderBook.match_market_order_buy
          simp only
          rw [hb1sell]
          apply inv5_fields b _ _ _ hss
          · rw [hbid]
            rfl
          · show (matchLevels e.order_id e.timestamp _ _).2 = b.sell_levels
            exact matchLevels_single e.order_id e.timestamp e.price _ b.sell_levels _
              rfl hq
        · rw [if_neg hm]
          refine ⟨⟨?_, ?_⟩, ?_⟩
          · have hbp := hss.1.1
            rw [hbid] at hbp
            exact hbp
          · exact mapAddOrder_sorted sellLt sellLt_ok _ _ _ hss.1.2
          · rcases hs1 : mapAddOrder sellLt e.price
                { id := e.order_id, side := Side.SELL, price := e.price,
                  quantity := e.quantity, timestamp := e.timestamp } b.sell_levels with
              _ | ⟨⟨q0, l0⟩, r0⟩
            · exact absurd hs1 (mapAddOrder_ne_nil _ _ _ _)
            · refine Or.inr (Or.inr ⟨pb, q0, ?_, ?_, ?_⟩)
              · simp [OrderBook.best_bid_price]
              · simp [OrderBook.best_ask_price, hs1]
              · rcases mapAddOrder_head_key sellLt e.price _ b.sell_levels q0 l0 r0 hs1 with
                  h | ⟨l00, rest00, haa⟩
                · omega
                · rcases hss.2 with h | h | ⟨pb0, pa0, h1, h2, h3⟩
                  · rw [hbid] at h; cases h
                  · rw [haa] at h; cases h
                  · have hpb0 : pb0 = pb := by
                      rw [OrderBook.best_bid_price, hbid] at h1
                      injection h1 with h4
                      exact h4.symm
                    have hpa0 : pa0 = q0 := by
                      rw [OrderBook.best_ask_price, haa] at h2
                      injection h2 with h4
                      exact h4.symm
                    omega
  · have hrej : b.add_limit_order
        { id := e.order_id, side := e.side, price := e.price,
          quantity := e.quantity, timestamp := e.timestamp } = (false, b) := by
      apply add_limit_order_invalid_eq
      simp only
      omega
    simp only [processLimitOrder, hrej]
    exact hss

theorem inv5_event (b : OrderBook) (e : Event)
    (hss : BookSorted b ∧ NoCross b) :
    BookSorted (processEvent b e).2 ∧ NoCross (processEvent b e).2 := by
  cases htype : e.type with
  | LIMIT =>
    simp only [processEvent, htype]
    exact inv5_limit b e hss
  | MARKET =>
    simp only [processEvent, htype]
    exact inv5_market b e.side e.quantity e.order_id e.timestamp hss
  | CANCEL =>
    simp only [processEvent, htype]
    exact inv5_cancel b e.order_id hss
  | UNKNOWN =>
    simp only [processEvent, htype]
    exact hss

theorem inv5_events :
    ∀ (events : List Event) (b : OrderBook), BookSorted b ∧ NoCross b →
      BookSorted (processEvents b events).2 ∧ NoCross (processEvents b events).2 := by
  intro events
  induction events with
  | nil =>
    intro b h
    exact h
  | cons e rest ih =>
    intro b h
    simp only [processEvents]
    exact ih _ (inv5_event b e h)

end NoCrossDev

section ReachInv

theorem nodup_of_pairwise_lt (lt : Int → Int → Bool) (hok : LtOk lt) (l : List Int)
    (h : List.Pairwise (fun x y => lt x y = true) l) : l.Nodup := by
  refine h.imp ?_
  intro a b hab heq
  rw [heq, hok.1 b] at hab
  exact Bool.noConfusion hab

theorem removeFromLevels_true_of_witness (id : Nat) (p : Int)
    (levels : List (Int × OrderBookPriceLevel))
    (h : ∃ o ∈ ordersAtLevel levels p, o.id = id) :
    (removeFromLevels id p levels).1 = true := by
  obtain ⟨o, ho, hid⟩ := h
  unfold ordersAtLevel at ho
  rcases hf : mapFind p levels with _ | lvl
  · rw [hf] at ho; cases ho
  · rw [hf] at ho
    unfold removeFromLevels OrderBookPriceLevel.remove_order
    simp only [hf]
    rcases hr : removeFirstById id lvl.orders with _ | ⟨r, rest⟩
    · exact absurd hid ((removeFirstById_none_iff id lvl.orders).mp hr o ho)
    · simp only [hr]
      by_cases he : rest.isEmpty <;> simp [he]

theorem removeFromLevels_true_spec (id : Nat) (p : Int)
    (levels : List (Int × OrderBookPriceLevel))
    (h : (removeFromLevels id p levels).1 = true) :
    ∃ lvl r rest, mapFind p levels = some lvl ∧
      removeFirstById id lvl.orders = some (r, rest) ∧
      ((rest = [] ∧ (removeFromLevels id p levels).2 = mapErase p levels) ∨
       (rest ≠ [] ∧ (removeFromLevels id p levels).2 =
         mapUpdate p
           { orders := rest, total_quantity := lvl.total_quantity - r.quantity }
           levels)) := by
  unfold removeFromLevels OrderBookPriceLevel.remove_order at h ⊢
  rcases hf : mapFind p levels with _ | lvl
  · simp only [hf] at h
    cases h
  · simp only [hf] at h ⊢
    rcases hr : removeFirstById id lvl.orders with _ | ⟨r, rest⟩
    · simp only [hr] at h
      cases h
    · simp only [hr] at h ⊢
      by_cases he : rest.isEmpty
      · refine ⟨lvl, r, rest, rfl, hr, Or.inl ⟨List.isEmpty_iff.mp he, ?_⟩⟩
        simp [he]
      · refine ⟨lvl, r, rest, rfl, hr, Or.inr ⟨?_, ?_⟩⟩
        · intro hh
          rw [hh] at he
          exact he (List.isEmpty_nil)
        · simp [he]

/-- Admission preserves the reachability invariant. -/
theorem invR_add (b : OrderBook) (o : Order) (h : InvR b) :
    InvR (b.add_limit_order o).2 := by
  by_cases hval : 0 < o.price ∧ 0 < o.quantity
  · obtain ⟨hp, hq⟩ := hval
    rw [add_limit_order_valid_eq b o hp hq]
    obtain ⟨hsort, hknd, hsound, hpm⟩ := h
    cases hside : o.side with
    | BUY =>
      rw [add_limit_order_to_side_buy b o hside]
      refine ⟨⟨?_, hsort.2⟩, ?_, ?_, ?_⟩
      · exact mapAddOrder_sorted buyLt buyLt_ok _ _ _ hsort.1
      · exact lookupInsert_keys_nodup _ _ _ hknd
      · intro id p s hfind
        by_cases hid : id = o.id
        · subst hid
          rw [lookupFind_insert_self] at hfind
          injection hfind with hv
          have hps : p = o.price ∧ s = o.side := by
            constructor
            · exact congrArg Prod.fst hv.symm
            · exact congrArg Prod.snd hv.symm
          obtain ⟨hpp, hs⟩ := hps
          subst hpp
          rw [hs, hside]
          show ∃ o2 ∈ ordersAtLevel (mapAddOrder buyLt o.price o b.buy_levels) o.price,
            o2.id = o.id
          rw [ordersAtLevel_mapAddOrder_self buyLt buyLt_ok o.price o b.buy_levels
            hsort.1]
          exact ⟨o, by simp, rfl⟩
        · rw [lookupFind_insert_ne id o.id _ hid] at hfind
          obtain ⟨o2, ho2, ho2id⟩ := hsound id p s hfind
          cases s with
          | BUY =>
            show ∃ o3 ∈ ordersAtLevel (mapAddOrder buyLt o.price o b.buy_levels) p,
              o3.id = id
            by_cases hpp : p = o.price
            · subst hpp
              rw [ordersAtLevel_mapAddOrder_self buyLt buyLt_ok _ o b.buy_levels
                hsort.1]
              exact ⟨o2, List.mem_append.mpr (Or.inl ho2), ho2id⟩
            · rw [ordersAtLevel_mapAddOrder_ne buyLt o.price p o
                (fun hh => hpp hh) b.buy_levels]
              exact ⟨o2, ho2, ho2id⟩
          | SELL =>
            exact ⟨o2, ho2, ho2id⟩
      · intro pl hpl o2 ho2
        rcases List.mem_append.mp hpl with hmem | hmem
        · rcases mapAddOrder_mem_cases buyLt o.price o b.buy_levels pl hmem with
            hc | ⟨l0, hl0, hpl2⟩ | hc
          · exact hpm pl (List.mem_append.mpr (Or.inl hc)) o2 ho2
          · rw [hpl2] at ho2 ⊢
            simp only [OrderBookPriceLevel.add_order] at ho2
            rcases List.mem_append.mp ho2 with hh | hh
            · have := hpm (o.price, l0) (List.mem_append.mpr (Or.inl hl0)) o2 hh
              simpa using this
            · simp only [List.mem_singleton] at hh
              simp [hh]
          · rw [hc] at ho2 ⊢
            simp only [OrderBookPriceLevel.add_order, OrderBookPriceLevel.init] at ho2
            simp only [List.nil_append, List.mem_singleton] at ho2
            simp [ho2]
        · exact hpm pl (List.mem_append.mpr (Or.inr hmem)) o2 ho2
    | SELL =>
      rw [add_limit_order_to_side_sell b o hside]
      refine ⟨⟨hsort.1, ?_⟩, ?_, ?_, ?_⟩
      · exact mapAddOrder_sorted sellLt sellLt_ok _ _ _ hsort.2
      · exact lookupInsert_keys_nodup _ _ _ hknd
      · intro id p s hfind
        by_cases hid : id = o.id
        · subst hid
          rw [lookupFind_insert_self] at hfind
          injection hfind with hv
          have hps : p = o.price ∧ s = o.side := by
            constructor
            · exact congrArg Prod.fst hv.symm
            · exact congrArg Prod.snd hv.symm
          obtain ⟨hpp, hs⟩ := hps
          subst hpp
          rw [hs, hside]
          show ∃ o2 ∈ ordersAtLevel (mapAddOrder sellLt o.price o b.sell_levels) o.price,
            o2.id = o.id
          rw [ordersAtLevel_mapAddOrder_self sellLt sellLt_ok o.price o b.sell_levels
            hsort.2]
          exact ⟨o, by simp, rfl⟩
        · rw [lookupFind_insert_ne id o.id _ hid] at hfind
          obtain ⟨o2, ho2, ho2id⟩ := hsound id p s hfind
          cases s with
          | SELL =>
            show ∃ o3 ∈ ordersAtLevel (mapAddOrder sellLt o.price o b.sell_levels) p,
              o3.id = id
            by_cases hpp : p = o.price
            · subst hpp
              rw [ordersAtLevel_mapAddOrder_self sellLt sellLt_ok _ o b.sell_levels
                hsort.2]
              exact ⟨o2, List.mem_append.mpr (Or.inl ho2), ho2id⟩
            · rw [ordersAtLevel_mapAddOrder_ne sellLt o.price p o
                (fun hh => hpp hh) b.sell_levels]
              exact ⟨o2, ho2, ho2id⟩
          | BUY =>
            exact ⟨o2, ho2, ho2id⟩
      · intro pl hpl o2 ho2
        rcases List.mem_append.mp hpl with hmem | hmem
        · exact hpm pl (List.mem_append.mpr (Or.inl hmem)) o2 ho2
        · rcases mapAddOrder_mem_cases sellLt o.price o b.sell_levels pl hmem with
            hc | ⟨l0, hl0, hpl2⟩ | hc
          · exact hpm pl (List.mem_append.mpr (Or.inr hc)) o2 ho2
          · rw [hpl2] at ho2 ⊢
            simp only [OrderBookPriceLevel.add_order] at ho2
            rcases List.mem_append.mp ho2 with hh | hh
            · have := hpm (o.price, l0) (List.mem_append.mpr (Or.inr hl0)) o2 hh
              simpa using this
            · simp only [List.mem_singleton] at hh
              simp [hh]
          · rw [hc] at ho2 ⊢
            simp only [OrderBookPriceLevel.add_order, OrderBookPriceLevel.init] at ho2
            simp only [List.nil_append, List.mem_singleton] at ho2
            simp [ho2]
  · have h0 : o.price ≤ 0 ∨ o.quantity ≤ 0 := by omega
    rw [add_limit_order_invalid_eq b o h0]
    exact h

/-- Market execution preserves the reachability invariant. -/
theorem invR_market (b : OrderBook) (side : Side) (q : Int) (tid : Nat) (ts : Int)
    (h : InvR b) : InvR (b.add_market_order side q tid ts).2 := by
  obtain ⟨hsort, hknd, hsound, hpm⟩ := h
  cases side
  case BUY =>
    unfold OrderBook.add_market_order OrderBook.match_market_order_buy
    simp only
    obtain ⟨removed, nt, j1, j2, j3, ⟨dropped, j4⟩, j5, ⟨j6a, j6b⟩, j7⟩ :=
      matchLevels_spec tid ts b.sell_levels (MatchAcc.ofBook b q)
    have hsub : List.Sublist
        ((matchLevels tid ts (MatchAcc.ofBook b q) b.sell_levels).2.map Prod.fst)
        (b.sell_levels.map Prod.fst) := sublist_of_drop_append dropped _ _ j4
    refine ⟨⟨hsort.1, List.Pairwise.sublist hsub hsort.2⟩, ?_, ?_, ?_⟩
    · show ((matchLevels tid ts (MatchAcc.ofBook b q)
          b.sell_levels).1.order_lookup.map Prod.fst).Nodup
      rw [j2]
      exact eraseIds_keys_nodup removed _ hknd
    · intro id p s hfind
      have hfind2 : lookupFind id
          (eraseIds removed b.order_lookup) = some (p, s) := by
        have h2 : lookupFind id (matchLevels tid ts (MatchAcc.ofBook b q)
            b.sell_levels).1.order_lookup = some (p, s) := hfind
        rw [j2] at h2
        exact h2
      have hnr : id ∉ removed := by
        intro hmem
        rw [lookupFind_eraseIds_mem id removed _ hknd hmem] at hfind2
        cases hfind2
      rw [lookupFind_eraseIds_not_mem id removed _ hnr] at hfind2
      obtain ⟨o, ho, hoid⟩ := hsound id p s hfind2
      cases s with
      | BUY => exact ⟨o, ho, hoid⟩
      | SELL =>
        obtain ⟨l, hl, hol⟩ := mem_of_ordersAtLevel b.sell_levels p o ho
        obtain ⟨pl, hpl, hplk, o2, ho2, ho2id⟩ :=
          j7 (p, l) hl o hol (by rw [hoid]; exact hnr)
        have hnd2 : (((matchLevels tid ts (MatchAcc.ofBook b q)
            b.sell_levels).2).map Prod.fst).Nodup :=
          nodup_of_pairwise_lt sellLt sellLt_ok _
            (List.Pairwise.sublist hsub hsort.2)
        have hplk2 : pl.1 = p := hplk
        have heta : (p, pl.2) = pl := by
          rw [← hplk2]
        have hoal : ordersAtLevel
            (matchLevels tid ts (MatchAcc.ofBook b q) b.sell_levels).2 p =
            pl.2.orders :=
          ordersAtLevel_eq_of_mem_nodup _ p pl.2 (heta ▸ hpl) hnd2
        show ∃ o3 ∈ ordersAtLevel
          (matchLevels tid ts (MatchAcc.ofBook b q) b.sell_levels).2 p, o3.id = id
        rw [hoal]
        exact ⟨o2, ho2, by rw [ho2id, hoid]⟩
    · intro pl hpl o2 ho2
      rcases List.mem_append.mp hpl with hmem | hmem
      · exact hpm pl (List.mem_append.mpr (Or.inl hmem)) o2 ho2
      · obtain ⟨pl0, hpl0, hplk, hmapo, _⟩ := j5 pl hmem
        obtain ⟨o3, ho3, ho3id, ho3p, _⟩ := hmapo o2 ho2
        have := hpm pl0 (List.mem_append.mpr (Or.inr hpl0)) o3 ho3
        rw [ho3p, this, hplk]
  case SELL =>
    unfold OrderBook.add_market_order OrderBook.match_market_order_sell
    simp only
    obtain ⟨removed, nt, j1, j2, j3, ⟨dropped, j4⟩, j5, ⟨j6a, j6b⟩, j7⟩ :=
      matchLevels_spec tid ts b.buy_levels (MatchAcc.ofBook b q)
    have hsub : List.Sublist
        ((matchLevels tid ts (MatchAcc.ofBook b q) b.buy_levels).2.map Prod.fst)
        (b.buy_levels.map Prod.fst) := sublist_of_drop_append dropped _ _ j4
    refine ⟨⟨List.Pairwise.sublist hsub hsort.1, hsort.2⟩, ?_, ?_, ?_⟩
    · show ((matchLevels tid ts (MatchAcc.ofBook b q)
          b.buy_levels).1.order_lookup.map Prod.fst).Nodup
      rw [j2]
      exact eraseIds_keys_nodup removed _ hknd
    · intro id p s hfind
      have hfind2 : lookupFind id
          (eraseIds removed b.order_lookup) = some (p, s) := by
        have h2 : lookupFind id (matchLevels tid ts (MatchAcc.ofBook b q)
            b.buy_levels).1.order_lookup = some (p, s) := hfind
        rw [j2] at h2
        exact h2
      have hnr : id ∉ removed := by
        intro hmem
        rw [lookupFind_eraseIds_mem id removed _ hknd hmem] at hfind2
        cases hfind2
      rw [lookupFind_eraseIds_not_mem id removed _ hnr] at hfind2
      obtain ⟨o, ho, hoid⟩ := hsound id p s hfind2
      cases s with
      | SELL => exact ⟨o, ho, hoid⟩
      | BUY =>
        obtain ⟨l, hl, hol⟩ := mem_of_ordersAtLevel b.buy_levels p o ho
        obtain ⟨pl, hpl, hplk, o2, ho2, ho2id⟩ :=
          j7 (p, l) hl o hol (by rw [hoid]; exact hnr)
        have hnd2 : (((matchLevels tid ts (MatchAcc.ofBook b q)
            b.buy_levels).2).map Prod.fst).Nodup :=
          nodup_of_pairwise_lt buyLt buyLt_ok _
            (List.Pairwise.sublist hsub hsort.1)
        have hplk2 : pl.1 = p := hplk
        have heta : (p, pl.2) = pl := by
          rw [← hplk2]
        have hoal : ordersAtLevel
            (matchLevels tid ts (MatchAcc.ofBook b q) b.buy_levels).2 p =
            pl.2.orders :=
          ordersAtLevel_eq_of_mem_nodup _ p pl.2 (heta ▸ hpl) hnd2
        show ∃ o3 ∈ ordersAtLevel
          (matchLevels tid ts (MatchAcc.ofBook b q) b.buy_levels).2 p, o3.id = id
        rw [hoal]
        exact ⟨o2, ho2, by rw [ho2id, hoid]⟩
    · intro pl hpl o2 ho2
      rcases List.mem_append.mp hpl with hmem | hmem
      · obtain ⟨pl0, hpl0, hplk, hmapo, _⟩ := j5 pl hmem
        obtain ⟨o3, ho3, ho3id, ho3p, _⟩ := hmapo o2 ho2
        have := hpm pl0 (List.mem_append.mpr (Or.inl hpl0)) o3 ho3
        rw [ho3p, this, hplk]
      · exact hpm pl (List.mem_append.mpr (Or.inr hmem)) o2 ho2

/-- Cancellation preserves the reachability invariant. -/
theorem invR_cancel (b : OrderBook) (id : Nat) (h : InvR b) :
    InvR (b.cancel_order id).2 := by
  obtain ⟨hsort, hknd, hsound, hpm⟩ := h
  unfold OrderBook.cancel_order
  rcases hf : lookupFind id b.order_lookup with _ | v
  · exact ⟨hsort, hknd, hsound, hpm⟩
  · obtain ⟨p, s⟩ := v
    simp only
    unfold OrderBook.remove_order_from_side
    cases s
    case BUY =>
      simp only
      by_cases hflag : (removeFromLevels id p b.buy_levels).1 = true
      · rw [if_pos hflag]
        obtain ⟨lvl, r0, rest0, hfindlvl, hrem, hcase⟩ :=
          removeFromLevels_true_spec id p b.buy_levels hflag
        obtain ⟨hrid, hperm, hkeep, hsum, hsubl⟩ :=
          removeFirstById_some id lvl.orders r0 rest0 hrem
        refine ⟨⟨?_, hsort.2⟩, ?_, ?_, ?_⟩
        · exact List.Pairwise.sublist
            (removeFromLevels_keys_sublist id p b.buy_levels) hsort.1
        · exact lookupErase_keys_nodup id _ hknd
        · intro id2 p2 s2 hfind2
          have hne : id2 ≠ id := by
            intro hh
            subst hh
            rw [lookupFind_erase_self id2 _ hknd] at hfind2
            cases hfind2
          rw [lookupFind_erase_ne id2 id hne] at hfind2
          obtain ⟨o2, ho2, ho2id⟩ := hsound id2 p2 s2 hfind2
          cases s2 with
          | SELL => exact ⟨o2, ho2, ho2id⟩
          | BUY =>
            show ∃ o3 ∈ ordersAtLevel (removeFromLevels id p b.buy_levels).2 p2,
              o3.id = id2
            by_cases hp2 : p2 = p
            · subst hp2
              have holvl : ordersAtLevel b.buy_levels p2 = lvl.orders := by
                unfold ordersAtLevel
                rw [hfindlvl]
              have ho2b : o2 ∈ ordersAtLevel b.buy_levels p2 := ho2
              rw [holvl] at ho2b
              have ho2rest : o2 ∈ rest0 := hkeep o2 ho2b (by rw [ho2id]; exact hne)
              rcases hcase with ⟨hnil, hres⟩ | ⟨hnn, hres⟩
              · rw [hnil] at ho2rest
                cases ho2rest
              · rw [hres]
                have hpk : p2 ∈ b.buy_levels.map Prod.fst := by
                  have := mapFind_mem p2 b.buy_levels lvl hfindlvl
                  exact List.mem_map.mpr ⟨(p2, lvl), this, rfl⟩
                unfold ordersAtLevel
                rw [mapFind_mapUpdate_self p2 _ b.buy_levels hpk]
                exact ⟨o2, ho2rest, ho2id⟩
            · have : ordersAtLevel (removeFromLevels id p b.buy_levels).2 p2 =
                  ordersAtLevel b.buy_levels p2 := by
                unfold ordersAtLevel
                rcases hcase with ⟨hnil, hres⟩ | ⟨hnn, hres⟩
                · rw [hres, mapFind_mapErase_ne p p2 hp2]
                · rw [hres, mapFind_mapUpdate_ne p p2 _ hp2]
              rw [this]
              exact ⟨o2, ho2, ho2id⟩
        · intro pl hpl o2 ho2
          rcases List.mem_append.mp hpl with hmem | hmem
          · rcases hcase with ⟨hnil, hres⟩ | ⟨hnn, hres⟩
            · rw [hres] at hmem
              exact hpm pl (List.mem_append.mpr (Or.inl
                (List.Sublist.subset (mapErase_sublist p b.buy_levels) hmem))) o2 ho2
            · rw [hres] at hmem
              rcases mapUpdate_mem_cases p _ b.buy_levels pl hmem with hc | hc
              · exact hpm pl (List.mem_append.mpr (Or.inl hc)) o2 ho2
              · rw [hc] at ho2 ⊢
                simp only at ho2
                have ho2l : o2 ∈ lvl.orders :=
                  (hperm.mem_iff).mpr (List.mem_cons_of_mem _ ho2)
                have := hpm (p, lvl) (List.mem_append.mpr (Or.inl
                  (mapFind_mem p b.buy_levels lvl hfindlvl))) o2 ho2l
                simpa using this
          · exact hpm pl (List.mem_append.mpr (Or.inr hmem)) o2 ho2
      · rw [if_neg hflag]
        exact ⟨hsort, hknd, hsound, hpm⟩
    case SELL =>
      simp only
      by_cases hflag : (removeFromLevels id p b.sell_levels).1 = true
      · rw [if_pos hflag]
        obtain ⟨lvl, r0, rest0, hfindlvl, hrem, hcase⟩ :=
          removeFromLevels_true_spec id p b.sell_levels hflag
        obtain ⟨hrid, hperm, hkeep, hsum, hsubl⟩ :=
          removeFirstById_some id lvl.orders r0 rest0 hrem
        refine ⟨⟨hsort.1, ?_⟩, ?_, ?_, ?_⟩
        · exact List.Pairwise.sublist
            (removeFromLevels_keys_sublist id p b.sell_levels) hsort.2
        · exact lookupErase_keys_nodup id _ hknd
        · intro id2 p2 s2 hfind2
          have hne : id2 ≠ id := by
            intro hh
            subst hh
            rw [lookupFind_erase_self id2 _ hknd] at hfind2
            cases hfind2
          rw [lookupFind_erase_ne id2 id hne] at hfind2
          obtain ⟨o2, ho2, ho2id⟩ := hsound id2 p2 s2 hfind2
          cases s2 with
          | BUY => exact ⟨o2, ho2, ho2id⟩
          | SELL =>
            show ∃ o3 ∈ ordersAtLevel (removeFromLevels id p b.sell_levels).2 p2,
              o3.id = id2
            by_cases hp2 : p2 = p
            · subst hp2
              have holvl : ordersAtLevel b.sell_levels p2 = lvl.orders := by
                unfold ordersAtLevel
                rw [hfindlvl]
              have ho2b : o2 ∈ ordersAtLevel b.sell_levels p2 := ho2
              rw [holvl] at ho2b
              have ho2rest : o2 ∈ rest0 := hkeep o2 ho2b (by rw [ho2id]; exact hne)
              rcases hcase with ⟨hnil, hres⟩ | ⟨hnn, hres⟩
              · rw [hnil] at ho2rest
                cases ho2rest
              · rw [hres]
                have hpk : p2 ∈ b.sell_levels.map Prod.fst := by
                  have := mapFind_mem p2 b.sell_levels lvl hfindlvl
                  exact List.mem_map.mpr ⟨(p2, lvl), this, rfl⟩
                unfold ordersAtLevel
                rw [mapFind_mapUpdate_self p2 _ b.sell_levels hpk]
                exact ⟨o2, ho2rest, ho2id⟩
            · have : ordersAtLevel (removeFromLevels id p b.sell_levels).2 p2 =
                  ordersAtLevel b.sell_levels p2 := by
                unfold ordersAtLevel
                rcases hcase with ⟨hnil, hres⟩ | ⟨hnn, hres⟩
                · rw [hres, mapFind_mapErase_ne p p2 hp2]
                · rw [hres, mapFind_mapUpdate_ne p p2 _ hp2]
              rw [this]
              exact ⟨o2, ho2, ho2id⟩
        · intro pl hpl o2 ho2
          rcases List.mem_append.mp hpl with hmem | hmem
          · exact hpm pl (List.mem_append.mpr (Or.inl hmem)) o2 ho2
          · rcases hcase with ⟨hnil, hres⟩ | ⟨hnn, hres⟩
            · rw [hres] at hmem
              exact hpm pl (List.mem_append.mpr (Or.inr
                (List.Sublist.subset (mapErase_sublist p b.sell_levels) hmem))) o2 ho2
            · rw [hres] at hmem
              rcases mapUpdate_mem_cases p _ b.sell_levels pl hmem with hc | hc
              · exact hpm pl (List.mem_append.mpr (Or.inr hc)) o2 ho2
              · rw [hc] at ho2 ⊢
                simp only at ho2
                have ho2l : o2 ∈ lvl.orders :=
                  (hperm.mem_iff).mpr (List.mem_cons_of_mem _ ho2)
                have := hpm (p, lvl) (List.mem_append.mpr (Or.inr
                  (mapFind_mem p b.sell_levels lvl hfindlvl))) o2 ho2l
                simpa using this
      · rw [if_neg hflag]
        exact ⟨hsort, hknd, hsound, hpm⟩

theorem invR_empty : InvR OrderBook.emptyBook := by
  refine ⟨⟨List.Pairwise.nil, List.Pairwise.nil⟩, ?_, ?_, ?_⟩
  · show (([] : List (Nat × Int × Side)).map Prod.fst).Nodup
    simp
  · intro id p s hfind
    cases hfind
  · intro pl hpl
    cases hpl

theorem reachable_invR (b : OrderBook) (h : Reachable b) : InvR b := by
  induction h with
  | emptyR => exact invR_empty
  | limit b2 o _ ih => exact invR_add b2 o ih
  | market b2 s q tid ts _ ih => exact invR_market b2 s q tid ts ih
  | cancel b2 id2 _ ih => exact invR_cancel b2 id2 ih
  | clearR b2 _ _ => exact invR_empty

theorem pairwise_const_or (lt : Int → Int → Bool) (p0 : Int) :
    ∀ l : List Trade, (∀ t ∈ l, t.price = p0) →
      List.Pairwise (fun t1 t2 =>
        t1.price = t2.price ∨ lt t1.price t2.price = true) l := by
  intro l
  induction l with
  | nil => intro _; exact List.Pairwise.nil
  | cons t rest ih =>
    intro h
    refine List.Pairwise.cons ?_ (ih fun x hx => h x (List.mem_cons_of_mem _ hx))
    intro t2 ht2
    exact Or.inl (by
      rw [h t (List.mem_cons_self _ _), h t2 (List.mem_cons_of_mem _ ht2)])

/-- Price–time structure of the trades of one `matchLevels` walk over a
sorted level list: the appended trades have prices taken from the walked
keys, non-decreasing in the walk order, and at each price the maker ids
form an initial segment of that level's queue. -/
theorem matchLevels_trades_spec (lt : Int → Int → Bool) (hok : LtOk lt)
    (taker_id : Nat) (ts : Int) :
    ∀ (levels : List (Int × OrderBookPriceLevel)) (acc : MatchAcc),
      List.Pairwise (fun x y => lt x y = true) (levels.map Prod.fst) →
      ∃ nt, (matchLevels taker_id ts acc levels).1.trades = acc.trades ++ nt ∧
        (∀ t ∈ nt, t.price ∈ levels.map Prod.fst) ∧
        List.Pairwise (fun t1 t2 =>
          t1.price = t2.price ∨ lt t1.price t2.price = true) nt ∧
        (∀ p, ∃ k, (nt.filter (fun t => decide (t.price = p))).map Trade.maker_id =
          ((ordersAtLevel levels p).map Order.id).take k) := by
  intro levels
  induction levels with
  | nil =>
    intro acc _
    refine ⟨[], by simp [matchLevels], by simp, List.Pairwise.nil, ?_⟩
    intro p
    exact ⟨0, by simp [ordersAtLevel, mapFind]⟩
  | cons hd rest ih =>
    intro acc hpair
    obtain ⟨p0, level⟩ := hd
    simp only [List.map_cons, List.pairwise_cons] at hpair
    by_cases hr0 : acc.remaining_qty ≤ 0
    · have heq : matchLevels taker_id ts acc ((p0, level) :: rest) =
          (acc, (p0, level) :: rest) := by
        simp only [matchLevels, if_pos hr0]
      refine ⟨[], by rw [heq]; simp, by simp, List.Pairwise.nil, ?_⟩
      intro p
      exact ⟨0, by simp⟩
    · obtain ⟨k, nt1, il1, il2, il3, il4, il5, il6, il7, il8, il9, il10, il11⟩ :=
        matchLevelLoop_spec p0 taker_id ts level.orders acc level.total_quantity
      have hnt1p : ∀ t ∈ nt1, t.price = p0 := il8
      have hoal0 : ordersAtLevel ((p0, level) :: rest) p0 = level.orders := by
        simp [ordersAtLevel, mapFind]
      by_cases hE : (matchLevelLoop p0 taker_id ts acc level.orders
          level.total_quantity).2.1 = []
      · have heq := matchLevels_cons_emptied taker_id ts acc p0 level rest hr0 hE
        obtain ⟨nt2, ih1, ih2, ih3, ih4⟩ :=
          ih (matchLevelLoop p0 taker_id ts acc level.orders level.total_quantity).1
            hpair.2
        refine ⟨nt1 ++ nt2, ?_, ?_, ?_, ?_⟩
        · rw [heq, ih1, il6]
          simp
        · intro t ht
          rcases List.mem_append.mp ht with h | h
          · simp [hnt1p t h]
          · simp [ih2 t h]
        · rw [List.pairwise_append]
          refine ⟨pairwise_const_or lt p0 nt1 hnt1p, ih3, ?_⟩
          intro t1 ht1 t2 ht2
          refine Or.inr ?_
          rw [hnt1p t1 ht1]
          exact hpair.1 t2.price (ih2 t2 ht2)
        · intro p
          by_cases hpp : p = p0
          · subst hpp
            have hf1 : nt1.filter (fun t => decide (t.price = p)) = nt1 :=
              List.filter_eq_self.mpr fun t ht => by simp [hnt1p t ht]
            have hf2 : nt2.filter (fun t => decide (t.price = p)) = [] := by
              apply List.filter_eq_nil_iff.mpr
              intro t ht
              have hmem := ih2 t ht
              have hlt := hpair.1 t.price hmem
              simp only [decide_eq_true_eq]
              intro hcontra
              rw [hcontra, hok.1 p] at hlt
              exact Bool.noConfusion hlt
            refine ⟨nt1.length, ?_⟩
            rw [List.filter_append, hf1, hf2, List.append_nil, hoal0, il7]
          · have hf1 : nt1.filter (fun t => decide (t.price = p)) = [] := by
              apply List.filter_eq_nil_iff.mpr
              intro t ht
              simp only [decide_eq_true_eq]
              rw [hnt1p t ht]
              exact fun hh => hpp hh.symm
            have hoal : ordersAtLevel ((p0, level) :: rest) p =
                ordersAtLevel rest p := by
              have hne : ¬ (p0 = p) := fun hh => hpp hh.symm
              simp [ordersAtLevel, mapFind, hne]
            obtain ⟨k2, hk2⟩ := ih4 p
            refine ⟨k2, ?_⟩
            rw [List.filter_append, hf1, List.nil_append, hoal, hk2]
      · have hRem : (matchLevelLoop p0 taker_id ts acc level.orders
            level.total_quantity).1.remaining_qty ≤ 0 := by
          rcases il10 with h | h
          · exact absurd h hE
          · exact h
        have heq := matchLevels_cons_kept taker_id ts acc p0 level rest hr0 hE hRem
        refine ⟨nt1, ?_, ?_, ?_, ?_⟩
        · rw [heq]
          exact il6
        · intro t ht
          simp [hnt1p t ht]
        · exact pairwise_const_or lt p0 nt1 hnt1p
        · intro p
          by_cases hpp : p = p0
          · subst hpp
            have hf1 : nt1.filter (fun t => decide (t.price = p)) = nt1 :=
              List.filter_eq_self.mpr fun t ht => by simp [hnt1p t ht]
            refine ⟨nt1.length, ?_⟩
            rw [hf1, hoal0, il7]
          · have hf1 : nt1.filter (fun t => decide (t.price = p)) = [] := by
              apply List.filter_eq_nil_iff.mpr
              intro t ht
              simp only [decide_eq_true_eq]
              rw [hnt1p t ht]
              exact fun hh => hpp hh.symm
            refine ⟨0, ?_⟩
            rw [hf1]
            simp

end ReachInv

section FreshInv

theorem perm_append_swap {α : Type} (a b c : List α) :
    List.Perm (a ++ (b ++ c)) (b ++ (a ++ c)) := by
  rw [← List.append_assoc, ← List.append_assoc]
  exact List.Perm.append_right c List.perm_append_comm

theorem flat_mapErase_perm (p : Int) :
    ∀ (levels : List (Int × OrderBookPriceLevel)) (lvl : OrderBookPriceLevel),
      mapFind p levels = some lvl →
      List.Perm (flatOrders levels) (lvl.orders ++ flatOrders (mapErase p levels)) := by
  intro levels
  induction levels with
  | nil => intro lvl h; cases h
  | cons hd tl ih =>
    intro lvl h
    obtain ⟨q, m⟩ := hd
    by_cases hq : q = p
    · simp only [mapFind, if_pos hq] at h
      injection h with h1
      subst h1
      simp only [mapErase, if_pos hq, flatOrders]
      exact List.Perm.refl _
    · simp only [mapFind, if_neg hq] at h
      simp only [mapErase, if_neg hq, flatOrders]
      exact (List.Perm.append_left m.orders (ih lvl h)).trans
        (perm_append_swap m.orders lvl.orders _)

theorem flat_mapUpdate_perm (p : Int) (newl : OrderBookPriceLevel) :
    ∀ (levels : List (Int × OrderBookPriceLevel)) (lvl : OrderBookPriceLevel),
      mapFind p levels = some lvl →
      List.Perm (flatOrders (mapUpdate p newl levels))
        (newl.orders ++ flatOrders (mapErase p levels)) := by
  intro levels
  induction levels with
  | nil => intro lvl h; cases h
  | cons hd tl ih =>
    intro lvl h
    obtain ⟨q, m⟩ := hd
    by_cases hq : q = p
    · simp only [mapUpdate, if_pos hq, mapErase, flatOrders]
      exact List.Perm.refl _
    · simp only [mapFind, if_neg hq] at h
      simp only [mapUpdate, if_neg hq, mapErase, flatOrders]
      exact (List.Perm.append_left m.orders (ih lvl h)).trans
        (perm_append_swap m.orders newl.orders _)

theorem mapErase_mem_of_nodup (p : Int) :
    ∀ levels : List (Int × OrderBookPriceLevel), (levels.map Prod.fst).Nodup →
      ∀ pl ∈ mapErase p levels, pl ∈ levels ∧ pl.1 ≠ p := by
  intro levels
  induction levels with
  | nil => intro _ pl hpl; cases hpl
  | cons hd tl ih =>
    intro hnd pl hpl
    obtain ⟨q, m⟩ := hd
    simp only [List.map_cons, List.nodup_cons] at hnd
    by_cases hq : q = p
    · simp only [mapErase, if_pos hq] at hpl
      refine ⟨List.mem_cons_of_mem _ hpl, ?_⟩
      intro hc
      have hmem : pl.1 ∈ tl.map Prod.fst := List.mem_map.mpr ⟨pl, hpl, rfl⟩
      rw [hc, ← hq] at hmem
      exact hnd.1 hmem
    · simp only [mapErase, if_neg hq] at hpl
      rcases List.mem_cons.mp hpl with h | h
      · subst h
        exact ⟨List.mem_cons_self _ _, hq⟩
      · obtain ⟨h1, h2⟩ := ih hnd.2 pl h
        exact ⟨List.mem_cons_of_mem _ h1, h2⟩

theorem mapUpdate_mem_of_nodup (p : Int) (newl : OrderBookPriceLevel) :
    ∀ levels : List (Int × OrderBookPriceLevel), (levels.map Prod.fst).Nodup →
      ∀ pl ∈ mapUpdate p newl levels,
        (pl ∈ levels ∧ pl.1 ≠ p) ∨ pl = (p, newl) := by
  intro levels
  induction levels with
  | nil => intro _ pl hpl; cases hpl
  | cons hd tl ih =>
    intro hnd pl hpl
    obtain ⟨q, m⟩ := hd
    simp only [List.map_cons, List.nodup_cons] at hnd
    by_cases hq : q = p
    · simp only [mapUpdate, if_pos hq] at hpl
      rcases List.mem_cons.mp hpl with h | h
      · exact Or.inr (by rw [h, hq])
      · refine Or.inl ⟨List.mem_cons_of_mem _ h, ?_⟩
        intro hc
        have hmem : pl.1 ∈ tl.map Prod.fst := List.mem_map.mpr ⟨pl, h, rfl⟩
        rw [hc, ← hq] at hmem
        exact hnd.1 hmem
    · simp only [mapUpdate, if_neg hq] at hpl
      rcases List.mem_cons.mp hpl with h | h
      · subst h
        exact Or.inl ⟨List.mem_cons_self _ _, hq⟩
      · rcases ih hnd.2 pl h with ⟨h1, h2⟩ | h2
        · exact Or.inl ⟨List.mem_cons_of_mem _ h1, h2⟩
        · exact Or.inr h2

theorem invF_empty : InvF OrderBook.emptyBook := by
  refine ⟨invR_empty, ?_, ?_, ?_, rfl, rfl, ?_⟩
  · intro s pl hpl
    cases s <;> cases hpl
  · show ((restingOrders OrderBook.emptyBook).map Order.id).Nodup
    simp [restingOrders, flatOrders, OrderBook.emptyBook]
  · intro id
    constructor
    · rintro ⟨v, hv⟩
      cases hv
    · intro hmem
      simp [restingOrders, flatOrders, OrderBook.emptyBook] at hmem
  · intro pl hpl
    cases hpl

/-- Admitting a valid order whose id is absent from the index preserves the
full consistency invariant. -/
theorem invF_add (b : OrderBook) (o : Order) (h : InvF b)
    (hfresh : lookupFind o.id b.order_lookup = none) :
    InvF (b.add_limit_order o).2 := by
  obtain ⟨hR, hComp, hIds, hKidx, hCnt, hSz, hTot⟩ := h
  have hRv : InvR (b.add_limit_order o).2 := invR_add b o hR
  by_cases hval : 0 < o.price ∧ 0 < o.quantity
  · obtain ⟨hp, hq⟩ := hval
    rw [add_limit_order_valid_eq b o hp hq] at hRv ⊢
    have hnotmem : o.id ∉ b.order_lookup.map Prod.fst :=
      (lookupFind_eq_none_iff o.id b.order_lookup).mp hfresh
    have hnotrest : o.id ∉ (restingOrders b).map Order.id := by
      intro hmem
      obtain ⟨v, hv⟩ := (hKidx o.id).mpr hmem
      rw [hfresh] at hv
      cases hv
    cases hside : o.side with
    | BUY =>
      rw [add_limit_order_to_side_buy b o hside] at hRv ⊢
      have hperm : List.Perm
          (flatOrders (mapAddOrder buyLt o.price o b.buy_levels) ++
            flatOrders b.sell_levels)
          (o :: restingOrders b) := by
        have h1 := List.Perm.append_right (flatOrders b.sell_levels)
          (mapAddOrder_flat_perm buyLt o.price o b.buy_levels)
        simpa [restingOrders] using h1
      have hpermIds := hperm.map Order.id
      refine ⟨hRv, ?_, ?_, ?_, ?_, ?_, ?_⟩
      · intro s pl hpl o2 ho2
        cases s with
        | BUY =>
          have hpl2 : pl ∈ mapAddOrder buyLt o.price o b.buy_levels := hpl
          rcases mapAddOrder_mem_cases buyLt o.price o b.buy_levels pl hpl2 with
            hc | ⟨l0, hl0, hplE⟩ | hplE
          · have hfind := hComp Side.BUY pl hc o2 ho2
            have hne : o2.id ≠ o.id := by
              intro he
              apply hnotrest
              rw [← he]
              refine List.mem_map.mpr ⟨o2, ?_, rfl⟩
              exact List.mem_append.mpr (Or.inl
                ((mem_flatOrders o2 b.buy_levels).mpr ⟨pl, hc, ho2⟩))
            show lookupFind o2.id
                (lookupInsert o.id (o.price, o.side) b.order_lookup) =
              some (pl.1, Side.BUY)
            rw [lookupFind_insert_ne o2.id o.id _ hne]
            exact hfind
          · subst hplE
            simp only [OrderBookPriceLevel.add_order] at ho2
            rcases List.mem_append.mp ho2 with hin | hin
            · have hfind := hComp Side.BUY (o.price, l0) hl0 o2 hin
              have hne : o2.id ≠ o.id := by
                intro he
                apply hnotrest
                rw [← he]
                refine List.mem_map.mpr ⟨o2, ?_, rfl⟩
                exact List.mem_append.mpr (Or.inl
                  ((mem_flatOrders o2 b.buy_levels).mpr ⟨(o.price, l0), hl0, hin⟩))
              show lookupFind o2.id
                  (lookupInsert o.id (o.price, o.side) b.order_lookup) =
                some (o.price, Side.BUY)
              rw [lookupFind_insert_ne o2.id o.id _ hne]
              exact hfind
            · simp only [List.mem_singleton] at hin
              subst hin
              show lookupFind o2.id
                  (lookupInsert o2.id (o2.price, o2.side) b.order_lookup) =
                some (o2.price, Side.BUY)
              rw [lookupFind_insert_self, hside]
          · subst hplE
            simp only [OrderBookPriceLevel.add_order, OrderBookPriceLevel.init,
              List.nil_append, List.mem_singleton] at ho2
            subst ho2
            show lookupFind o2.id
                (lookupInsert o2.id (o2.price, o2.side) b.order_lookup) =
              some (o2.price, Side.BUY)
            rw [lookupFind_insert_self, hside]
        | SELL =>
          have hpl2 : pl ∈ b.sell_levels := hpl
          have hfind := hComp Side.SELL pl hpl2 o2 ho2
          have hne : o2.id ≠ o.id := by
            intro he
            apply hnotrest
            rw [← he]
            refine List.mem_map.mpr ⟨o2, ?_, rfl⟩
            exact List.mem_append.mpr (Or.inr
              ((mem_flatOrders o2 b.sell_levels).mpr ⟨pl, hpl2, ho2⟩))
          show lookupFind o2.id
              (lookupInsert o.id (o.price, o.side) b.order_lookup) =
            some (pl.1, Side.SELL)
          rw [lookupFind_insert_ne o2.id o.id _ hne]
          exact hfind
      · show ((flatOrders (mapAddOrder buyLt o.price o b.buy_levels) ++
            flatOrders b.sell_levels).map Order.id).Nodup
        refine (List.Perm.nodup_iff hpermIds).mpr ?_
        simp only [List.map_cons, List.nodup_cons]
        exact ⟨hnotrest, hIds⟩
      · intro id2
        show (∃ v, lookupFind id2
            (lookupInsert o.id (o.price, o.side) b.order_lookup) = some v) ↔
          id2 ∈ ((flatOrders (mapAddOrder buyLt o.price o b.buy_levels) ++
            flatOrders b.sell_levels).map Order.id)
        rw [hpermIds.mem_iff, List.map_cons, List.mem_cons]
        by_cases hid : id2 = o.id
        · subst hid
          constructor
          · intro _
            exact Or.inl rfl
          · intro _
            exact ⟨(o.price, o.side), lookupFind_insert_self o.id _ b.order_lookup⟩
        · rw [lookupFind_insert_ne id2 o.id _ hid]
          constructor
          · intro hex
            exact Or.inr ((hKidx id2).mp hex)
          · rintro (hc | hc)
            · exact absurd hc hid
            · exact (hKidx id2).mpr hc
      · show b.order_count + 1 =
          (flatOrders (mapAddOrder buyLt o.price o b.buy_levels) ++
            flatOrders b.sell_levels).length
        rw [hperm.length_eq]
        simp only [List.length_cons]
        omega
      · show (lookupInsert o.id (o.price, o.side) b.order_lookup).length =
          b.order_count + 1
        rw [lookupInsert_length_of_not_mem o.id _ b.order_lookup hnotmem]
        omega
      · intro pl hpl
        have hpl2 : pl ∈ mapAddOrder buyLt o.price o b.buy_levels ++
            b.sell_levels := hpl
        rcases List.mem_append.mp hpl2 with hmem | hmem
        · rcases mapAddOrder_mem_cases buyLt o.price o b.buy_levels pl hmem with
            hc | ⟨l0, hl0, hplE⟩ | hplE
          · exact hTot pl (List.mem_append.mpr (Or.inl hc))
          · subst hplE
            show (l0.add_order o).total_quantity = sumQ (l0.add_order o).orders
            simp only [OrderBookPriceLevel.add_order]
            rw [sumQ_append]
            have hT : l0.total_quantity = sumQ l0.orders :=
              hTot (o.price, l0) (List.mem_append.mpr (Or.inl hl0))
            rw [hT]
            simp only [sumQ]
            omega
          · subst hplE
            show (OrderBookPriceLevel.init.add_order o).total_quantity =
              sumQ (OrderBookPriceLevel.init.add_order o).orders
            simp [OrderBookPriceLevel.add_order, OrderBookPriceLevel.init, sumQ]
        · exact hTot pl (List.mem_append.mpr (Or.inr hmem))
    | SELL =>
      rw [add_limit_order_to_side_sell b o hside] at hRv ⊢
      have hperm : List.Perm
          (flatOrders b.buy_levels ++
            flatOrders (mapAddOrder sellLt o.price o b.sell_levels))
          (o :: restingOrders b) := by
        have h1 := List.Perm.append_left (flatOrders b.buy_levels)
          (mapAddOrder_flat_perm sellLt o.price o b.sell_levels)
        refine h1.trans ?_
        have h2 : List.Perm
            (flatOrders b.buy_levels ++ o :: flatOrders b.sell_levels)
            (o :: (flatOrders b.buy_levels ++ flatOrders b.sell_levels)) :=
          List.perm_middle
        have h3 : restingOrders b =
            flatOrders b.buy_levels ++ flatOrders b.sell_levels := rfl
        rw [h3]
        exact h2
      have hpermIds := hperm.map Order.id
      refine ⟨hRv, ?_, ?_, ?_, ?_, ?_, ?_⟩
      · intro s pl hpl o2 ho2
        cases s with
        | SELL =>
          have hpl2 : pl ∈ mapAddOrder sellLt o.price o b.sell_levels := hpl
          rcases mapAddOrder_mem_cases sellLt o.price o b.sell_levels pl hpl2 with
            hc | ⟨l0, hl0, hplE⟩ | hplE
          · have hfind := hComp Side.SELL pl hc o2 ho2
            have hne : o2.id ≠ o.id := by
              intro he
              apply hnotrest
              rw [← he]
              refine List.mem_map.mpr ⟨o2, ?_, rfl⟩
              exact List.mem_append.mpr (Or.inr
                ((mem_flatOrders o2 b.sell_levels).mpr ⟨pl, hc, ho2⟩))
            show lookupFind o2.id
                (lookupInsert o.id (o.price, o.side) b.order_lookup) =
              some (pl.1, Side.SELL)
            rw [lookupFind_insert_ne o2.id o.id _ hne]
            exact hfind
          · subst hplE
            simp only [OrderBookPriceLevel.add_order] at ho2
            rcases List.mem_append.mp ho2 with hin | hin
            · have hfind := hComp Side.SELL (o.price, l0) hl0 o2 hin
              have hne : o2.id ≠ o.id := by
                intro he
                apply hnotrest
                rw [← he]
                refine List.mem_map.mpr ⟨o2, ?_, rfl⟩
                exact List.mem_append.mpr (Or.inr
                  ((mem_flatOrders o2 b.sell_levels).mpr ⟨(o.price, l0), hl0, hin⟩))
              show lookupFind o2.id
                  (lookupInsert o.id (o.price, o.side) b.order_lookup) =
                some (o.price, Side.SELL)
              rw [lookupFind_insert_ne o2.id o.id _ hne]
              exact hfind
            · simp only [List.mem_singleton] at hin
              subst hin
              show lookupFind o2.id
                  (lookupInsert o2.id (o2.price, o2.side) b.order_lookup) =
                some (o2.price, Side.SELL)
              rw [lookupFind_insert_self, hside]
          · subst hplE
            simp only [OrderBookPriceLevel.add_order, OrderBookPriceLevel.init,
              List.nil_append, List.mem_singleton] at ho2
            subst ho2
            show lookupFind o2.id
                (lookupInsert o2.id (o2.price, o2.side) b.order_lookup) =
              some (o2.price, Side.SELL)
            rw [lookupFind_insert_self, hside]
        | BUY =>
          have hpl2 : pl ∈ b.buy_levels := hpl
          have hfind := hComp Side.BUY pl hpl2 o2 ho2
          have hne : o2.id ≠ o.id := by
            intro he
            apply hnotrest
            rw [← he]
            refine List.mem_map.mpr ⟨o2, ?_, rfl⟩
            exact List.mem_append.mpr (Or.inl
              ((mem_flatOrders o2 b.buy_levels).mpr ⟨pl, hpl2, ho2⟩))
          show lookupFind o2.id
              (lookupInsert o.id (o.price, o.side) b.order_lookup) =
            some (pl.1, Side.BUY)
          rw [lookupFind_insert_ne o2.id o.id _ hne]
          exact hfind
      · show ((flatOrders b.buy_levels ++
            flatOrders (mapAddOrder sellLt o.price o b.sell_levels)).map
              Order.id).Nodup
        refine (List.Perm.nodup_iff hpermIds).mpr ?_
        simp only [List.map_cons, List.nodup_cons]
        exact ⟨hnotrest, hIds⟩
      · intro id2
        show (∃ v, lookupFind id2
            (lookupInsert o.id (o.price, o.side) b.order_lookup) = some v) ↔
          id2 ∈ ((flatOrders b.buy_levels ++
            flatOrders (mapAddOrder sellLt o.price o b.sell_levels)).map Order.id)
        rw [hpermIds.mem_iff, List.map_cons, List.mem_cons]
        by_cases hid : id2 = o.id
        · subst hid
          constructor
          · intro _
            exact Or.inl rfl
          · intro _
            exact ⟨(o.price, o.side), lookupFind_insert_self o.id _ b.order_lookup⟩
        · rw [lookupFind_insert_ne id2 o.id _ hid]
          constructor
          · intro hex
            exact Or.inr ((hKidx id2).mp hex)
          · rintro (hc | hc)
            · exact absurd hc hid
            · exact (hKidx id2).mpr hc
      · show b.order_count + 1 =
          (flatOrders b.buy_levels ++
            flatOrders (mapAddOrder sellLt o.price o b.sell_levels)).length
        rw [hperm.length_eq]
        simp only [List.length_cons]
        omega
      · show (lookupInsert o.id (o.price, o.side) b.order_lookup).length =
          b.order_count + 1
        rw [lookupInsert_length_of_not_mem o.id _ b.order_lookup hnotmem]
        omega
      · intro pl hpl
        have hpl2 : pl ∈ b.buy_levels ++
            mapAddOrder sellLt o.price o b.sell_levels := hpl
        rcases List.mem_append.mp hpl2 with hmem | hmem
        · exact hTot pl (List.mem_append.mpr (Or.inl hmem))
        · rcases mapAddOrder_mem_cases sellLt o.price o b.sell_levels pl hmem with
            hc | ⟨l0, hl0, hplE⟩ | hplE
          · exact hTot pl (List.mem_append.mpr (Or.inr hc))
          · subst hplE
            show (l0.add_order o).total_quantity = sumQ (l0.add_order o).orders
            simp only [OrderBookPriceLevel.add_order]
            rw [sumQ_append]
            have hT : l0.total_quantity = sumQ l0.orders :=
              hTot (o.price, l0) (List.mem_append.mpr (Or.inr hl0))
            rw [hT]
            simp only [sumQ]
            omega
          · subst hplE
            show (OrderBookPriceLevel.init.add_order o).total_quantity =
              sumQ (OrderBookPriceLevel.init.add_order o).orders
            simp [OrderBookPriceLevel.add_order, OrderBookPriceLevel.init, sumQ]
  · have h0 : o.price ≤ 0 ∨ o.quantity ≤ 0 := by omega
    rw [add_limit_order_invalid_eq b o h0] at hRv ⊢
    exact ⟨hRv, hComp, hIds, hKidx, hCnt, hSz, hTot⟩

/-- Market execution preserves the full consistency invariant. -/
theorem invF_market (b : OrderBook) (side : Side) (q : Int) (tid : Nat) (ts : Int)
    (h : InvF b) : InvF (b.add_market_order side q tid ts).2 := by
  obtain ⟨hR, hComp, hIds, hKidx, hCnt, hSz, hTot⟩ := h
  have hRv : InvR (b.add_market_order side q tid ts).2 :=
    invR_market b side q tid ts hR
  have hknd : KeysNodup b := hR.2.1
  have hndAll : (((flatOrders b.buy_levels).map Order.id) ++
      ((flatOrders b.sell_levels).map Order.id)).Nodup := by
    have h2 : ((restingOrders b).map Order.id).Nodup := hIds
    simp only [restingOrders, List.map_append] at h2
    exact h2
  obtain ⟨hndB, hndS, hdisjBS⟩ := List.nodup_append.mp hndAll
  cases side
  case BUY =>
    obtain ⟨removed, nt, j1, j2, j3, ⟨dropped, j4⟩, j5, ⟨j6a, j6b⟩, j7⟩ :=
      matchLevels_spec tid ts b.sell_levels (MatchAcc.ofBook b q)
    have hndSplit : (removed ++
        (flatOrders (matchLevels tid ts (MatchAcc.ofBook b q)
          b.sell_levels).2).map Order.id).Nodup := j1 ▸ hndS
    obtain ⟨hndRem, hndSurv, hdisjRS⟩ := List.nodup_append.mp hndSplit
    have hremSub : ∀ i ∈ removed, i ∈ (flatOrders b.sell_levels).map Order.id := by
      intro i hi
      rw [j1]
      exact List.mem_append.mpr (Or.inl hi)
    have hsurvSub : ∀ i ∈ (flatOrders (matchLevels tid ts (MatchAcc.ofBook b q)
        b.sell_levels).2).map Order.id, i ∈ (flatOrders b.sell_levels).map Order.id := by
      intro i hi
      rw [j1]
      exact List.mem_append.mpr (Or.inr hi)
    have hremKeys : ∀ i ∈ removed, i ∈ b.order_lookup.map Prod.fst := by
      intro i hi
      have hmem : i ∈ (restingOrders b).map Order.id := by
        simp only [restingOrders, List.map_append]
        exact List.mem_append.mpr (Or.inr (hremSub i hi))
      exact (lookupFind_isSome_iff i b.order_lookup).mp ((hKidx i).mpr hmem)
    refine ⟨hRv, ?_, ?_, ?_, ?_, ?_, ?_⟩
    · intro s pl hpl o2 ho2
      cases s with
      | BUY =>
        have hpl2 : pl ∈ b.buy_levels := hpl
        have hfind := hComp Side.BUY pl hpl2 o2 ho2
        have hnr : o2.id ∉ removed := by
          intro hmem
          refine hdisjBS ?_ (hremSub o2.id hmem)
          exact List.mem_map.mpr
            ⟨o2, (mem_flatOrders o2 b.buy_levels).mpr ⟨pl, hpl2, ho2⟩, rfl⟩
        show lookupFind o2.id (matchLevels tid ts (MatchAcc.ofBook b q)
            b.sell_levels).1.order_lookup = some (pl.1, Side.BUY)
        rw [j2, lookupFind_eraseIds_not_mem o2.id removed _ hnr]
        exact hfind
      | SELL =>
        have hpl2 : pl ∈ (matchLevels tid ts (MatchAcc.ofBook b q)
            b.sell_levels).2 := hpl
        obtain ⟨pl0, hpl0, hplk, hmapo, htq⟩ := j5 pl hpl2
        obtain ⟨o3, ho3, hid3, _, _⟩ := hmapo o2 ho2
        have hfind := hComp Side.SELL pl0 hpl0 o3 ho3
        have hnr : o2.id ∉ removed := by
          intro hmem
          refine hdisjRS hmem ?_
          exact List.mem_map.mpr
            ⟨o2, (mem_flatOrders o2 _).mpr ⟨pl, hpl2, ho2⟩, rfl⟩
        show lookupFind o2.id (matchLevels tid ts (MatchAcc.ofBook b q)
            b.sell_levels).1.order_lookup = some (pl.1, Side.SELL)
        rw [j2, lookupFind_eraseIds_not_mem o2.id removed _ hnr, hid3, hplk]
        exact hfind
    · show ((flatOrders b.buy_levels ++ flatOrders (matchLevels tid ts
          (MatchAcc.ofBook b q) b.sell_levels).2).map Order.id).Nodup
      rw [List.map_append]
      refine List.nodup_append.mpr ⟨hndB, hndSurv, ?_⟩
      intro a ha hb
      exact hdisjBS ha (hsurvSub a hb)
    · intro id2
      show (∃ v, lookupFind id2 (matchLevels tid ts (MatchAcc.ofBook b q)
          b.sell_levels).1.order_lookup = some v) ↔
        id2 ∈ ((flatOrders b.buy_levels ++ flatOrders (matchLevels tid ts
          (MatchAcc.ofBook b q) b.sell_levels).2).map Order.id)
      rw [j2, List.map_append]
      by_cases hid : id2 ∈ removed
      · constructor
        · rintro ⟨v, hv⟩
          have hv2 : lookupFind id2 (eraseIds removed b.order_lookup) = some v := hv
          rw [lookupFind_eraseIds_mem id2 removed _ hknd hid] at hv2
          cases hv2
        · intro hmem
          exfalso
          rcases List.mem_append.mp hmem with hc | hc
          · exact hdisjBS hc (hremSub id2 hid)
          · exact hdisjRS hid hc
      · rw [lookupFind_eraseIds_not_mem id2 removed _ hid]
        constructor
        · intro hex
          have hmem := (hKidx id2).mp hex
          simp only [restingOrders, List.map_append] at hmem
          rcases List.mem_append.mp hmem with hc | hc
          · exact List.mem_append.mpr (Or.inl hc)
          · rw [j1] at hc
            rcases List.mem_append.mp hc with hc2 | hc2
            · exact absurd hc2 hid
            · exact List.mem_append.mpr (Or.inr hc2)
        · intro hmem
          apply (hKidx id2).mpr
          simp only [restingOrders, List.map_append]
          rcases List.mem_append.mp hmem with hc | hc
          · exact List.mem_append.mpr (Or.inl hc)
          · refine List.mem_append.mpr (Or.inr ?_)
            rw [j1]
            exact List.mem_append.mpr (Or.inr hc)
    · show (matchLevels tid ts (MatchAcc.ofBook b q)
          b.sell_levels).1.order_count =
        (flatOrders b.buy_levels ++ flatOrders (matchLevels tid ts
          (MatchAcc.ofBook b q) b.sell_levels).2).length
      rw [j3]
      have hlen1 : (flatOrders b.sell_levels).length = removed.length +
          (flatOrders (matchLevels tid ts (MatchAcc.ofBook b q)
            b.sell_levels).2).length := by
        have h2 := congrArg List.length j1
        simpa using h2
      have hcnt2 : b.order_count = (flatOrders b.buy_levels).length +
          (flatOrders b.sell_levels).length := by
        rw [hCnt]
        simp [restingOrders]
      show b.order_count - removed.length = _
      simp only [List.length_append]
      omega
    · show (matchLevels tid ts (MatchAcc.ofBook b q)
          b.sell_levels).1.order_lookup.length =
        (matchLevels tid ts (MatchAcc.ofBook b q) b.sell_levels).1.order_count
      rw [j2, j3]
      have helen := eraseIds_length removed b.order_lookup hknd hndRem hremKeys
      show (eraseIds removed b.order_lookup).length =
        b.order_count - removed.length
      omega
    · intro pl hpl
      have hpl2 : pl ∈ b.buy_levels ++ (matchLevels tid ts (MatchAcc.ofBook b q)
          b.sell_levels).2 := hpl
      rcases List.mem_append.mp hpl2 with hmem | hmem
      · exact hTot pl (List.mem_append.mpr (Or.inl hmem))
      · obtain ⟨pl0, hpl0, hplk, hmapo, htq⟩ := j5 pl hmem
        exact htq (hTot pl0 (List.mem_append.mpr (Or.inr hpl0)))
  case SELL =>
    obtain ⟨removed, nt, j1, j2, j3, ⟨dropped, j4⟩, j5, ⟨j6a, j6b⟩, j7⟩ :=
      matchLevels_spec tid ts b.buy_levels (MatchAcc.ofBook b q)
    have hndSplit : (removed ++
        (flatOrders (matchLevels tid ts (MatchAcc.ofBook b q)
          b.buy_levels).2).map Order.id).Nodup := j1 ▸ hndB
    obtain ⟨hndRem, hndSurv, hdisjRS⟩ := List.nodup_append.mp hndSplit
    have hremSub : ∀ i ∈ removed, i ∈ (flatOrders b.buy_levels).map Order.id := by
      intro i hi
      rw [j1]
      exact List.mem_append.mpr (Or.inl hi)
    have hsurvSub : ∀ i ∈ (flatOrders (matchLevels tid ts (MatchAcc.ofBook b q)
        b.buy_levels).2).map Order.id, i ∈ (flatOrders b.buy_levels).map Order.id := by
      intro i hi
      rw [j1]
      exact List.mem_append.mpr (Or.inr hi)
    have hremKeys : ∀ i ∈ removed, i ∈ b.order_lookup.map Prod.fst := by
      intro i hi
      have hmem : i ∈ (restingOrders b).map Order.id := by
        simp only [restingOrders, List.map_append]
        exact List.mem_append.mpr (Or.inl (hremSub i hi))
      exact (lookupFind_isSome_iff i b.order_lookup).mp ((hKidx i).mpr hmem)
    refine ⟨hRv, ?_, ?_, ?_, ?_, ?_, ?_⟩
    · intro s pl hpl o2 ho2
      cases s with
      | SELL =>
        have hpl2 : pl ∈ b.sell_levels := hpl
        have hfind := hComp Side.SELL pl hpl2 o2 ho2
        have hnr : o2.id ∉ removed := by
          intro hmem
          refine hdisjBS (hremSub o2.id hmem) ?_
          exact List.mem_map.mpr
            ⟨o2, (mem_flatOrders o2 b.sell_levels).mpr ⟨pl, hpl2, ho2⟩, rfl⟩
        show lookupFind o2.id (matchLevels tid ts (MatchAcc.ofBook b q)
            b.buy_levels).1.order_lookup = some (pl.1, Side.SELL)
        rw [j2, lookupFind_eraseIds_not_mem o2.id removed _ hnr]
        exact hfind
      | BUY =>
        have hpl2 : pl ∈ (matchLevels tid ts (MatchAcc.ofBook b q)
            b.buy_levels).2 := hpl
        obtain ⟨pl0, hpl0, hplk, hmapo, htq⟩ := j5 pl hpl2
        obtain ⟨o3, ho3, hid3, _, _⟩ := hmapo o2 ho2
        have hfind := hComp Side.BUY pl0 hpl0 o3 ho3
        have hnr : o2.id ∉ removed := by
          intro hmem
          refine hdisjRS hmem ?_
          exact List.mem_map.mpr
            ⟨o2, (mem_flatOrders o2 _).mpr ⟨pl, hpl2, ho2⟩, rfl⟩
        show lookupFind o2.id (matchLevels tid ts (MatchAcc.ofBook b q)
            b.buy_levels).1.order_lookup = some (pl.1, Side.BUY)
        rw [j2, lookupFind_eraseIds_not_mem o2.id removed _ hnr, hid3, hplk]
        exact hfind
    · show ((flatOrders (matchLevels tid ts (MatchAcc.ofBook b q)
          b.buy_levels).2 ++ flatOrders b.sell_levels).map Order.id).Nodup
      rw [List.map_append]
      refine List.nodup_append.mpr ⟨hndSurv, hndS, ?_⟩
      intro a ha hb
      exact hdisjBS (hsurvSub a ha) hb
    · intro id2
      show (∃ v, lookupFind id2 (matchLevels tid ts (MatchAcc.ofBook b q)
          b.buy_levels).1.order_lookup = some v) ↔
        id2 ∈ ((flatOrders (matchLevels tid ts (MatchAcc.ofBook b q)
          b.buy_levels).2 ++ flatOrders b.sell_levels).map Order.id)
      rw [j2, List.map_append]
      by_cases hid : id2 ∈ removed
      · constructor
        · rintro ⟨v, hv⟩
          have hv2 : lookupFind id2 (eraseIds removed b.order_lookup) = some v := hv
          rw [lookupFind_eraseIds_mem id2 removed _ hknd hid] at hv2
          cases hv2
        · intro hmem
          exfalso
          rcases List.mem_append.mp hmem with hc | hc
          · exact hdisjRS hid hc
          · exact hdisjBS (hremSub id2 hid) hc
      · rw [lookupFind_eraseIds_not_mem id2 removed _ hid]
        constructor
        · intro hex
          have hmem := (hKidx id2).mp hex
          simp only [restingOrders, List.map_append] at hmem
          rcases List.mem_append.mp hmem with hc | hc
          · rw [j1] at hc
            rcases List.mem_append.mp hc with hc2 | hc2
            · exact absurd hc2 hid
            · exact List.mem_append.mpr (Or.inl hc2)
          · exact List.mem_append.mpr (Or.inr hc)
        · intro hmem
          apply (hKidx id2).mpr
          simp only [restingOrders, List.map_append]
          rcases List.mem_append.mp hmem with hc | hc
          · refine List.mem_append.mpr (Or.inl ?_)
            rw [j1]
            exact List.mem_append.mpr (Or.inr hc)
          · exact List.mem_append.mpr (Or.inr hc)
    · show (matchLevels tid ts (MatchAcc.ofBook b q)
          b.buy_levels).1.order_count =
        (flatOrders (matchLevels tid ts (MatchAcc.ofBook b q)
          b.buy_levels).2 ++ flatOrders b.sell_levels).length
      rw [j3]
      have hlen1 : (flatOrders b.buy_levels).length = removed.length +
          (flatOrders (matchLevels tid ts (MatchAcc.ofBook b q)
            b.buy_levels).2).length := by
        have h2 := congrArg List.length j1
        simpa using h2
      have hcnt2 : b.order_count = (flatOrders b.buy_levels).length +
          (flatOrders b.sell_levels).length := by
        rw [hCnt]
        simp [restingOrders]
      show b.order_count - removed.length = _
      simp only [List.length_append]
      omega
    · show (matchLevels tid ts (MatchAcc.ofBook b q)
          b.buy_levels).1.order_lookup.length =
        (matchLevels tid ts (MatchAcc.ofBook b q) b.buy_levels).1.order_count
      rw [j2, j3]
      have helen := eraseIds_length removed b.order_lookup hknd hndRem hremKeys
      show (eraseIds removed b.order_lookup).length =
        b.order_count - removed.length
      omega
    · intro pl hpl
      have hpl2 : pl ∈ (matchLevels tid ts (MatchAcc.ofBook b q)
          b.buy_levels).2 ++ b.sell_levels := hpl
      rcases List.mem_append.mp hpl2 with hmem | hmem
      · obtain ⟨pl0, hpl0, hplk, hmapo, htq⟩ := j5 pl hmem
        exact htq (hTot pl0 (List.mem_append.mpr (Or.inl hpl0)))
      · exact hTot pl (List.mem_append.mpr (Or.inr hmem))

/-- Cancellation preserves the full consistency invariant. -/
theorem invF_cancel (b : OrderBook) (id : Nat) (h : InvF b) :
    InvF (b.cancel_order id).2 := by
  obtain ⟨hR, hComp, hIds, hKidx, hCnt, hSz, hTot⟩ := h
  have hknd : KeysNodup b := hR.2.1
  have hRv : InvR (b.cancel_order id).2 := invR_cancel b id hR
  unfold OrderBook.cancel_order at hRv ⊢
  rcases hf : lookupFind id b.order_lookup with _ | v
  · rw [hf] at hRv
    exact ⟨hRv, hComp, hIds, hKidx, hCnt, hSz, hTot⟩
  · obtain ⟨p, s⟩ := v
    rw [hf] at hRv
    have hRv2 : InvR (b.remove_order_from_side id p s) := hRv
    show InvF (b.remove_order_from_side id p s)
    cases s with
    | BUY =>
      by_cases hflag : (removeFromLevels id p b.buy_levels).1 = true
      · have hbeq : b.remove_order_from_side id p Side.BUY =
            { b with buy_levels := (removeFromLevels id p b.buy_levels).2,
                     order_lookup := lookupErase id b.order_lookup,
                     order_count := b.order_count - 1 } := by
          unfold OrderBook.remove_order_from_side
          simp only
          rw [if_pos hflag]
        rw [hbeq] at hRv2 ⊢
        obtain ⟨lvl, r0, rest0, hfindlvl, hrem, hcase⟩ :=
          removeFromLevels_true_spec id p b.buy_levels hflag
        obtain ⟨hrid, hperm, hkeep, hsum, hsubl⟩ :=
          removeFirstById_some id lvl.orders r0 rest0 hrem
        have hkeysB : (b.buy_levels.map Prod.fst).Nodup :=
          nodup_of_pairwise_lt buyLt buyLt_ok _ hR.1.1
        have hpermE : List.Perm (flatOrders b.buy_levels)
            (lvl.orders ++ flatOrders (mapErase p b.buy_levels)) :=
          flat_mapErase_perm p b.buy_levels lvl hfindlvl
        have hpermB : List.Perm (flatOrders b.buy_levels)
            (r0 :: flatOrders (removeFromLevels id p b.buy_levels).2) := by
          rcases hcase with ⟨hnil, hres⟩ | ⟨hnn, hres⟩
          · rw [hres]
            subst hnil
            exact hpermE.trans (List.Perm.append_right _ hperm)
          · rw [hres]
            have hpermU := flat_mapUpdate_perm p
              { orders := rest0,
                total_quantity := lvl.total_quantity - r0.quantity }
              b.buy_levels lvl hfindlvl
            exact hpermE.trans ((List.Perm.append_right _ hperm).trans
              (List.Perm.cons r0 hpermU.symm))
        have hpermR : List.Perm (restingOrders b)
            (r0 :: (flatOrders (removeFromLevels id p b.buy_levels).2 ++
              flatOrders b.sell_levels)) := by
          have h1 : restingOrders b =
              flatOrders b.buy_levels ++ flatOrders b.sell_levels := rfl
          rw [h1]
          exact List.Perm.append_right _ hpermB
        have hpermIds := hpermR.map Order.id
        have hndC := (List.Perm.nodup_iff hpermIds).mp hIds
        simp only [List.map_cons, List.nodup_cons] at hndC
        have hlenR := hpermR.length_eq
        simp only [List.length_cons] at hlenR
        refine ⟨hRv2, ?_, ?_, ?_, ?_, ?_, ?_⟩
        · intro s2 pl hpl o2 ho2
          cases s2 with
          | SELL =>
            have hpl2 : pl ∈ b.sell_levels := hpl
            have hfind := hComp Side.SELL pl hpl2 o2 ho2
            have hne : o2.id ≠ id := by
              intro he
              rw [he, hf] at hfind
              simp at hfind
            show lookupFind o2.id (lookupErase id b.order_lookup) =
              some (pl.1, Side.SELL)
            rw [lookupFind_erase_ne o2.id id hne]
            exact hfind
          | BUY =>
            have hpl2 : pl ∈ (removeFromLevels id p b.buy_levels).2 := hpl
            rcases hcase with ⟨hnil, hres⟩ | ⟨hnn, hres⟩
            · rw [hres] at hpl2
              obtain ⟨hmem, hnep⟩ :=
                mapErase_mem_of_nodup p b.buy_levels hkeysB pl hpl2
              have hfind := hComp Side.BUY pl hmem o2 ho2
              have hne : o2.id ≠ id := by
                intro he
                rw [he, hf] at hfind
                simp only [Option.some.injEq, Prod.mk.injEq] at hfind
                exact hnep hfind.1.symm
              show lookupFind o2.id (lookupErase id b.order_lookup) =
                some (pl.1, Side.BUY)
              rw [lookupFind_erase_ne o2.id id hne]
              exact hfind
            · rw [hres] at hpl2
              rcases mapUpdate_mem_of_nodup p _ b.buy_levels hkeysB pl hpl2 with
                ⟨hmem, hnep⟩ | hplE
              · have hfind := hComp Side.BUY pl hmem o2 ho2
                have hne : o2.id ≠ id := by
                  intro he
                  rw [he, hf] at hfind
                  simp only [Option.some.injEq, Prod.mk.injEq] at hfind
                  exact hnep hfind.1.symm
                show lookupFind o2.id (lookupErase id b.order_lookup) =
                  some (pl.1, Side.BUY)
                rw [lookupFind_erase_ne o2.id id hne]
                exact hfind
              · have ho2r : o2 ∈ rest0 := by
                  rw [hplE] at ho2
                  exact ho2
                have ho2l : o2 ∈ lvl.orders :=
                  hperm.mem_iff.mpr (List.mem_cons_of_mem _ ho2r)
                have hfind := hComp Side.BUY (p, lvl)
                  (mapFind_mem p b.buy_levels lvl hfindlvl) o2 ho2l
                have hndlvl : (lvl.orders.map Order.id).Nodup := by
                  have h1 : ((flatOrders b.buy_levels).map Order.id).Nodup := by
                    have h2 : ((restingOrders b).map Order.id).Nodup := hIds
                    simp only [restingOrders, List.map_append] at h2
                    exact (List.nodup_append.mp h2).1
                  have h3 := (List.Perm.nodup_iff (hpermE.map Order.id)).mp h1
                  rw [List.map_append] at h3
                  exact (List.nodup_append.mp h3).1
                have hne : o2.id ≠ id := by
                  intro he
                  have hndc := (List.Perm.nodup_iff (hperm.map Order.id)).mp hndlvl
                  simp only [List.map_cons, List.nodup_cons] at hndc
                  refine hndc.1 ?_
                  rw [hrid, ← he]
                  exact List.mem_map.mpr ⟨o2, ho2r, rfl⟩
                show lookupFind o2.id (lookupErase id b.order_lookup) =
                  some (pl.1, Side.BUY)
                rw [lookupFind_erase_ne o2.id id hne, hplE]
                exact hfind
        · show ((flatOrders (removeFromLevels id p b.buy_levels).2 ++
              flatOrders b.sell_levels).map Order.id).Nodup
          exact hndC.2
        · intro id2
          show (∃ w, lookupFind id2 (lookupErase id b.order_lookup) = some w) ↔
            id2 ∈ ((flatOrders (removeFromLevels id p b.buy_levels).2 ++
              flatOrders b.sell_levels).map Order.id)
          by_cases hid2 : id2 = id
          · subst hid2
            constructor
            · rintro ⟨w, hw⟩
              rw [lookupFind_erase_self id2 b.order_lookup hknd] at hw
              cases hw
            · intro hmem
              exfalso
              refine hndC.1 ?_
              rw [hrid]
              exact hmem
          · rw [lookupFind_erase_ne id2 id hid2]
            constructor
            · intro hex
              have hmem := (hKidx id2).mp hex
              have hmem2 := hpermIds.mem_iff.mp hmem
              simp only [List.map_cons, List.mem_cons] at hmem2
              rcases hmem2 with hc | hc
              · exact absurd (hc.trans hrid) hid2
              · exact hc
            · intro hmem
              apply (hKidx id2).mpr
              apply hpermIds.mem_iff.mpr
              simp only [List.map_cons, List.mem_cons]
              exact Or.inr hmem
        · show b.order_count - 1 =
            (flatOrders (removeFromLevels id p b.buy_levels).2 ++
              flatOrders b.sell_levels).length
          omega
        · show (lookupErase id b.order_lookup).length = b.order_count - 1
          have hkmem : id ∈ b.order_lookup.map Prod.fst :=
            (lookupFind_isSome_iff id b.order_lookup).mp ⟨(p, Side.BUY), hf⟩
          have helen := lookupErase_length_of_mem id b.order_lookup hkmem
          omega
        · intro pl hpl
          have hpl2 : pl ∈ (removeFromLevels id p b.buy_levels).2 ++
              b.sell_levels := hpl
          rcases List.mem_append.mp hpl2 with hmem | hmem
          · rcases hcase with ⟨hnil, hres⟩ | ⟨hnn, hres⟩
            · rw [hres] at hmem
              exact hTot pl (List.mem_append.mpr (Or.inl
                (List.Sublist.subset (mapErase_sublist p b.buy_levels) hmem)))
            · rw [hres] at hmem
              rcases mapUpdate_mem_of_nodup p _ b.buy_levels hkeysB pl hmem with
                ⟨hmem2, _⟩ | hplE
              · exact hTot pl (List.mem_append.mpr (Or.inl hmem2))
              · rw [hplE]
                show lvl.total_quantity - r0.quantity = sumQ rest0
                have hT : lvl.total_quantity = sumQ lvl.orders :=
                  hTot (p, lvl) (List.mem_append.mpr (Or.inl
                    (mapFind_mem p b.buy_levels lvl hfindlvl)))
                omega
          · exact hTot pl (List.mem_append.mpr (Or.inr hmem))
      · have hbeq : b.remove_order_from_side id p Side.BUY = b := by
          unfold OrderBook.remove_order_from_side
          simp only
          rw [if_neg hflag]
        rw [hbeq]
        exact ⟨hR, hComp, hIds, hKidx, hCnt, hSz, hTot⟩
    | SELL =>
      by_cases hflag : (removeFromLevels id p b.sell_levels).1 = true
      · have hbeq : b.remove_order_from_side id p Side.SELL =
            { b with sell_levels := (removeFromLevels id p b.sell_levels).2,
                     order_lookup := lookupErase id b.order_lookup,
                     order_count := b.order_count - 1 } := by
          unfold OrderBook.remove_order_from_side
          simp only
          rw [if_pos hflag]
        rw [hbeq] at hRv2 ⊢
        obtain ⟨lvl, r0, rest0, hfindlvl, hrem, hcase⟩ :=
          removeFromLevels_true_spec id p b.sell_levels hflag
        obtain ⟨hrid, hperm, hkeep, hsum, hsubl⟩ :=
          removeFirstById_some id lvl.orders r0 rest0 hrem
        have hkeysS : (b.sell_levels.map Prod.fst).Nodup :=
          nodup_of_pairwise_lt sellLt sellLt_ok _ hR.1.2
        have hpermE : List.Perm (flatOrders b.sell_levels)
            (lvl.orders ++ flatOrders (mapErase p b.sell_levels)) :=
          flat_mapErase_perm p b.sell_levels lvl hfindlvl
        have hpermB : List.Perm (flatOrders b.sell_levels)
            (r0 :: flatOrders (removeFromLevels id p b.sell_levels).2) := by
          rcases hcase with ⟨hnil, hres⟩ | ⟨hnn, hres⟩
          · rw [hres]
            subst hnil
            exact hpermE.trans (List.Perm.append_right _ hperm)
          · rw [hres]
            have hpermU := flat_mapUpdate_perm p
              { orders := rest0,
                total_quantity := lvl.total_quantity - r0.quantity }
              b.sell_levels lvl hfindlvl
            exact hpermE.trans ((List.Perm.append_right _ hperm).trans
              (List.Perm.cons r0 hpermU.symm))
        have hpermR : List.Perm (restingOrders b)
            (r0 :: (flatOrders b.buy_levels ++
              flatOrders (removeFromLevels id p b.sell_levels).2)) := by
          have h1 : restingOrders b =
              flatOrders b.buy_levels ++ flatOrders b.sell_levels := rfl
          rw [h1]
          refine (List.Perm.append_left _ hpermB).trans ?_
          exact List.perm_middle
        have hpermIds := hpermR.map Order.id
        have hndC := (List.Perm.nodup_iff hpermIds).mp hIds
        simp only [List.map_cons, List.nodup_cons] at hndC
        have hlenR := hpermR.length_eq
        simp only [List.length_cons] at hlenR
        refine ⟨hRv2, ?_, ?_, ?_, ?_, ?_, ?_⟩
        · intro s2 pl hpl o2 ho2
          cases s2 with
          | BUY =>
            have hpl2 : pl ∈ b.buy_levels := hpl
            have hfind := hComp Side.BUY pl hpl2 o2 ho2
            have hne : o2.id ≠ id := by
              intro he
              rw [he, hf] at hfind
              simp at hfind
            show lookupFind o2.id (lookupErase id b.order_lookup) =
              some (pl.1, Side.BUY)
            rw [lookupFind_erase_ne o2.id id hne]
            exact hfind
          | SELL =>
            have hpl2 : pl ∈ (removeFromLevels id p b.sell_levels).2 := hpl
            rcases hcase with ⟨hnil, hres⟩ | ⟨hnn, hres⟩
            · rw [hres] at hpl2
              obtain ⟨hmem, hnep⟩ :=
                mapErase_mem_of_nodup p b.sell_levels hkeysS pl hpl2
              have hfind := hComp Side.SELL pl hmem o2 ho2
              have hne : o2.id ≠ id := by
                intro he
                rw [he, hf] at hfind
                simp only [Option.some.injEq, Prod.mk.injEq] at hfind
                exact hnep hfind.1.symm
              show lookupFind o2.id (lookupErase id b.order_lookup) =
                some (pl.1, Side.SELL)
              rw [lookupFind_erase_ne o2.id id hne]
              exact hfind
            · rw [hres] at hpl2
              rcases mapUpdate_mem_of_nodup p _ b.sell_levels hkeysS pl hpl2 with
                ⟨hmem, hnep⟩ | hplE
              · have hfind := hComp Side.SELL pl hmem o2 ho2
                have hne : o2.id ≠ id := by
                  intro he
                  rw [he, hf] at hfind
                  simp only [Option.some.injEq, Prod.mk.injEq] at hfind
                  exact hnep hfind.1.symm
                show lookupFind o2.id (lookupErase id b.order_lookup) =
                  some (pl.1, Side.SELL)
                rw [lookupFind_erase_ne o2.id id hne]
                exact hfind
              · have ho2r : o2 ∈ rest0 := by
                  rw [hplE] at ho2
                  exact ho2
                have ho2l : o2 ∈ lvl.orders :=
                  hperm.mem_iff.mpr (List.mem_cons_of_mem _ ho2r)
                have hfind := hComp Side.SELL (p, lvl)
                  (mapFind_mem p b.sell_levels lvl hfindlvl) o2 ho2l
                have hndlvl : (lvl.orders.map Order.id).Nodup := by
                  have h1 : ((flatOrders b.sell_levels).map Order.id).Nodup := by
                    have h2 : ((restingOrders b).map Order.id).Nodup := hIds
                    simp only [restingOrders, List.map_append] at h2
                    exact (List.nodup_append.mp h2).2.1
                  have h3 := (List.Perm.nodup_iff (hpermE.map Order.id)).mp h1
                  rw [List.map_append] at h3
                  exact (List.nodup_append.mp h3).1
                have hne : o2.id ≠ id := by
                  intro he
                  have hndc := (List.Perm.nodup_iff (hperm.map Order.id)).mp hndlvl
                  simp only [List.map_cons, List.nodup_cons] at hndc
                  refine hndc.1 ?_
                  rw [hrid, ← he]
                  exact List.mem_map.mpr ⟨o2, ho2r, rfl⟩
                show lookupFind o2.id (lookupErase id b.order_lookup) =
                  some (pl.1, Side.SELL)
                rw [lookupFind_erase_ne o2.id id hne, hplE]
                exact hfind
        · show ((flatOrders b.buy_levels ++
              flatOrders (removeFromLevels id p b.sell_levels).2).map
                Order.id).Nodup
          exact hndC.2
        · intro id2
          show (∃ w, lookupFind id2 (lookupErase id b.order_lookup) = some w) ↔
            id2 ∈ ((flatOrders b.buy_levels ++
              flatOrders (removeFromLevels id p b.sell_levels).2).map Order.id)
          by_cases hid2 : id2 = id
          · subst hid2
            constructor
            · rintro ⟨w, hw⟩
              rw [lookupFind_erase_self id2 b.order_lookup hknd] at hw
              cases hw
            · intro hmem
              exfalso
              refine hndC.1 ?_
              rw [hrid]
              exact hmem
          · rw [lookupFind_erase_ne id2 id hid2]
            constructor
            · intro hex
              have hmem := (hKidx id2).mp hex
              have hmem2 := hpermIds.mem_iff.mp hmem
              simp only [List.map_cons, List.mem_cons] at hmem2
              rcases hmem2 with hc | hc
              · exact absurd (hc.trans hrid) hid2
              · exact hc
            · intro hmem
              apply (hKidx id2).mpr
              apply hpermIds.mem_iff.mpr
              simp only [List.map_cons, List.mem_cons]
              exact Or.inr hmem
        · show b.order_count - 1 =
            (flatOrders b.buy_levels ++
              flatOrders (removeFromLevels id p b.sell_levels).2).length
          omega
        · show (lookupErase id b.order_lookup).length = b.order_count - 1
          have hkmem : id ∈ b.order_lookup.map Prod.fst :=
            (lookupFind_isSome_iff id b.order_lookup).mp ⟨(p, Side.SELL), hf⟩
          have helen := lookupErase_length_of_mem id b.order_lookup hkmem
          omega
        · intro pl hpl
          have hpl2 : pl ∈ b.buy_levels ++
              (removeFromLevels id p b.sell_levels).2 := hpl
          rcases List.mem_append.mp hpl2 with hmem | hmem
          · exact hTot pl (List.mem_append.mpr (Or.inl hmem))
          · rcases hcase with ⟨hnil, hres⟩ | ⟨hnn, hres⟩
            · rw [hres] at hmem
              exact hTot pl (List.mem_append.mpr (Or.inr
                (List.Sublist.subset (mapErase_sublist p b.sell_levels) hmem)))
            · rw [hres] at hmem
              rcases mapUpdate_mem_of_nodup p _ b.sell_levels hkeysS pl hmem with
                ⟨hmem2, _⟩ | hplE
              · exact hTot pl (List.mem_append.mpr (Or.inr hmem2))
              · rw [hplE]
                show lvl.total_quantity - r0.quantity = sumQ rest0
                have hT : lvl.total_quantity = sumQ lvl.orders :=
                  hTot (p, lvl) (List.mem_append.mpr (Or.inr
                    (mapFind_mem p b.sell_levels lvl hfindlvl)))
                omega
      · have hbeq : b.remove_order_from_side id p Side.SELL = b := by
          unfold OrderBook.remove_order_from_side
          simp only
          rw [if_neg hflag]
        rw [hbeq]
        exact ⟨hR, hComp, hIds, hKidx, hCnt, hSz, hTot⟩

/-- Every fresh-id-reachable book satisfies the full consistency
invariant. -/
theorem reachableFresh_invF (b : OrderBook) (h : ReachableFresh b) : InvF b := by
  induction h with
  | emptyR => exact invF_empty
  | limit b2 o _ hfresh ih => exact invF_add b2 o ih hfresh
  | market b2 s q tid ts _ ih => exact invF_market b2 s q tid ts ih
  | cancel b2 id2 _ ih => exact invF_cancel b2 id2 ih
  | clearR b2 _ _ => exact invF_empty

end FreshInv







/-- C10: a market order with non-positive quantity returns no trades and
leaves the book (level maps, id index, and all counters) unchanged. -/
theorem add_market_order_nonpos_qty (b : OrderBook) (side : Side) (q : Int)
    (taker_id : Nat) (ts : Int) (h : q ≤ 0) :
    b.add_market_order side q taker_id ts = ([], b) := by
  have hr : (MatchAcc.ofBook b q).remaining_qty ≤ 0 := h
  cases side <;>
    · simp only [OrderBook.add_market_order, OrderBook.match_market_order_buy,
        OrderBook.match_market_order_sell]
      rw [matchLevels_nonpos _ _ _ _ hr]
      rfl

/-- C10 witness: a concrete zero-quantity market order on a one-order book
is the identity. -/
theorem add_market_order_nonpos_qty_witness :
    (0 : Int) ≤ 0 ∧
      ((OrderBook.emptyBook.add_limit_order
          { id := 1, side := Side.SELL, price := 10002, quantity := 50,
            timestamp := 1000 }).2).add_market_order Side.BUY 0 2 1001 =
        ([], (OrderBook.emptyBook.add_limit_order
          { id := 1, side := Side.SELL, price := 10002, quantity := 50,
            timestamp := 1000 }).2) :=
  ⟨by decide, add_market_order_nonpos_qty _ Side.BUY 0 2 1001 (by decide)⟩

/-- C9: a market order whose opposite side is empty returns no trades and
leaves the book unchanged. -/
theorem add_market_order_empty_opposite (b : OrderBook) (side : Side) (q : Int)
    (taker_id : Nat) (ts : Int) (h : oppositeLevels b side = []) :
    b.add_market_order side q taker_id ts = ([], b) := by
  obtain ⟨bl, sl, lk, oc, ltp, tv, tc⟩ := b
  cases side with
  | BUY =>
    have hs : sl = [] := h
    subst hs
    simp [OrderBook.add_market_order, OrderBook.match_market_order_buy,
      matchLevels, OrderBook.applyAcc, MatchAcc.ofBook]
  | SELL =>
    have hs : bl = [] := h
    subst hs
    simp [OrderBook.add_market_order, OrderBook.match_market_order_sell,
      matchLevels, OrderBook.applyAcc, MatchAcc.ofBook]

/-- C9 witness: a market buy against a book with bids but no asks is the
identity and yields no trades. -/
theorem add_market_order_empty_opposite_witness :
    oppositeLevels ((OrderBook.emptyBook.add_limit_order
        { id := 1, side := Side.BUY, price := 10000, quantity := 40,
          timestamp := 1000 }).2) Side.BUY = [] ∧
      ((OrderBook.emptyBook.add_limit_order
          { id := 1, side := Side.BUY, price := 10000, quantity := 40,
            timestamp := 1000 }).2).add_market_order Side.BUY 100 2 1001 =
        ([], (OrderBook.emptyBook.add_limit_order
          { id := 1, side := Side.BUY, price := 10000, quantity := 40,
            timestamp := 1000 }).2) :=
  ⟨by decide, add_market_order_empty_opposite _ Side.BUY 100 2 1001 (by decide)⟩

/-- C3 (amended): `add_limit_order` returns false and leaves the book
unchanged whenever the order's price or quantity is non-positive; the
source performs no duplicate-id rejection. -/
theorem add_limit_order_rejects_invalid (b : OrderBook) (o : Order)
    (h : o.price ≤ 0 ∨ o.quantity ≤ 0) :
    b.add_limit_order o = (false, b) :=
  add_limit_order_invalid_eq b o h

/-- C3 witness: a zero-price order is rejected without mutation. -/
theorem add_limit_order_rejects_invalid_witness :
    ((0 : Int) ≤ 0 ∨ (10 : Int) ≤ 0) ∧
      OrderBook.emptyBook.add_limit_order
        { id := 1, side := Side.BUY, price := 0, quantity := 10,
          timestamp := 1000 } = (false, OrderBook.emptyBook) :=
  ⟨Or.inl (by decide),
    add_limit_order_rejects_invalid OrderBook.emptyBook
      { id := 1, side := Side.BUY, price := 0, quantity := 10, timestamp := 1000 }
      (Or.inl (by decide))⟩

/-- C3 counterexample: re-submitting an order whose id is already a key of
`by_id` is admitted (returns true) and mutates the book, contradicting the
claimed duplicate-id rejection. -/
theorem add_limit_order_duplicate_id_admitted :
    lookupFind 1 ((OrderBook.emptyBook.add_limit_order
        { id := 1, side := Side.BUY, price := 100, quantity := 5,
          timestamp := 0 }).2).order_lookup = some (100, Side.BUY) ∧
      (((OrderBook.emptyBook.add_limit_order
          { id := 1, side := Side.BUY, price := 100, quantity := 5,
            timestamp := 0 }).2).add_limit_order
        { id := 1, side := Side.BUY, price := 100, quantity := 5,
          timestamp := 0 }).1 = true ∧
      (((OrderBook.emptyBook.add_limit_order
          { id := 1, side := Side.BUY, price := 100, quantity := 5,
            timestamp := 0 }).2).add_limit_order
        { id := 1, side := Side.BUY, price := 100, quantity := 5,
          timestamp := 0 }).2 ≠
        (OrderBook.emptyBook.add_limit_order
          { id := 1, side := Side.BUY, price := 100, quantity := 5,
            timestamp := 0 }).2 := by
  refine ⟨by decide, by decide, by decide⟩

/-- C4 counterexample: after admitting the same order twice (a reachable
sequence), `size` is 2 while `by_id` has a single entry, so
`size == |by_id|` fails. -/
theorem size_lookup_mismatch_reachable :
    Reachable (((OrderBook.emptyBook.add_limit_order
        { id := 1, side := Side.BUY, price := 100, quantity := 5,
          timestamp := 0 }).2).add_limit_order
        { id := 1, side := Side.BUY, price := 100, quantity := 5,
          timestamp := 0 }).2 ∧
      ((((OrderBook.emptyBook.add_limit_order
          { id := 1, side := Side.BUY, price := 100, quantity := 5,
            timestamp := 0 }).2).add_limit_order
          { id := 1, side := Side.BUY, price := 100, quantity := 5,
            timestamp := 0 }).2).order_count = 2 ∧
      ((((OrderBook.emptyBook.add_limit_order
          { id := 1, side := Side.BUY, price := 100, quantity := 5,
            timestamp := 0 }).2).add_limit_order
          { id := 1, side := Side.BUY, price := 100, quantity := 5,
            timestamp := 0 }).2).order_lookup.length = 1 :=
  ⟨Reachable.limit _ _ (Reachable.limit _ _ Reachable.emptyR),
    by decide, by decide⟩

/-- C4 (amended): in every state reachable from the empty book by
operation sequences in which each admitted limit order carries an id not
currently in `by_id` (the discipline the engine layer and all repository
tests follow), the keys of the `by_id` index are exactly the ids of the
orders resting in the two side maps, `size()` equals the number of `by_id`
entries, that number equals the number of resting orders, and every
level's maintained `total_quantity` is the sum of its queue's residual
quantities.  The unrestricted form of the claim is refuted by
duplicate-id admission (see the counterexample): the index entry is
overwritten while the order is queued a second time, leaving
`size() = 2` against one `by_id` entry. -/
theorem index_consistency_fresh (b : OrderBook) (hb : ReachableFresh b) :
    (∀ id, (∃ v, lookupFind id b.order_lookup = some v) ↔
      id ∈ (restingOrders b).map Order.id) ∧
    b.order_lookup.length = b.order_count ∧
    b.order_count = (restingOrders b).length ∧
    ∀ pl ∈ b.buy_levels ++ b.sell_levels,
      pl.2.total_quantity = sumQ pl.2.orders := by
  obtain ⟨_, _, _, hKidx, hCnt, hSz, hTot⟩ := reachableFresh_invF b hb
  exact ⟨hKidx, hSz, hCnt, hTot⟩

theorem index_consistency_fresh_witness :
    (∀ id, (∃ v, lookupFind id sampleFreshBook.order_lookup = some v) ↔
      id ∈ (restingOrders sampleFreshBook).map Order.id) ∧
    sampleFreshBook.order_lookup.length = sampleFreshBook.order_count ∧
    sampleFreshBook.order_count = (restingOrders sampleFreshBook).length ∧
    ∀ pl ∈ sampleFreshBook.buy_levels ++ sampleFreshBook.sell_levels,
      pl.2.total_quantity = sumQ pl.2.orders :=
  index_consistency_fresh sampleFreshBook
    (ReachableFresh.limit OrderBook.emptyBook sampleOrder
      ReachableFresh.emptyR rfl)

/-- C1: evaluating the engine at the S4 input.  From the S1 post-state
(one resting sell, id 1, price 10002, residual 20), the limit event
Buy(id 10, price 10005, qty 15) produces the self-trade
{maker 10, taker 10, price 10005, qty 15} — the cross passes the opposite
side enum to `add_market_order`, so the matcher walks the buy side and
consumes the just-admitted order — and the best ask stays at quantity 20,
contradicting the claimed {maker 1, price 10002} trade and residual 5. -/
theorem marketable_limit_self_trade_eval :
    (processEvent
        ((((OrderBook.emptyBook.add_limit_order
            { id := 1, side := Side.SELL, price := 10002, quantity := 50,
              timestamp := 1000 }).2).add_market_order Side.BUY 30 2 1001).2)
        { type := EventType.LIMIT, order_id := 10, side := Side.BUY,
          price := 10005, quantity := 15, timestamp := 1100, agent_id := 0 }).1 =
      [{ maker_id := 10, taker_id := 10, price := 10005, quantity := 15,
         timestamp := 1100 }] ∧
      (processEvent
        ((((OrderBook.emptyBook.add_limit_order
            { id := 1, side := Side.SELL, price := 10002, quantity := 50,
              timestamp := 1000 }).2).add_market_order Side.BUY 30 2 1001).2)
        { type := EventType.LIMIT, order_id := 10, side := Side.BUY,
          price := 10005, quantity := 15, timestamp := 1100, agent_id := 0 }).2.best_ask_price
        = some 10002 ∧
      (processEvent
        ((((OrderBook.emptyBook.add_limit_order
            { id := 1, side := Side.SELL, price := 10002, quantity := 50,
              timestamp := 1000 }).2).add_market_order Side.BUY 30 2 1001).2)
        { type := EventType.LIMIT, order_id := 10, side := Side.BUY,
          price := 10005, quantity := 15, timestamp := 1100, agent_id := 0 }).2.best_ask_quantity
        = some 20 := by
  refine ⟨by decide, by decide, by decide⟩

/-- C2: evaluating the failing input for the volume counter.  A market buy
of 30 against a resting sell of 50 emits a quantity-30 trade, yet
`total_volume` stays 0: the partially-filled branch zeroes `remaining_qty`
before adding it to the counter. -/
theorem total_volume_lost_on_partial_fill :
    ((OrderBook.emptyBook.add_limit_order
        { id := 1, side := Side.SELL, price := 10002, quantity := 50,
          timestamp := 1000 }).2).add_market_order Side.BUY 30 2 1001
      = ([{ maker_id := 1, taker_id := 2, price := 10002, quantity := 30,
            timestamp := 1001 }],
         { buy_levels := []
           sell_levels := [(10002,
             { orders := [{ id := 1, side := Side.SELL, price := 10002,
                            quantity := 20, timestamp := 1000 }],
               total_quantity := 20 })]
           order_lookup := [(1, 10002, Side.SELL)]
           order_count := 1
           last_trade_price := 10002
           total_volume := 0
           trade_count := 1 }) := by
  decide

/-- C5: after the engine processes any event sequence from the empty book,
the top of book is never crossed: a side is empty or best bid < best ask. -/
theorem engine_never_crossed (events : List Event) :
    NoCross (processEvents OrderBook.emptyBook events).2 :=
  (inv5_events events OrderBook.emptyBook
    ⟨⟨List.Pairwise.nil, List.Pairwise.nil⟩, Or.inl rfl⟩).2

/-- C6: in any reachable book, every trade returned by `add_market_order`
executes at the price of a resting order whose id is the trade's maker id;
since an order's price field is never mutated after admission, this is the
price at which the maker was admitted. -/
theorem trade_price_eq_maker_price (b : OrderBook) (hb : Reachable b)
    (side : Side) (q : Int) (tid : Nat) (ts : Int) :
    ∀ t ∈ (b.add_market_order side q tid ts).1,
      ∃ o ∈ restingOrders b, o.id = t.maker_id ∧ t.price = o.price := by
  obtain ⟨hsort, hknd, hsound, hpm⟩ := reachable_invR b hb
  cases side with
  | BUY =>
    obtain ⟨removed, nt, j1, j2, j3, j4, j5, ⟨j6a, j6b⟩, j7⟩ :=
      matchLevels_spec tid ts b.sell_levels (MatchAcc.ofBook b q)
    intro t ht
    have htn : t ∈ nt := by
      have ht2 : t ∈ (matchLevels tid ts (MatchAcc.ofBook b q)
          b.sell_levels).1.trades := ht
      rw [j6a] at ht2
      simpa [MatchAcc.ofBook] using ht2
    obtain ⟨pl0, hpl0, o, ho, htp, htm⟩ := j6b t htn
    refine ⟨o, ?_, htm.symm, ?_⟩
    · unfold restingOrders
      exact List.mem_append.mpr
        (Or.inr ((mem_flatOrders o b.sell_levels).mpr ⟨pl0, hpl0, ho⟩))
    · have hop := hpm pl0 (List.mem_append.mpr (Or.inr hpl0)) o ho
      rw [htp, hop]
  | SELL =>
    obtain ⟨removed, nt, j1, j2, j3, j4, j5, ⟨j6a, j6b⟩, j7⟩ :=
      matchLevels_spec tid ts b.buy_levels (MatchAcc.ofBook b q)
    intro t ht
    have htn : t ∈ nt := by
      have ht2 : t ∈ (matchLevels tid ts (MatchAcc.ofBook b q)
          b.buy_levels).1.trades := ht
      rw [j6a] at ht2
      simpa [MatchAcc.ofBook] using ht2
    obtain ⟨pl0, hpl0, o, ho, htp, htm⟩ := j6b t htn
    refine ⟨o, ?_, htm.symm, ?_⟩
    · unfold restingOrders
      exact List.mem_append.mpr
        (Or.inl ((mem_flatOrders o b.buy_levels).mpr ⟨pl0, hpl0, ho⟩))
    · have hop := hpm pl0 (List.mem_append.mpr (Or.inl hpl0)) o ho
      rw [htp, hop]

/-- C6 witness: apply the theorem on the concrete reachable book holding
one sell order. -/
theorem trade_price_eq_maker_price_witness :
    Reachable ((OrderBook.emptyBook.add_limit_order
      { id := 1, side := Side.SELL, price := 10002, quantity := 50,
        timestamp := 1000 }).2) ∧
    ∀ t ∈ (((OrderBook.emptyBook.add_limit_order
        { id := 1, side := Side.SELL, price := 10002, quantity := 50,
          timestamp := 1000 }).2).add_market_order Side.BUY 30 2 1001).1,
      ∃ o ∈ restingOrders ((OrderBook.emptyBook.add_limit_order
        { id := 1, side := Side.SELL, price := 10002, quantity := 50,
          timestamp := 1000 }).2), o.id = t.maker_id ∧ t.price = o.price :=
  ⟨Reachable.limit _ _ Reachable.emptyR,
    trade_price_eq_maker_price _ (Reachable.limit _ _ Reachable.emptyR)
      Side.BUY 30 2 1001⟩

/-- C8: on any reachable book, when a first `cancel_order(id)` returns
true, a second call returns false and leaves the book exactly as the first
call left it. -/
theorem cancel_idempotent (b : OrderBook) (hb : Reachable b) (id : Nat)
    (h1 : (b.cancel_order id).1 = true) :
    ((b.cancel_order id).2).cancel_order id = (false, (b.cancel_order id).2) := by
  obtain ⟨hsort, hknd, hsound, hpm⟩ := reachable_invR b hb
  unfold OrderBook.cancel_order at h1 ⊢
  rcases hf : lookupFind id b.order_lookup with _ | v
  · rw [hf] at h1
    cases h1
  · obtain ⟨p, s⟩ := v
    rw [hf] at h1
    simp only [hf]
    have hwit := hsound id p s hf
    cases s with
    | BUY =>
      have hflag : (removeFromLevels id p b.buy_levels).1 = true :=
        removeFromLevels_true_of_witness id p b.buy_levels hwit
      unfold OrderBook.remove_order_from_side
      simp only
      rw [if_pos hflag]
      have hnone : lookupFind id
          (({ b with
              buy_levels := (removeFromLevels id p b.buy_levels).2,
              order_lookup := lookupErase id b.order_lookup,
              order_count := b.order_count - 1 } : OrderBook).order_lookup) = none :=
        lookupFind_erase_self id _ hknd
      rw [hnone]
    | SELL =>
      have hflag : (removeFromLevels id p b.sell_levels).1 = true :=
        removeFromLevels_true_of_witness id p b.sell_levels hwit
      unfold OrderBook.remove_order_from_side
      simp only
      rw [if_pos hflag]
      have hnone : lookupFind id
          (({ b with
              sell_levels := (removeFromLevels id p b.sell_levels).2,
              order_lookup := lookupErase id b.order_lookup,
              order_count := b.order_count - 1 } : OrderBook).order_lookup) = none :=
        lookupFind_erase_self id _ hknd
      rw [hnone]

/-- C8 witness: cancel the one resting order twice on a concrete book. -/
theorem cancel_idempotent_witness :
    Reachable ((OrderBook.emptyBook.add_limit_order
      { id := 1, side := Side.BUY, price := 100, quantity := 5,
        timestamp := 0 }).2) ∧
    (((OrderBook.emptyBook.add_limit_order
      { id := 1, side := Side.BUY, price := 100, quantity := 5,
        timestamp := 0 }).2).cancel_order 1).1 = true ∧
    ((((OrderBook.emptyBook.add_limit_order
      { id := 1, side := Side.BUY, price := 100, quantity := 5,
        timestamp := 0 }).2).cancel_order 1).2).cancel_order 1 =
      (false, (((OrderBook.emptyBook.add_limit_order
        { id := 1, side := Side.BUY, price := 100, quantity := 5,
          timestamp := 0 }).2).cancel_order 1).2) :=
  ⟨Reachable.limit _ _ Reachable.emptyR, by decide,
    cancel_idempotent _ (Reachable.limit _ _ Reachable.emptyR) 1 (by decide)⟩

/-- C7: within one `add_market_order` call on a reachable book, trades
execute at prices no worse for the aggressor as the list proceeds
(non-decreasing ask prices for a Buy, non-increasing bid prices for a
Sell), and at each price the trades' maker ids form an initial segment of
that level's FIFO queue, i.e. earlier trades consume earlier-appended
makers. -/
theorem market_order_price_time_priority (b : OrderBook) (hb : Reachable b)
    (side : Side) (q : Int) (tid : Nat) (ts : Int) :
    List.Pairwise (fun t1 t2 : Trade =>
      match side with
      | Side.BUY => t1.price ≤ t2.price
      | Side.SELL => t2.price ≤ t1.price) (b.add_market_order side q tid ts).1 ∧
    ∀ p, ∃ k,
      (((b.add_market_order side q tid ts).1.filter
        (fun t => decide (t.price = p))).map Trade.maker_id) =
      ((ordersAtLevel (oppositeLevels b side) p).map Order.id).take k := by
  obtain ⟨hsort, hknd, hsound, hpm⟩ := reachable_invR b hb
  cases side with
  | BUY =>
    obtain ⟨nt, ha, hmem, hpw, hfifo⟩ :=
      matchLevels_trades_spec sellLt sellLt_ok tid ts b.sell_levels
        (MatchAcc.ofBook b q) hsort.2
    have htr : (b.add_market_order Side.BUY q tid ts).1 = nt := by
      have h2 : (b.add_market_order Side.BUY q tid ts).1 =
          (matchLevels tid ts (MatchAcc.ofBook b q) b.sell_levels).1.trades := rfl
      rw [h2, ha]
      simp [MatchAcc.ofBook]
    rw [htr]
    constructor
    · refine hpw.imp ?_
      intro t1 t2 h
      rcases h with h | h
      · exact le_of_eq h
      · exact le_of_lt ((sellLt_eq_true _ _).mp h)
    · intro p
      exact hfifo p
  | SELL =>
    obtain ⟨nt, ha, hmem, hpw, hfifo⟩ :=
      matchLevels_trades_spec buyLt buyLt_ok tid ts b.buy_levels
        (MatchAcc.ofBook b q) hsort.1
    have htr : (b.add_market_order Side.SELL q tid ts).1 = nt := by
      have h2 : (b.add_market_order Side.SELL q tid ts).1 =
          (matchLevels tid ts (MatchAcc.ofBook b q) b.buy_levels).1.trades := rfl
      rw [h2, ha]
      simp [MatchAcc.ofBook]
    rw [htr]
    constructor
    · refine hpw.imp ?_
      intro t1 t2 h
      rcases h with h | h
      · exact le_of_eq h.symm
      · exact le_of_lt ((buyLt_eq_true _ _).mp h)
    · intro p
      exact hfifo p

/-- C7 witness: apply the theorem on a concrete reachable two-level book. -/
theorem market_order_price_time_priority_witness :
    Reachable (((OrderBook.emptyBook.add_limit_order
      { id := 1, side := Side.SELL, price := 10002, quantity := 40,
        timestamp := 1000 }).2).add_limit_order
      { id := 2, side := Side.SELL, price := 10003, quantity := 50,
        timestamp := 1001 }).2 ∧
    (List.Pairwise (fun t1 t2 : Trade => t1.price ≤ t2.price)
      ((((((OrderBook.emptyBook.add_limit_order
        { id := 1, side := Side.SELL, price := 10002, quantity := 40,
          timestamp := 1000 }).2).add_limit_order
        { id := 2, side := Side.SELL, price := 10003, quantity := 50,
          timestamp := 1001 }).2)).add_market_order Side.BUY 70 3 1002).1 ∧
    ∀ p, ∃ k,
      ((((((((OrderBook.emptyBook.add_limit_order
        { id := 1, side := Side.SELL, price := 10002, quantity := 40,
          timestamp := 1000 }).2).add_limit_order
        { id := 2, side := Side.SELL, price := 10003, quantity := 50,
          timestamp := 1001 }).2)).add_market_order Side.BUY 70 3 1002).1.filter
        (fun t => decide (t.price = p))).map Trade.maker_id) =
      ((ordersAtLevel (oppositeLevels ((((OrderBook.emptyBook.add_limit_order
        { id := 1, side := Side.SELL, price := 10002, quantity := 40,
          timestamp := 1000 }).2).add_limit_order
        { id := 2, side := Side.SELL, price := 10003, quantity := 50,
          timestamp := 1001 }).2) Side.BUY) p).map Order.id).take k) :=
  ⟨Reachable.limit _ _ (Reachable.limit _ _ Reachable.emptyR),
    market_order_price_time_priority _
      (Reachable.limit _ _ (Reachable.limit _ _ Reachable.emptyR))
      Side.BUY 70 3 1002⟩

end MMS
